import Mathlib

/-!
# GluCat matrix multivectors: a shallow embedding of `glucat/matrix_multi_imp.h`

The definitions below follow `src/glucat/matrix_multi_imp.h` function by function.
Code of the library that the file calls but does not define (index sets, the sparse
representation, the generator table, LU factorisation) is either modelled from the
specification, and marked so, or taken as a parameter: in the record `Prims`, in
the record `Sparse` for the operations `fast` uses, or as an argument of the function
that needs it.

Conventions.
* `index_t` (a typedef of `int`) and `int` are 32 bit two's complement integers,
  embedded in `Int`;
  `to_int` wraps a mathematical integer into that range where the C++ arithmetic
  can leave it.
* The basis cache is process wide mutable state: every function that can reach
  `basis_element` takes the cache and returns the cache it leaves behind.
* A raised exception is a value of `exception`; a call returns `Except exception _`
  together with the state that survives the call.
-/

set_option linter.unusedSectionVars false

namespace glucat

/-! ## Integers -/

/-- Width of `int` in bits. -/
def int_bits : Nat := 32

/-- Value of a mathematical integer after it is stored in an `int`
(two's complement wrap-around). -/
def to_int (x : Int) : Int :=
  (x + 2 ^ (int_bits - 1)) % 2 ^ int_bits - 2 ^ (int_bits - 1)

/-- Modelled from the spec: `pos_mod(a, b)`, the non-negative remainder of `a`
modulo `b` (defined in the library's global header, not in this file). -/
def pos_mod (a b : Int) : Int := a % b

/-- The C++ expression `a << n` on `int`: the product `a * 2^n` as far as it fits an
`int`, and its two's complement wrap-around beyond that, where C++ leaves the result
undefined. -/
def shl_int (a : Int) (n : Int) : Int := to_int (a * 2 ^ n.toNat)

/-! ## Index sets and frames -/

/-- Modelled from the spec: `index_set<LO,HI>`, a set of integer generator indices;
positive indices name positive-square generators, negative indices negative-square
ones. -/
abbrev index_set := Finset Int

/-- Modelled from the spec: `index_set::count_pos()`, the number of positive indices. -/
def count_pos (s : index_set) : Int := ((s.filter (fun i => 0 < i)).card : Int)

/-- Modelled from the spec: `index_set::count_neg()`, the number of negative indices. -/
def count_neg (s : index_set) : Int := ((s.filter (fun i => i < 0)).card : Int)

/-- Modelled from the spec: `index_set::max()`, the largest member, 0 for the empty set. -/
def index_set_max (s : index_set) : Int := if h : s.Nonempty then s.max' h else 0

/-- Modelled from the spec: `index_set::min()`, the smallest member, 0 for the empty set. -/
def index_set_min (s : index_set) : Int := if h : s.Nonempty then s.min' h else 0

/-- Table `offset_log2_dim` of `offset_level`. -/
def offset_log2_dim : List Int := [0, 1, 0, 1, 1, 2, 1, 1]

/-- Determine the log2 dim corresponding to signature p, q. -/
def offset_level (p q : Int) : Int :=
  let bott := pos_mod (p - q) 8
  Int.tdiv (p + q) 2 + offset_log2_dim.getD bott.toNat 0

/-- Determine the matrix dimension of the fold of a subalgebra:
`1 << offset_level(sub.count_pos(), sub.count_neg())`. -/
def folded_dim (sub : index_set) : Int :=
  shl_int 1 (offset_level (count_pos sub) (count_neg sub))

/-! ## Scalars and matrices -/

/-- Operations of the scalar type `Scalar_T` that C++ provides beside the arithmetic
operators: the comparisons `!=` and `<`, `std::abs`, conversion from `int`, and the
members of `std::numeric_limits<Scalar_T>` the file reads. `log_zero` is
`Scalar_T(std::log(0.0))`. -/
class Scalar_T (α : Type) where
  ne : α → α → Bool
  lt : α → α → Bool
  abs : α → α
  of_int : Int → α
  has_quiet_NaN : Bool
  quiet_NaN : α
  log_zero : α

/-- A uBLAS matrix: its two dimensions and its entries. Entries outside the two
dimensions are never read by the operations below. -/
structure matrix_t (α : Type) where
  size1 : Nat
  size2 : Nat
  data : Nat → Nat → α

section matrices

variable {α : Type} [Add α] [Sub α] [Mul α] [Div α] [Neg α] [Scalar_T α]

/-- The C++ comparison `a == b` on scalars, the negation of `a != b`. -/
def scalar_eq (a b : α) : Bool := !(Scalar_T.ne a b)

/-- The matrix `matrix_t(n, m)`: `n` by `m`, no stored entry, so every entry reads zero. -/
def matrix_t.sized (n m : Nat) : matrix_t α :=
  { size1 := n, size2 := m, data := fun _ _ => Scalar_T.of_int 0 }

/-- The default constructed matrix `matrix_t()`. -/
def matrix_t.empty : matrix_t α := matrix_t.sized 0 0

/-- The call `A.resize(n, m)`: entries inside the old and the new dimensions are kept,
the others read zero. -/
def matrix_t.resize (A : matrix_t α) (n m : Nat) : matrix_t α :=
  { size1 := n, size2 := m,
    data := fun i j => if i < A.size1 ∧ j < A.size2 then A.data i j else Scalar_T.of_int 0 }

/-- The statement `A += B`: entrywise sum, stored in `A`. -/
def matrix_t.plus_assign (A B : matrix_t α) : matrix_t α :=
  { A with data := fun i j => A.data i j + B.data i j }

/-- The statement `A -= B`: entrywise difference, stored in `A`. -/
def matrix_t.minus_assign (A B : matrix_t α) : matrix_t α :=
  { A with data := fun i j => A.data i j - B.data i j }

/-- The expression `A - B`. -/
def matrix_t.minus (A B : matrix_t α) : matrix_t α :=
  { A with data := fun i j => A.data i j - B.data i j }

/-- The expression `A * s` (and the statement `A *= s`) for a scalar `s`. -/
def matrix_t.times (A : matrix_t α) (s : α) : matrix_t α :=
  { A with data := fun i j => A.data i j * s }

/-- The expression `-A`. -/
def matrix_t.negate (A : matrix_t α) : matrix_t α :=
  { A with data := fun i j => - A.data i j }

/-- The expression `ublas::trans(A)`. -/
def matrix_t.trans (A : matrix_t α) : matrix_t α :=
  { size1 := A.size2, size2 := A.size1, data := fun i j => A.data j i }

/-- Sum of `f 0 + ... + f (n-1)`, accumulated from zero. -/
def sum_upto (n : Nat) (f : Nat → α) : α :=
  (List.range n).foldl (fun s k => s + f k) (Scalar_T.of_int 0)

/-- The larger of two scalars by the C++ comparison `<`. -/
def scalar_max (a b : α) : α := if Scalar_T.lt a b then b else a

/-- The expression `ublas::norm_inf(A)`: the largest row sum of absolute values. -/
def norm_inf (A : matrix_t α) : α :=
  (List.range A.size1).foldl
    (fun t i => scalar_max t (sum_upto A.size2 (fun j => Scalar_T.abs (A.data i j))))
    (Scalar_T.of_int 0)

/-- Modelled from the spec: `matrix::unit<matrix_t>(dim)`, "unit matrix construction",
the identity matrix of side `dim` (defined in the library's matrix header); like every
sparse matrix it reads zero where nothing is stored. -/
def unit (dim : Nat) : matrix_t α :=
  { size1 := dim, size2 := dim,
    data := fun i j => if i = j ∧ i < dim then Scalar_T.of_int 1 else Scalar_T.of_int 0 }

/-- Modelled from the spec: `matrix::sparse_prod(A, B)`, the "sparse-aware product
primitive" with which the geometric product "matrix-multiplies" (defined in the
library's matrix header): the matrix product of `A` and `B`. -/
def sparse_prod (A B : matrix_t α) : matrix_t α :=
  { size1 := A.size1, size2 := B.size2,
    data := fun i j => sum_upto A.size2 (fun k => A.data i k * B.data k j) }

end matrices

/-! ## Exceptions, the two representations, collaborators -/

/-- A raised C++ exception. `glucat_error name msg` is the library's own error class
(`error_t(msg)` in this file is `error<matrix_multi>`, whose name is `classname()`);
`other` is any exception that does not derive from `glucat_error`. -/
inductive exception where
  | glucat_error (name : String) (msg : String)
  | other (what : String)
  deriving DecidableEq

/-- Class name used in messages. -/
def classname : String := "matrix_multi"

/-- The exception `error_t(msg)` thrown by this file. -/
def error_t (msg : String) : exception := exception.glucat_error classname msg

/-- Modelled from the spec: `framed_multi<Scalar_T,LO,HI>`, the sparse representation,
"a sparse sum of graded basis terms": the terms in iteration order, each an index set
with its coordinate. -/
structure framed_multi (α : Type) where
  terms : List (index_set × α)

/-- Modelled from the spec: `framed_multi::frame()`, the union of the index sets of
the terms. -/
def framed_multi.frame {α : Type} (val : framed_multi α) : index_set :=
  val.terms.foldr (fun t s => t.1 ∪ s) ∅

/-- Modelled from the spec: `framed_multi::size()`, the number of terms. -/
def framed_multi.size {α : Type} (val : framed_multi α) : Nat := val.terms.length

/-- Modelled from the spec: the conversion `framed_multi_t(scr)` of a scalar, the
sparse multivector whose only term is the scalar `scr`. -/
def framed_of_scalar {α : Type} (scr : α) : framed_multi α := { terms := [(∅, scr)] }

/-- An input stream `std::istream` as far as this file reads it: the characters left
to read and the three state bits. `bad()` is `badbit`; `fail()` is
`failbit || badbit`. -/
structure istream where
  rest : String
  eofbit : Bool
  failbit : Bool
  badbit : Bool

/-- The member `bad()` of a stream. -/
def istream.bad (s : istream) : Bool := s.badbit

/-- The member `fail()` of a stream: the stream is in a failed state. -/
def istream.fail (s : istream) : Bool := s.failbit || s.badbit

/-- The matrix representation of a multivector: a frame and a matrix. -/
structure matrix_multi (α : Type) where
  m_frame : index_set
  m_matrix : matrix_t α

/-- Accessor `frame()`. -/
def matrix_multi.frame {α : Type} (x : matrix_multi α) : index_set := x.m_frame

/-- Tuning constants `Tune_P` (declared outside this file). -/
structure Tune_P where
  fast_size_threshold : Nat
  basis_max_count : Int
  div_max_steps : Int

/-- Code that this file calls and that is defined elsewhere in the library or in
uBLAS, taken as parameters.
* `fold frm` is `frm.fold()` and `fold_in ist frm` is `ist.fold(frm)`;
* `generator p q k` is the matrix `e[k]` of `generator_table::generator()(p, q)`;
* `mono_prod` is `matrix::mono_prod`;
* `to_framed val` is the conversion `framed_multi_t(val)` of a matrix multivector;
* `fast_matrix_multi val frm` is `val.fast_matrix_multi(frm)` on the sparse
  representation;
* `framed_div` is the quotient of two sparse multivectors;
* `lu_factorize A` is `ublas::lu_factorize(LU, pvector)` started with `LU = A`: the
  returned number (0 when the factorisation succeeds), the factorised matrix and the
  permutation;
* `lu_substitute LU pvector X` is the matrix `ublas::lu_substitute` leaves in `X`;
* `framed_outer` is the outer product `lhs ^= rhs` of two sparse multivectors;
* `framed_grade val grade` is `val(grade)`, the grade part of a sparse multivector;
* `framed_equals` is `==` on sparse multivectors;
* `matrix_equals` is `ublas::equals` on two matrices;
* `read_framed s` is `s >> local` for a sparse multivector `local`: the value read
  and the stream after the extraction. -/
structure Prims (α : Type) where
  fold : index_set → index_set
  fold_in : index_set → index_set → index_set
  generator : Int → Int → Int → matrix_t α
  mono_prod : matrix_t α → matrix_t α → matrix_t α
  to_framed : matrix_multi α → Except exception (framed_multi α)
  fast_matrix_multi : framed_multi α → index_set → Except exception (matrix_multi α)
  framed_div : framed_multi α → framed_multi α → Except exception (framed_multi α)
  lu_factorize : matrix_t α → Nat × matrix_t α × List Nat
  lu_substitute : matrix_t α → List Nat → matrix_t α → matrix_t α
  framed_outer : framed_multi α → framed_multi α → Except exception (framed_multi α)
  framed_grade : framed_multi α → Int → Except exception (framed_multi α)
  framed_equals : framed_multi α → framed_multi α → Bool
  matrix_equals : matrix_t α → matrix_t α → Bool
  read_framed : istream → framed_multi α × istream

/-- Default value `index_set_t()` of the parameter `frm` of the constructors from a
scalar and from an int ("within a frame, if given"); the default is declared in the
class definition, outside this file. -/
def default_frm : index_set := ∅

/-! ## Basis elements and their cache -/

/-- Table of basis elements used as a cache by `basis_element()`: a `std::map` from
(folded index set, folded frame) to a matrix. -/
abbrev basis_table (α : Type) := index_set × index_set → Option (matrix_t α)

/-- The cache at program start. -/
def basis_table.empty {α : Type} : basis_table α := fun _ => none

/-- The call `basis_cache.insert(pair(key, value))` of `std::map`: the entry is added
unless the key is already present. -/
def basis_table.insert {α : Type} (t : basis_table α) (key : index_set × index_set)
    (value : matrix_t α) : basis_table α :=
  fun k => if k = key then (match t key with | some old => some old | none => some value)
    else t k

/-- The indices `lo, lo+1, ..., hi` a loop `for (k = lo; k <= hi; ++k)` visits. -/
def index_range (lo hi : Int) : List Int :=
  (List.range (hi - lo + 1).toNat).map (fun (i : Nat) => lo + (i : Int))

section code

variable {α : Type} [Add α] [Sub α] [Mul α] [Div α] [Neg α] [Scalar_T α]

/-- The product loop of `basis_element`: starting from `unit(dim)`, for `k` from
`folded_min` to `folded_max`, multiply on the right by `e[k]` when `folded_set[k]`. -/
def generator_product (P : Prims α) (e : Int → matrix_t α) (folded_set : index_set)
    (folded_min folded_max : Int) (dim : Int) : matrix_t α :=
  (index_range folded_min folded_max).foldl
    (fun r k => if k ∈ folded_set then P.mono_prod r (e k) else r) (unit dim.toNat)

/-- Create a basis element matrix within a frame. Returns the matrix and the cache
after the call. -/
def basis_element (P : Prims α) (T : Tune_P) (ist m_frame : index_set)
    (basis_cache : basis_table α) : matrix_t α × basis_table α :=
  let folded_set := P.fold_in ist m_frame
  let folded_frame := P.fold m_frame
  let folded_max := index_set_max folded_frame
  let folded_min := index_set_min folded_frame
  let dim := folded_dim m_frame
  let p := max folded_max 0
  let q := max (-folded_min) 0
  let folded_pair := (folded_set, folded_frame)
  match (if p + q ≤ T.basis_max_count then basis_cache folded_pair else none) with
  | some found => (found, basis_cache)
  | none =>
    let e := P.generator p q
    let result := generator_product P e folded_set folded_min folded_max dim
    if p + q ≤ T.basis_max_count then (result, basis_cache.insert folded_pair result)
    else (result, basis_cache)

/-- Add a term, if non-zero: `operator+= (const pair_t& term)`. -/
def add_term (P : Prims α) (T : Tune_P) (x : matrix_multi α) (term : index_set × α)
    (c : basis_table α) : matrix_multi α × basis_table α :=
  if Scalar_T.ne term.2 (Scalar_T.of_int 0) then
    let r := basis_element P T term.1 x.m_frame c
    ({ x with m_matrix := x.m_matrix.plus_assign (r.1.times term.2) }, r.2)
  else (x, c)

/-- The object under construction after `m_frame( frm )` and
`m_matrix.resize(dim, dim)` with `dim = folded_dim(m_frame)`. -/
def sized_in_frame (frm : index_set) : matrix_multi α :=
  { m_frame := frm,
    m_matrix := matrix_t.empty.resize (folded_dim frm).toNat (folded_dim frm).toNat }

/-- Default constructor. -/
def ctor_default : matrix_multi α :=
  { m_frame := ∅, m_matrix := matrix_t.sized 1 1 }

/-- Construct a multivector from an index set and a scalar coordinate. -/
def ctor_ist_crd (P : Prims α) (T : Tune_P) (ist : index_set) (crd : α)
    (c : basis_table α) : Except exception (matrix_multi α) × basis_table α :=
  let r := add_term P T (sized_in_frame ist) (ist, crd) c
  (.ok r.1, r.2)

/-- Construct a multivector, within a given frame, from an index set and a scalar
coordinate. -/
def ctor_ist_crd_frm (P : Prims α) (T : Tune_P) (ist : index_set) (crd : α)
    (frm : index_set) (prechecked : Bool) (c : basis_table α) :
    Except exception (matrix_multi α) × basis_table α :=
  if !prechecked && (ist ∪ frm) != frm then
    (.error (error_t
      "multivector_t(ist,crd,frm): cannot initialize with value outside of frame"), c)
  else
    let r := add_term P T (sized_in_frame frm) (ist, crd) c
    (.ok r.1, r.2)

/-- Construct a multivector from a scalar (within a frame, if given). -/
def ctor_scr_frm (P : Prims α) (T : Tune_P) (scr : α) (frm : index_set)
    (c : basis_table α) : Except exception (matrix_multi α) × basis_table α :=
  let r := add_term P T (sized_in_frame frm) (∅, scr) c
  (.ok r.1, r.2)

/-- Construct a multivector from an int (within a frame, if given). -/
def ctor_int_frm (P : Prims α) (T : Tune_P) (scr : Int) (frm : index_set)
    (c : basis_table α) : Except exception (matrix_multi α) × basis_table α :=
  ctor_scr_frm P T (Scalar_T.of_int scr) frm c

/-- The loop of the constructor from a vector: for each index of the frame in
ascending order add the term with the coordinate `*scvec` and advance `scvec`.
`k` is the position of `scvec`; dereferencing it at or past `vec.end()` has no
defined behaviour and is reported as an exception that is not a `glucat_error`. -/
def vec_loop (P : Prims α) (T : Tune_P) (vec : List α) (frm : index_set) :
    List Int → Nat → matrix_multi α → basis_table α →
    Except exception (matrix_multi α) × basis_table α
  | [], _, x, c => (.ok x, c)
  | idx :: rest, k, x, c =>
    if idx ∈ frm then
      match vec.get? k with
      | none => (.error (exception.other "scvec dereferenced past the end of vec"), c)
      | some crd =>
        let r := add_term P T x ({idx}, crd) c
        vec_loop P T vec frm rest (k + 1) r.1 r.2
    else vec_loop P T vec frm rest k x c

/-- Construct a multivector, within a given frame, from a given vector. -/
def ctor_vec_frm (P : Prims α) (T : Tune_P) (vec : List α) (frm : index_set)
    (prechecked : Bool) (c : basis_table α) :
    Except exception (matrix_multi α) × basis_table α :=
  if !prechecked && ((vec.length : Int) != (frm.card : Int)) then
    (.error (error_t
      "multivector_t(vec,frm): cannot initialize with vector not matching frame"), c)
  else
    let begin_index := index_set_min frm
    let end_index := index_set_max frm + 1
    vec_loop P T vec frm (index_range begin_index (end_index - 1)) 0 (sized_in_frame frm) c

/-- The term by term path of the constructors from a sparse multivector:
`m_matrix.resize(dim, dim)`, then `*this += *scan` for every term of `val`. -/
def term_by_term (P : Prims α) (T : Tune_P) (val : framed_multi α) (frm : index_set)
    (c : basis_table α) : matrix_multi α × basis_table α :=
  val.terms.foldl (fun s term => add_term P T s.1 term s.2) (sized_in_frame frm, c)

/-- The body shared by the two constructors from a sparse multivector once `m_frame`
is set to `frm`: above the threshold try `val.fast_matrix_multi(m_frame)`, and on a
`glucat_error`, or below the threshold, build the matrix term by term. -/
def from_framed (P : Prims α) (T : Tune_P) (val : framed_multi α) (frm : index_set)
    (c : basis_table α) : Except exception (matrix_multi α) × basis_table α :=
  if T.fast_size_threshold ≤ val.size then
    match P.fast_matrix_multi val frm with
    | .ok r => (.ok r, c)
    | .error (exception.glucat_error _ _) =>
      let r := term_by_term P T val frm c
      (.ok r.1, r.2)
    | .error e => (.error e, c)
  else
    let r := term_by_term P T val frm c
    (.ok r.1, r.2)

/-- Construct a multivector from a framed_multi_t. -/
def ctor_framed (P : Prims α) (T : Tune_P) (val : framed_multi α) (c : basis_table α) :
    Except exception (matrix_multi α) × basis_table α :=
  from_framed P T val val.frame c

/-- Construct a multivector, within a given frame, from a framed_multi_t. -/
def ctor_framed_frm (P : Prims α) (T : Tune_P) (val : framed_multi α) (frm : index_set)
    (prechecked : Bool) (c : basis_table α) :
    Except exception (matrix_multi α) × basis_table α :=
  if !prechecked && (val.frame ∪ frm) != frm then
    (.error (error_t
      "multivector_t(val,frm): cannot initialize with value outside of frame"), c)
  else from_framed P T val frm c

/-- The expression `multivector_t(framed_multi_t(val), frm, true)`: convert `val` to
the sparse representation, then construct within `frm` without the frame check. -/
def via_framed (P : Prims α) (T : Tune_P) (val : matrix_multi α) (frm : index_set)
    (c : basis_table α) : Except exception (matrix_multi α) × basis_table α :=
  match P.to_framed val with
  | .error e => (.error e, c)
  | .ok f => ctor_framed_frm P T f frm true c

/-- Construct a multivector, within a given frame, from a given multivector. -/
def ctor_multi_frm (P : Prims α) (T : Tune_P) (val : matrix_multi α) (frm : index_set)
    (prechecked : Bool) (c : basis_table α) :
    Except exception (matrix_multi α) × basis_table α :=
  if !prechecked && (val.frame ∪ frm) != frm then
    (.error (error_t
      "multivector_t(val,frm): cannot initialize with value outside of frame"), c)
  else via_framed P T val frm c

/-- Construct a multivector within a given frame from a given matrix:
`m_matrix.resize(dim, dim); m_matrix = mtx;`. The uBLAS assignment of a matrix to a
matrix of the same type copies the dimensions and the entries of the right hand side,
so it replaces the resized matrix, dimensions included, by `mtx`. -/
def ctor_mtx_frm (mtx : matrix_t α) (frm : index_set) : matrix_multi α :=
  { (sized_in_frame frm : matrix_multi α) with m_matrix := mtx }

/-! ## Arithmetic -/

/-- State after a call of a mutating member function: the exception it raised, if
any, the receiver `*this` and the basis cache as the call leaves them. -/
structure Upd (α : Type) where
  raised : Option exception
  self : matrix_multi α
  cache : basis_table α

/-- The statement `*this = <constructor call>`: when the constructor returns, the
receiver becomes the new value; when it raises, the receiver is untouched. -/
def assign_from (x : matrix_multi α)
    (r : Except exception (matrix_multi α) × basis_table α) : Upd α :=
  match r.1 with
  | .ok v => { raised := none, self := v, cache := r.2 }
  | .error e => { raised := some e, self := x, cache := r.2 }

/-- The statement `if (m_frame != our_frame)
*this = multivector_t(framed_multi_t(*this), our_frame, true);` that opens the sum, the
difference and the product: represent `*this` in `our_frame` via conversion through
the sparse representation. -/
def represent_in (P : Prims α) (T : Tune_P) (x : matrix_multi α) (our_frame : index_set)
    (c : basis_table α) : Upd α :=
  if x.m_frame != our_frame then assign_from x (via_framed P T x our_frame c)
  else { raised := none, self := x, cache := c }

/-- Geometric sum, `operator+= (const multivector_t& rhs)`. -/
def add_assign (P : Prims α) (T : Tune_P) (x rhs : matrix_multi α) (c : basis_table α) :
    Upd α :=
  let our_frame := x.m_frame ∪ rhs.m_frame
  let u1 := represent_in P T x our_frame c
  match u1.raised with
  | some e => { raised := some e, self := u1.self, cache := u1.cache }
  | none =>
    if rhs.m_frame == our_frame then
      { raised := none,
        self := { u1.self with m_matrix := u1.self.m_matrix.plus_assign rhs.m_matrix },
        cache := u1.cache }
    else
      match via_framed P T rhs our_frame u1.cache with
      | (.error e, c2) => { raised := some e, self := u1.self, cache := c2 }
      | (.ok our_rhs, c2) =>
        { raised := none,
          self := { u1.self with m_matrix := u1.self.m_matrix.plus_assign our_rhs.m_matrix },
          cache := c2 }

/-- Geometric difference, `operator-= (const multivector_t& rhs)`. -/
def sub_assign (P : Prims α) (T : Tune_P) (x rhs : matrix_multi α) (c : basis_table α) :
    Upd α :=
  let our_frame := x.m_frame ∪ rhs.m_frame
  let u1 := represent_in P T x our_frame c
  match u1.raised with
  | some e => { raised := some e, self := u1.self, cache := u1.cache }
  | none =>
    if rhs.m_frame == our_frame then
      { raised := none,
        self := { u1.self with m_matrix := u1.self.m_matrix.minus_assign rhs.m_matrix },
        cache := u1.cache }
    else
      match via_framed P T rhs our_frame u1.cache with
      | (.error e, c2) => { raised := some e, self := u1.self, cache := c2 }
      | (.ok our_rhs, c2) =>
        { raised := none,
          self := { u1.self with m_matrix := u1.self.m_matrix.minus_assign our_rhs.m_matrix },
          cache := c2 }

/-- Unary minus: `multivector_t(-m_matrix, m_frame)`. -/
def neg (x : matrix_multi α) : matrix_multi α :=
  ctor_mtx_frm x.m_matrix.negate x.m_frame

/-- Product of multivector and scalar, `operator*= (const Scalar_T& scr)`. The
statement `*this = 0` converts the int 0 with the constructor from an int, whose
frame parameter takes its default value. -/
def mul_assign_scr (P : Prims α) (T : Tune_P) (x : matrix_multi α) (scr : α)
    (c : basis_table α) : Upd α :=
  if scalar_eq scr (Scalar_T.of_int 0) then
    assign_from x (ctor_int_frm P T 0 default_frm c)
  else
    { raised := none, self := { x with m_matrix := x.m_matrix.times scr }, cache := c }

/-- Geometric product, `operator*= (const multivector_t& rhs)`. -/
def mul_assign (P : Prims α) (T : Tune_P) (x rhs : matrix_multi α) (c : basis_table α) :
    Upd α :=
  let our_frame := x.m_frame ∪ rhs.m_frame
  let u1 := represent_in P T x our_frame c
  match u1.raised with
  | some e => { raised := some e, self := u1.self, cache := u1.cache }
  | none =>
    if rhs.m_frame == our_frame then
      { raised := none,
        self := { u1.self with m_matrix := sparse_prod u1.self.m_matrix rhs.m_matrix },
        cache := u1.cache }
    else
      match via_framed P T rhs our_frame u1.cache with
      | (.error e, c2) => { raised := some e, self := u1.self, cache := c2 }
      | (.ok our_rhs, c2) =>
        { raised := none,
          self := { u1.self with m_matrix := sparse_prod u1.self.m_matrix our_rhs.m_matrix },
          cache := c2 }

/-- Quotient of multivector and scalar, `operator/= (const Scalar_T& scr)`. -/
def div_assign_scr (P : Prims α) (T : Tune_P) (x : matrix_multi α) (scr : α)
    (c : basis_table α) : Upd α :=
  mul_assign_scr P T x (Scalar_T.of_int 1 / scr) c

/-- The iterative refinement loop of the geometric quotient. `remaining` is
`div_max_steps - step`; the loop stops when it is 0 (`step == div_max_steps`) or when
the residual norm `nr` fails `nr < nrold && nr != 0 && nr == nr`. Returns `XT`. -/
def refine_loop (P : Prims α) (AT BT LU : matrix_t α) (pvector : List Nat) :
    Nat → Int → matrix_t α → matrix_t α → matrix_t α → α → α → matrix_t α
  | 0, _, XT, _, _, _, _ => XT
  | remaining + 1, step, XT, XTnew, R, nr, nrold =>
    if Scalar_T.lt nr nrold && Scalar_T.ne nr (Scalar_T.of_int 0) && scalar_eq nr nr then
      let nrold1 := nr
      let XT1 := if step != 0 then XTnew else XT
      let D := P.lu_substitute LU pvector R
      let XTnew1 := XTnew.minus_assign D
      let R1 := (sparse_prod AT XTnew1).minus BT
      let nr1 := norm_inf R1
      refine_loop P AT BT LU pvector remaining (step + 1) XT1 XTnew1 R1 nr1 nrold1
    else XT

/-- The non-singular branch of the geometric quotient within one frame: substitution,
then iterative refinement when `div_max_steps > 0`. Returns the matrix `XT` that is
transposed into `m_matrix`. -/
def solve_refined (P : Prims α) (T : Tune_P) (AT m_matrix LU : matrix_t α)
    (pvector : List Nat) : matrix_t α :=
  let XT := P.lu_substitute LU pvector m_matrix.trans
  if 0 < T.div_max_steps then
    let BT := m_matrix.trans
    let R := (sparse_prod AT XT).minus BT
    let nr := norm_inf R
    if Scalar_T.ne nr (Scalar_T.of_int 0) && scalar_eq nr nr then
      let XTnew := XT
      let nrold := nr + Scalar_T.of_int 1
      refine_loop P AT BT LU pvector T.div_max_steps.toNat 0 XT XTnew R nr nrold
    else XT
  else XT

/-- The number of times the body of the iterative refinement loop runs: the loop of
`refine_loop` with the same condition and the same updates, counting its
iterations. -/
def refine_count (P : Prims α) (AT BT LU : matrix_t α) (pvector : List Nat) :
    Nat → Int → matrix_t α → matrix_t α → matrix_t α → α → α → Nat
  | 0, _, _, _, _, _, _ => 0
  | remaining + 1, step, XT, XTnew, R, nr, nrold =>
    if Scalar_T.lt nr nrold && Scalar_T.ne nr (Scalar_T.of_int 0) && scalar_eq nr nr then
      let nrold1 := nr
      let XT1 := if step != 0 then XTnew else XT
      let D := P.lu_substitute LU pvector R
      let XTnew1 := XTnew.minus_assign D
      let R1 := (sparse_prod AT XTnew1).minus BT
      let nr1 := norm_inf R1
      refine_count P AT BT LU pvector remaining (step + 1) XT1 XTnew1 R1 nr1 nrold1 + 1
    else 0

/-- The number of times the body of the refinement loop runs in the non-singular
branch of the geometric quotient: the control of `solve_refined`, counting the
iterations of its loop. -/
def refine_steps (P : Prims α) (T : Tune_P) (AT m_matrix LU : matrix_t α)
    (pvector : List Nat) : Nat :=
  let XT := P.lu_substitute LU pvector m_matrix.trans
  if 0 < T.div_max_steps then
    let BT := m_matrix.trans
    let R := (sparse_prod AT XT).minus BT
    let nr := norm_inf R
    if Scalar_T.ne nr (Scalar_T.of_int 0) && scalar_eq nr nr then
      let XTnew := XT
      let nrold := nr + Scalar_T.of_int 1
      refine_count P AT BT LU pvector T.div_max_steps.toNat 0 XT XTnew R nr nrold
    else 0
  else 0

/-- The scalar assigned when the divisor is singular: IEEE NaN or -Inf. -/
def singular_value : α :=
  if (Scalar_T.has_quiet_NaN α) then Scalar_T.quiet_NaN else Scalar_T.log_zero

/-- Geometric quotient, `operator/= (const multivector_t& rhs)`. -/
def div_assign (P : Prims α) (T : Tune_P) (x rhs : matrix_multi α) (c : basis_table α) :
    Upd α :=
  if x.m_frame != rhs.m_frame then
    match P.to_framed x with
    | .error e => { raised := some e, self := x, cache := c }
    | .ok fx =>
      match P.to_framed rhs with
      | .error e => { raised := some e, self := x, cache := c }
      | .ok frhs =>
        match P.framed_div fx frhs with
        | .error e => { raised := some e, self := x, cache := c }
        | .ok quot => assign_from x (ctor_framed P T quot c)
  else
    let AT := rhs.m_matrix.trans
    let f := P.lu_factorize AT
    if f.1 = 0 then
      let XT := solve_refined P T AT x.m_matrix f.2.1 f.2.2
      { raised := none, self := { x with m_matrix := XT.trans }, cache := c }
    else
      assign_from x (ctor_scr_frm P T singular_value default_frm c)

/-- Clifford multiplicative inverse: `multivector_t result(1, m_frame);
return result /= *this;`. -/
def inv (P : Prims α) (T : Tune_P) (x : matrix_multi α) (c : basis_table α) :
    Except exception (matrix_multi α) × basis_table α :=
  match ctor_int_frm P T 1 x.m_frame c with
  | (.error e, c1) => (.error e, c1)
  | (.ok result, c1) =>
    let u := div_assign P T result x c1
    match u.raised with
    | some e => (.error e, u.cache)
    | none => (.ok u.self, u.cache)

/-- The loop `for (; m != 0; m >>= 1) { if (m & 1) result *= a; a *= a; }` of `pow`,
run for at most `fuel` iterations; `none` when the loop has not ended by then. -/
def pow_loop (P : Prims α) (T : Tune_P) :
    Nat → Int → matrix_multi α → matrix_multi α → basis_table α →
    Option (Except exception (matrix_multi α) × basis_table α)
  | 0, m, result, _, c => if m = 0 then some (.ok result, c) else none
  | fuel + 1, m, result, a, c =>
    if m = 0 then some (.ok result, c)
    else
      let u1 : Upd α :=
        if m % 2 = 1 then mul_assign P T result a c
        else { raised := none, self := result, cache := c }
      match u1.raised with
      | some e => some (.error e, u1.cache)
      | none =>
        let u2 := mul_assign P T a a u1.cache
        match u2.raised with
        | some e => some (.error e, u2.cache)
        | none => pow_loop P T fuel (Int.shiftRight m 1) u1.self u2.self u2.cache

/-- Integer power `pow(int m)`: for negative `m` the statement `m = -m` is evaluated
in `int` and `a` is the inverse; `result` starts as the multivector `1`. `none` when
the loop does not end within `fuel` iterations. -/
def pow (P : Prims α) (T : Tune_P) (fuel : Nat) (x : matrix_multi α) (m : Int)
    (c : basis_table α) : Option (Except exception (matrix_multi α) × basis_table α) :=
  let m1 : Int := if m < 0 then to_int (-m) else m
  match (if m < 0 then inv P T x c else (.ok x, c)) with
  | (.error e, c1) => some (.error e, c1)
  | (.ok a, c1) =>
    match ctor_int_frm P T 1 default_frm c1 with
    | (.error e, c2) => some (.error e, c2)
    | (.ok result, c2) => pow_loop P T fuel m1 result a c2

/-- Check if a multivector contains any IEEE NaN values: true when some entry
compares unequal to itself. -/
def isnan (x : matrix_multi α) : Bool :=
  (List.range x.m_matrix.size1).any (fun i =>
    (List.range x.m_matrix.size2).any (fun j =>
      Scalar_T.ne (x.m_matrix.data i j) (x.m_matrix.data i j)))

/-- Test for equality of multivectors, `operator== (const multivector_t& rhs)`. -/
def eq_multi (P : Prims α) (x rhs : matrix_multi α) : Except exception Bool :=
  if x.m_frame != rhs.m_frame then
    match P.to_framed x with
    | .error e => .error e
    | .ok fx =>
      match P.to_framed rhs with
      | .error e => .error e
      | .ok frhs => .ok (P.framed_equals fx frhs)
  else .ok (P.matrix_equals x.m_matrix rhs.m_matrix)

/-- Test for equality of multivector and scalar, `operator== (const Scalar_T& scr)`:
`(*this) == multivector_t(framed_multi_t(scr), m_frame, true)`. -/
def eq_scr (P : Prims α) (T : Tune_P) (x : matrix_multi α) (scr : α) (c : basis_table α) :
    Except exception Bool × basis_table α :=
  match ctor_framed_frm P T (framed_of_scalar scr) x.m_frame true c with
  | (.error e, c1) => (.error e, c1)
  | (.ok promoted, c1) => (eq_multi P x promoted, c1)

/-- Outer product, `operator^= (const multivector_t& rhs)`:
`framed_multi_t lhs(*this); return *this = lhs ^= framed_multi_t(rhs);`. The product
is converted back by the constructor from a framed_multi_t. -/
def outer_assign (P : Prims α) (T : Tune_P) (x rhs : matrix_multi α) (c : basis_table α) :
    Upd α :=
  match P.to_framed x with
  | .error e => { raised := some e, self := x, cache := c }
  | .ok lhs =>
    match P.to_framed rhs with
    | .error e => { raised := some e, self := x, cache := c }
    | .ok frhs =>
      match P.framed_outer lhs frhs with
      | .error e => { raised := some e, self := x, cache := c }
      | .ok prod => assign_from x (ctor_framed P T prod c)

/-- The loop `for (; m != 0; m >>= 1) { if (m & 1) result ^= a; a ^= a; }` of
`outer_pow`, run for at most `fuel` iterations; `none` when the loop has not ended by
then. -/
def outer_pow_loop (P : Prims α) (T : Tune_P) :
    Nat → Int → matrix_multi α → matrix_multi α → basis_table α →
    Option (Except exception (matrix_multi α) × basis_table α)
  | 0, m, result, _, c => if m = 0 then some (.ok result, c) else none
  | fuel + 1, m, result, a, c =>
    if m = 0 then some (.ok result, c)
    else
      let u1 : Upd α :=
        if m % 2 = 1 then outer_assign P T result a c
        else { raised := none, self := result, cache := c }
      match u1.raised with
      | some e => some (.error e, u1.cache)
      | none =>
        let u2 := outer_assign P T a a u1.cache
        match u2.raised with
        | some e => some (.error e, u2.cache)
        | none => outer_pow_loop P T fuel (Int.shiftRight m 1) u1.self u2.self u2.cache

/-- Outer product power `outer_pow(int m)`. `none` when the loop does not end within
`fuel` iterations. -/
def outer_pow (P : Prims α) (T : Tune_P) (fuel : Nat) (x : matrix_multi α) (m : Int)
    (c : basis_table α) : Option (Except exception (matrix_multi α) × basis_table α) :=
  if m < 0 then some (.error (error_t "outer_pow(m): negative exponent"), c)
  else
    match ctor_int_frm P T 1 default_frm c with
    | (.error e, c1) => some (.error e, c1)
    | (.ok result, c1) => outer_pow_loop P T fuel m result x c1

/-- Grading: part where each term is a grade-vector, `operator() (index_t grade)`.
`LO` and `HI` are the template parameters of the class. `return 0` converts the int
0 with the constructor from an int; the grade part of the sparse representation is
converted back by the constructor from a framed_multi_t. -/
def grade_part (P : Prims α) (T : Tune_P) (LO HI : Int) (x : matrix_multi α) (grade : Int)
    (c : basis_table α) : Except exception (matrix_multi α) × basis_table α :=
  if grade < 0 || grade > HI - LO then ctor_int_frm P T 0 default_frm c
  else
    match P.to_framed x with
    | .error e => (.error e, c)
    | .ok f =>
      match P.framed_grade f grade with
      | .error e => (.error e, c)
      | .ok part => ctor_framed P T part c

/-- Stream input `operator>> (std::istream& s, matrix_multi& val)`: read a sparse
multivector `local`, then `if (!s.bad()) val = local;`. Returns the stream and the
state of `val` after the call. -/
def read_multi (P : Prims α) (T : Tune_P) (s : istream) (val : matrix_multi α)
    (c : basis_table α) : istream × Upd α :=
  let r := P.read_framed s
  if !r.2.bad then (r.2, assign_from val (ctor_framed P T r.1 c))
  else (r.2, { raised := none, self := val, cache := c })

end code

/-! ## Signature shifting of `fast_framed_multi` -/

/-- The loop `while (p-q > 4) { p -= 4; q += 4; }` of `fast_framed_multi`. -/
def shift_pm4_qp4 (p q : Int) : Int × Int :=
  if p - q > 4 then shift_pm4_qp4 (p - 4) (q + 4) else (p, q)
termination_by (p - q).toNat
decreasing_by omega

/-- The loop `while (p-q < -3) { p += 4; q -= 4; }` of `fast_framed_multi`. -/
def shift_pp4_qm4 (p q : Int) : Int × Int :=
  if p - q < -3 then shift_pp4_qm4 (p + 4) (q - 4) else (p, q)
termination_by (q - p).toNat
decreasing_by omega

/-- The conditional swap `if (p-q > 1) { old_p = p; p = q+1; q = old_p-1; }` of
`fast_framed_multi`. -/
def swap_qp1_pm1 (p q : Int) : Int × Int :=
  if p - q > 1 then (q + 1, p - 1) else (p, q)

/-- The two shifting loops of `fast_framed_multi`, one after the other. -/
def shift_loops (p q : Int) : Int × Int :=
  shift_pp4_qm4 (shift_pm4_qp4 p q).1 (shift_pm4_qp4 p q).2

/-- The off-centring at the start of `fast_framed_multi`:
`bott = pos_mod(p-q, 8); p += max(offset_to_super[bott], 0);
q -= min(offset_to_super[bott], 0);`. The table `gen::offset_to_super` is declared
outside this file and is a parameter. Returns `(orig_p, orig_q)`. -/
def off_centre (offset_to_super : List Int) (p q : Int) : Int × Int :=
  let bott := pos_mod (p - q) 8
  (p + max (offset_to_super.getD bott.toNat 0) 0,
   q - min (offset_to_super.getD bott.toNat 0) 0)

/-- The signature `(p, q)` that `fast_framed_multi` has reached when it calls `fast`:
the off-centring, the two shifting loops and the conditional swap, from the counts
`(p0, q0)` of the frame. -/
def centred_signature (offset_to_super : List Int) (p0 q0 : Int) : Int × Int :=
  swap_qp1_pm1
    (shift_loops (off_centre offset_to_super p0 q0).1 (off_centre offset_to_super p0 q0).2).1
    (shift_loops (off_centre offset_to_super p0 q0).1 (off_centre offset_to_super p0 q0).2).2

/-- The level `(p+q)/2` that `fast_framed_multi` passes to `fast`. -/
def fast_level (offset_to_super : List Int) (p0 q0 : Int) : Int :=
  Int.tdiv ((centred_signature offset_to_super p0 q0).1
    + (centred_signature offset_to_super p0 q0).2) 2

/-- A loop `while (p != orig_p) val.centre(p, q);` of `fast_framed_multi` as far as
the signature goes: `centre` is what the call does to `(p, q)`, which it takes by
reference. `none` when the loop has not ended after `fuel` iterations. -/
def centre_loop (centre : Int × Int → Int × Int) (orig_p : Int) :
    Nat → Int × Int → Option (Int × Int)
  | 0, s => if s.1 != orig_p then none else some s
  | fuel + 1, s =>
    if s.1 != orig_p then centre_loop centre orig_p fuel (centre s) else some s

/-- The signature `(p, q)` at the end of `fast_framed_multi`, from `(orig_p, orig_q)`
on: the shifting loops, the swap, then the off-centring `switch` and the two
conditional loops, with `centre_qp1_pm1`, `centre_pp4_qm4` and `centre_pm4_qp4` the
actions on `(p, q)` of the members of the sparse representation of those names
(defined outside this file). `none` when a loop has not ended after `fuel`
iterations. -/
def recentred_signature (centre_qp1_pm1 centre_pp4_qm4 centre_pm4_qp4 : Int × Int → Int × Int)
    (fuel : Nat) (orig_p orig_q : Int) : Option (Int × Int) :=
  let w := swap_qp1_pm1 (shift_loops orig_p orig_q).1 (shift_loops orig_p orig_q).2
  let v :=
    if pos_mod (orig_p - orig_q) 8 = 2 ∨ pos_mod (orig_p - orig_q) 8 = 3
        ∨ pos_mod (orig_p - orig_q) 8 = 4 then centre_qp1_pm1 w
    else w
  match (if orig_p - orig_q > 4 then centre_loop centre_pp4_qm4 orig_p fuel v else some v) with
  | none => none
  | some v2 =>
    if orig_p - orig_q < -3 then centre_loop centre_pm4_qp4 orig_p fuel v2 else some v2

/-! ## The inverse generalized FFT `fast` -/

/-- Operations that `fast` uses and that are defined outside this file, taken as
parameters: the sum, the difference and the product of two sparse multivectors, the
even part `even(x)` of a sparse multivector, and `matrix::nork(A, M, mono)` of the
library's matrix header. -/
structure Sparse (α : Type) where
  add : framed_multi α → framed_multi α → framed_multi α
  sub : framed_multi α → framed_multi α → framed_multi α
  mul : framed_multi α → framed_multi α → framed_multi α
  even : framed_multi α → framed_multi α
  nork : matrix_t α → matrix_t α → Bool → matrix_t α

section fast_transform

variable {α : Type} [Add α] [Sub α] [Mul α] [Div α] [Neg α] [Scalar_T α]

/-- A matrix `matrix_t X(2,2)` whose entries read `a`, `b` in the first row and `c`,
`d` in the second, converted from `int`. -/
def entries_2x2 (a b c d : Int) : matrix_t α :=
  { size1 := 2, size2 := 2,
    data := fun i j =>
      if i = 0 ∧ j = 0 then Scalar_T.of_int a else if i = 0 ∧ j = 1 then Scalar_T.of_int b
      else if i = 1 ∧ j = 0 then Scalar_T.of_int c else if i = 1 ∧ j = 1 then Scalar_T.of_int d
      else Scalar_T.of_int 0 }

/-- The matrix `I = matrix::unit<matrix_t>(2)` of `fast`. -/
def fast_I : matrix_t α := unit 2

/-- The matrix `J` of `fast`: `J(0,1) = -1; J(1,0) = 1;`. -/
def fast_J : matrix_t α := entries_2x2 0 (-1) 1 0

/-- The matrix `K` of `fast`: `K(0,1) = 1; K(1,0) = 1;`. -/
def fast_K : matrix_t α := entries_2x2 0 1 1 0

/-- The matrix `JK` of `fast`: `JK(0,0) = -1; JK(1,1) = 1;`. -/
def fast_JK : matrix_t α := entries_2x2 (-1) 0 0 1

/-- The sparse multivector `mn = framed_multi_t(index_set_t(-level), scalar_t(1))`. -/
def fast_mn (level : Int) : framed_multi α := { terms := [({-level}, Scalar_T.of_int 1)] }

/-- The sparse multivector `pn = framed_multi_t(index_set_t(level), scalar_t(1))`. -/
def fast_pn (level : Int) : framed_multi α := { terms := [({level}, Scalar_T.of_int 1)] }

/-- The value returned by the branch `level == 1` of `fast`:
`I_M + mn * (JK_M * pn + J_M) + K_M * pn`, with `I_M`, `J_M`, `K_M`, `JK_M` the
entries (0, 0) of the four `nork` products, converted to sparse multivectors. -/
def fast_closed (S : Sparse α) (M : matrix_t α) (level : Int) : framed_multi α :=
  let I_M := framed_of_scalar ((S.nork fast_I M true).data 0 0)
  let J_M := framed_of_scalar ((S.nork fast_J M true).data 0 0)
  let K_M := framed_of_scalar ((S.nork fast_K M true).data 0 0)
  let JK_M := framed_of_scalar ((S.nork fast_JK M true).data 0 0)
  S.add (S.add I_M (S.mul (fast_mn level) (S.add (S.mul JK_M (fast_pn level)) J_M)))
    (S.mul K_M (fast_pn level))

/-- The value the general branch of `fast` returns from the four results `I_M`,
`J_M`, `K_M`, `JK_M` of the recursive calls:
`(ev_I_M - od_JK_M) + mn*((ev_JK_M + od_I_M)*pn + (ev_J_M + od_K_M))
+ (ev_K_M - od_J_M)*pn`. -/
def fast_combine (S : Sparse α) (level : Int) (I_M J_M K_M JK_M : framed_multi α) :
    framed_multi α :=
  let ev_I_M := S.even I_M
  let od_I_M := S.sub I_M ev_I_M
  let ev_J_M := S.even J_M
  let od_J_M := S.sub J_M ev_J_M
  let ev_K_M := S.even K_M
  let od_K_M := S.sub K_M ev_K_M
  let ev_JK_M := S.even JK_M
  let od_JK_M := S.sub JK_M ev_JK_M
  S.add
    (S.add (S.sub ev_I_M od_JK_M)
      (S.mul (fast_mn level)
        (S.add (S.mul (S.add ev_JK_M od_I_M) (fast_pn level)) (S.add ev_J_M od_K_M))))
    (S.mul (S.sub ev_K_M od_J_M) (fast_pn level))

/-- Inverse generalized Fast Fourier Transform `fast(M, level)`. The recursion is on
`level - 1`, computed in `int`; `fuel` bounds the depth of the nested calls, and the
result is `none` when that depth does not suffice. -/
def fast (S : Sparse α) : Nat → matrix_t α → Int → Option (framed_multi α)
  | 0, M, level =>
    if level = 0 then some (framed_of_scalar (M.data 0 0))
    else if level = 1 then some (fast_closed S M level)
    else none
  | fuel + 1, M, level =>
    if level = 0 then some (framed_of_scalar (M.data 0 0))
    else if level = 1 then some (fast_closed S M level)
    else
      match fast S fuel (S.nork fast_I M true) (to_int (level - 1)),
          fast S fuel (S.nork fast_J M true) (to_int (level - 1)),
          fast S fuel (S.nork fast_K M true) (to_int (level - 1)),
          fast S fuel (S.nork fast_JK M true) (to_int (level - 1)) with
      | some I_M, some J_M, some K_M, some JK_M => some (fast_combine S level I_M J_M K_M JK_M)
      | _, _, _, _ => none

/-- The general recursion of `fast` alone: `fast` without its branch `level == 1`,
so that level 1 is computed from four calls at level 0. -/
def fast_general (S : Sparse α) : Nat → matrix_t α → Int → Option (framed_multi α)
  | 0, M, level =>
    if level = 0 then some (framed_of_scalar (M.data 0 0)) else none
  | fuel + 1, M, level =>
    if level = 0 then some (framed_of_scalar (M.data 0 0))
    else
      match fast_general S fuel (S.nork fast_I M true) (to_int (level - 1)),
          fast_general S fuel (S.nork fast_J M true) (to_int (level - 1)),
          fast_general S fuel (S.nork fast_K M true) (to_int (level - 1)),
          fast_general S fuel (S.nork fast_JK M true) (to_int (level - 1)) with
      | some I_M, some J_M, some K_M, some JK_M => some (fast_combine S level I_M J_M K_M JK_M)
      | _, _, _, _ => none

/-- The number of evaluations of the closed form of level 1 that a call
`fast(M, level)` makes: the control of `fast`, counting 1 at the branch `level == 1`
and adding the counts of the four recursive calls. `none` when `fuel` does not
suffice. -/
def fast_leaves : Nat → Int → Option Nat
  | 0, level => if level = 0 then some 0 else if level = 1 then some 1 else none
  | fuel + 1, level =>
    if level = 0 then some 0
    else if level = 1 then some 1
    else
      match fast_leaves fuel (to_int (level - 1)) with
      | some n => some (n + n + n + n)
      | none => none

end fast_transform

/-! ## Properties named by the specification -/

section properties

variable {α : Type}

/-- The dimension invariant of a matrix multivector: its matrix is square with side
`folded_dim(frame)`. -/
def has_folded_dim (x : matrix_multi α) : Prop :=
  x.m_matrix.size1 = (folded_dim x.m_frame).toNat
    ∧ x.m_matrix.size2 = (folded_dim x.m_frame).toNat

/-- The value `r`, returned by the fast transform for the frame `frm`, lies in `frm`
and satisfies the dimension invariant. -/
def fast_result_ok (frm : index_set) (r : matrix_multi α) : Prop :=
  r.m_frame = frm ∧ has_folded_dim r

end properties

section more_properties

variable {α : Type} [Add α] [Sub α] [Mul α] [Div α] [Neg α] [Scalar_T α]

/-- Two matrices are the same matrix: equal dimensions and equal entries inside
them. -/
def matrix_t.same (A B : matrix_t α) : Prop :=
  A.size1 = B.size1 ∧ A.size2 = B.size2
    ∧ ∀ i, i < A.size1 → ∀ j, j < A.size2 → A.data i j = B.data i j

/-- The `k`-fold geometric product `x * x * ... * x`, each product taken by `*=`
within the frame of `x`; zero factors give `one`. -/
def m_fold (one x : matrix_multi α) : Nat → matrix_multi α
  | 0 => one
  | 1 => x
  | k + 2 =>
    { m_frame := x.m_frame,
      m_matrix := sparse_prod (m_fold one x (k + 1)).m_matrix x.m_matrix }

/-- Factorisation and substitution are exact for the coefficient matrix `AT`:
`lu_factorize` reports success, and for every right hand side `Y` with as many rows
as `AT` the matrix `Z` left by `lu_substitute` has the dimensions of `Y` and
satisfies `AT * Z = Y`. -/
def lu_exact (P : Prims α) (AT : matrix_t α) : Prop :=
  (P.lu_factorize AT).1 = 0
    ∧ ∀ Y : matrix_t α, Y.size1 = AT.size1 →
        (P.lu_substitute (P.lu_factorize AT).2.1 (P.lu_factorize AT).2.2 Y).size1 = Y.size1
        ∧ (P.lu_substitute (P.lu_factorize AT).2.1 (P.lu_factorize AT).2.2 Y).size2 = Y.size2
        ∧ (sparse_prod AT
            (P.lu_substitute (P.lu_factorize AT).2.1 (P.lu_factorize AT).2.2 Y)).same Y

/-- Every entry of the cache is the generator product that `basis_element` computes
for the key of the entry when it does not find the key. -/
def cache_sound (P : Prims α) (c : basis_table α) : Prop :=
  ∀ (ist frm : index_set) (found : matrix_t α),
    c (P.fold_in ist frm, P.fold frm) = some found →
    found = generator_product P
      (P.generator (max (index_set_max (P.fold frm)) 0) (max (-(index_set_min (P.fold frm))) 0))
      (P.fold_in ist frm) (index_set_min (P.fold frm)) (index_set_max (P.fold frm))
      (folded_dim frm)

/-- The matrix `basis_element(ist, frm)` computes when it does not consult the cache:
the product of the generators of the folded index set, started from the unit matrix. -/
def uncached_element (P : Prims α) (ist frm : index_set) : matrix_t α :=
  generator_product P
    (P.generator (max (index_set_max (P.fold frm)) 0) (max (-(index_set_min (P.fold frm))) 0))
    (P.fold_in ist frm) (index_set_min (P.fold frm)) (index_set_max (P.fold frm))
    (folded_dim frm)

/-- Tuning constants with the cache of basis elements disabled: `basis_max_count` is
negative, so that `p+q <= Tune_P::basis_max_count` is false for every `p`, `q`. -/
def cache_disabled (T : Tune_P) : Tune_P := { T with basis_max_count := -1 }

/-- The cache after a sequence of calls `basis_element(ist, frm)`, started from the
cache `c`. -/
def run_calls (P : Prims α) (T : Tune_P) (calls : List (index_set × index_set))
    (c : basis_table α) : basis_table α :=
  calls.foldl (fun t call => (basis_element P T call.1 call.2 t).2) c

/-- The product of `n` copies of `x` under a binary operation `w`, taken from the left
and started from `one`, the empty product: `one` for `n = 0`, then
`w (... (w (w one x) x) ...) x`. -/
def outer_fold (w : matrix_multi α → matrix_multi α → matrix_multi α)
    (one x : matrix_multi α) : Nat → matrix_multi α
  | 0 => one
  | n + 1 => w (outer_fold w one x n) x

/-- The product of `n + 1` copies of `x` under a binary operation `w`, taken from the
left: `x` for `n = 0`, then `w (... (w x x) ...) x`. -/
def self_fold (w : matrix_multi α → matrix_multi α → matrix_multi α)
    (x : matrix_multi α) : Nat → matrix_multi α
  | 0 => x
  | n + 1 => w (self_fold w x n) x

/-- The iterates of the refinement for `AT * X = BT`: iterate 0 is `X0`, and each
next iterate is the previous one minus the substitution applied to its residual
`AT * X - BT`. -/
def refine_iterate (P : Prims α) (AT BT LU : matrix_t α) (pvector : List Nat)
    (X0 : matrix_t α) : Nat → matrix_t α
  | 0 => X0
  | k + 1 =>
    (refine_iterate P AT BT LU pvector X0 k).minus_assign
      (P.lu_substitute LU pvector
        ((sparse_prod AT (refine_iterate P AT BT LU pvector X0 k)).minus BT))

/-- The infinity norm of the residual `AT * X - BT` of a candidate solution `X`. -/
def residual_norm (AT BT X : matrix_t α) : α := norm_inf ((sparse_prod AT X).minus BT)

/-- The condition of the refinement loop besides the bound on the step: the residual
norm `nr` is smaller than the previous one, not zero and not NaN. -/
def refine_continues (nr nrold : α) : Bool :=
  Scalar_T.lt nr nrold && Scalar_T.ne nr (Scalar_T.of_int 0) && scalar_eq nr nr

/-- The number of iterations the refinement loop makes when it is entered at the step
`s` with at most `remaining` iterations left, in the state the iterates give it there:
`XT` the iterate `s - 1` (the iterate 0 for `s = 0`), `XTnew` the iterate `s`, `R`
and `nr` its residual and the norm of it, and `nrold` as given. -/
def steps_from (P : Prims α) (AT BT LU : matrix_t α) (pvector : List Nat)
    (X0 : matrix_t α) (remaining s : Nat) (nrold : α) : Nat :=
  refine_count P AT BT LU pvector remaining (s : Int)
    (refine_iterate P AT BT LU pvector X0 (s - 1))
    (refine_iterate P AT BT LU pvector X0 s)
    ((sparse_prod AT (refine_iterate P AT BT LU pvector X0 s)).minus BT)
    (residual_norm AT BT (refine_iterate P AT BT LU pvector X0 s)) nrold

end more_properties

/-! ## Exact scalars -/

/-- Exact arithmetic: the scalars of a linearly ordered field. There is no NaN, so
`has_quiet_NaN` is false and `quiet_NaN()` is the default value 0; the conversion of
`std::log(0.0)` has no exact value and is represented by 0. -/
instance exact_scalar (K : Type) [LinearOrderedField K] : Scalar_T K where
  ne := fun a b => decide (a ≠ b)
  lt := fun a b => decide (a < b)
  abs := fun a => |a|
  of_int := fun n => (n : K)
  has_quiet_NaN := false
  quiet_NaN := 0
  log_zero := 0

/-! ## Sample scalars and collaborators -/

/-- Sample scalar type with a quiet NaN: a rational number or NaN. Arithmetic with a
NaN operand gives NaN, as does division by zero; NaN compares unequal to everything,
itself included, and is not less than anything. -/
inductive nanq where
  | num (q : ℚ)
  | nan
  deriving DecidableEq

/-- Sum on `nanq`. -/
def nanq.add : nanq → nanq → nanq
  | .num a, .num b => .num (a + b)
  | _, _ => .nan

/-- Difference on `nanq`. -/
def nanq.sub : nanq → nanq → nanq
  | .num a, .num b => .num (a - b)
  | _, _ => .nan

/-- Product on `nanq`. -/
def nanq.mul : nanq → nanq → nanq
  | .num a, .num b => .num (a * b)
  | _, _ => .nan

/-- Quotient on `nanq`. -/
def nanq.div : nanq → nanq → nanq
  | .num a, .num b => if b = 0 then .nan else .num (a / b)
  | _, _ => .nan

/-- Negation on `nanq`. -/
def nanq.neg : nanq → nanq
  | .num a => .num (-a)
  | .nan => .nan

instance : Add nanq := ⟨nanq.add⟩

instance : Sub nanq := ⟨nanq.sub⟩

instance : Mul nanq := ⟨nanq.mul⟩

instance : Div nanq := ⟨nanq.div⟩

instance : Neg nanq := ⟨nanq.neg⟩

instance nanq_scalar : Scalar_T nanq where
  ne := fun a b => match a, b with
    | .num x, .num y => decide (x ≠ y)
    | _, _ => true
  lt := fun a b => match a, b with
    | .num x, .num y => decide (x < y)
    | _, _ => false
  abs := fun a => match a with
    | .num x => .num |x|
    | .nan => .nan
  of_int := fun n => .num n
  has_quiet_NaN := true
  quiet_NaN := .nan
  log_zero := .nan

/-- The coordinate of the first term of a sparse multivector, zero when it has no
term. -/
def head_coordinate {α : Type} [Scalar_T α] (val : framed_multi α) : α :=
  match val.terms with
  | [] => Scalar_T.of_int 0
  | t :: _ => t.2

/-- Entrywise comparison of two matrices with `==`: equal dimensions and no pair of
entries inside them that compares unequal. -/
def entrywise_equal {α : Type} [Scalar_T α] (A B : matrix_t α) : Bool :=
  decide (A.size1 = B.size1) && decide (A.size2 = B.size2)
    && (List.range A.size1).all (fun i =>
      (List.range A.size2).all (fun j => scalar_eq (A.data i j) (B.data i j)))

/-- Collaborators for the algebra over the empty frame, where every matrix is 1 by 1:
folding is the identity, the conversion to the sparse representation reads the single
entry, the fast transform is unavailable, `lu_factorize` reports a singular matrix
when the single entry is zero, and `lu_substitute` divides by the single entry; the
outer product of two scalars is their product, the grade 0 part of a scalar is the
scalar, comparisons are entrywise, and reading from a stream consumes nothing and
yields the multivector without terms. -/
def scalar_prims {α : Type} [Add α] [Mul α] [Div α] [Scalar_T α] : Prims α where
  fold := fun frm => frm
  fold_in := fun ist _ => ist
  generator := fun _ _ _ => unit 1
  mono_prod := sparse_prod
  to_framed := fun x => .ok { terms := [(∅, x.m_matrix.data 0 0)] }
  fast_matrix_multi := fun _ _ =>
    .error (exception.glucat_error "framed_multi" "fast_matrix_multi: not available")
  framed_div := fun a _ => .ok a
  lu_factorize := fun A =>
    (if Scalar_T.ne (A.data 0 0) (Scalar_T.of_int 0) then 0 else 1, A, [0])
  lu_substitute := fun LU _ X => { X with data := fun i j => X.data i j / LU.data 0 0 }
  framed_outer := fun a b => .ok { terms := [(∅, head_coordinate a * head_coordinate b)] }
  framed_grade := fun a grade => .ok (if grade = 0 then a else { terms := [] })
  framed_equals := fun a b => scalar_eq (head_coordinate a) (head_coordinate b)
  matrix_equals := entrywise_equal
  read_framed := fun s => ({ terms := [] }, s)

/-- Sample tuning constants. -/
def sample_tune : Tune_P :=
  { fast_size_threshold := 8, basis_max_count := 6, div_max_steps := 4 }

/-- Sample collaborators over the rationals whose conversion to the sparse
representation runs out of memory (`std::bad_alloc`) for the multivectors of the
frame {2} and yields the multivector without terms for all others; the rest is as in
`scalar_prims`. -/
def exhausted_prims : Prims ℚ :=
  { (scalar_prims : Prims ℚ) with
    to_framed := fun x =>
      if x.m_frame = {2} then .error (exception.other "std::bad_alloc")
      else .ok { terms := [] } }

/-- The 2 by 2 matrix with the rows `(a, b)` and `(c, d)`. -/
def two_by_two (a b c d : ℚ) : matrix_t ℚ :=
  { size1 := 2, size2 := 2,
    data := fun i j =>
      if i = 0 ∧ j = 0 then a else if i = 0 ∧ j = 1 then b
      else if i = 1 ∧ j = 0 then c else if i = 1 ∧ j = 1 then d else 0 }

/-- Sample collaborators for the frame {1,2} over the rationals, where every matrix is
2 by 2: folding is the identity, the generator of the index 1 is the matrix with the
rows (0, 1) and (1, 0), the generator of every other index the matrix with the rows
(1, 0) and (0, -1), and `mono_prod` is the matrix product; the rest is as in
`scalar_prims`. -/
def plane_prims : Prims ℚ :=
  { (scalar_prims : Prims ℚ) with
    generator := fun _ _ k => if k = 1 then two_by_two 0 1 1 0 else two_by_two 1 0 0 (-1) }

/-- Sample collaborators over the rationals with an inexact solver: `lu_substitute`
divides by twice the single entry of the factorised matrix, so that it returns half of
the solution; the rest is as in `scalar_prims`. -/
def halving_prims : Prims ℚ :=
  { (scalar_prims : Prims ℚ) with
    lu_substitute := fun LU _ X =>
      { X with data := fun i j => X.data i j / (2 * LU.data 0 0) } }

/-- Sample operations on sparse multivectors over the rationals that keep only the
scalar part: sum, difference and product act on the coordinates of the first terms,
every multivector is its own even part, and `nork(A, M, mono)` returns `M`. -/
def scalar_sparse : Sparse ℚ where
  add := fun a b => framed_of_scalar (head_coordinate a + head_coordinate b)
  sub := fun a b => framed_of_scalar (head_coordinate a - head_coordinate b)
  mul := fun a b => framed_of_scalar (head_coordinate a * head_coordinate b)
  even := fun a => a
  nork := fun _ M _ => M

/-! # Theorems -/

/-! ## Dimension bookkeeping -/

theorem tdiv_two_eq (n : Int) (h : 0 ≤ n) : Int.tdiv n 2 = n / 2 :=
  Int.tdiv_eq_ediv h (by norm_num)

theorem count_pos_nonneg (s : index_set) : 0 ≤ count_pos s := by
  unfold count_pos; exact Int.natCast_nonneg _

theorem count_neg_nonneg (s : index_set) : 0 ≤ count_neg s := by
  unfold count_neg; exact Int.natCast_nonneg _

theorem to_int_of_small (x : Int) (h0 : 0 ≤ x) (h1 : x < 2 ^ 31) : to_int x = x := by
  unfold to_int int_bits
  norm_num at h1 ⊢
  omega

theorem offset_level_formula (p q : Int) (hp : 0 ≤ p) (hq : 0 ≤ q) :
    offset_level p q = (p + q) / 2 + [0, 1, 0, 1, 1, 2, 1, 1].getD ((p - q) % 8).toNat 0 := by
  unfold offset_level pos_mod offset_log2_dim
  simp only [tdiv_two_eq (p + q) (by omega)]

theorem offset_level_range (p q : Int) (hp : 0 ≤ p) (hq : 0 ≤ q) :
    p + q ≤ 2 * offset_level p q ∧ 2 * offset_level p q ≤ p + q + 3 := by
  unfold offset_level pos_mod
  have h8 : 0 ≤ (p - q) % 8 := Int.emod_nonneg _ (by norm_num)
  have h8b : (p - q) % 8 < 8 := Int.emod_lt_of_pos _ (by norm_num)
  simp only [tdiv_two_eq (p + q) (by omega)]
  obtain ⟨n, hn⟩ := Int.eq_ofNat_of_zero_le h8
  have hlt : n < 8 := by omega
  simp only [hn, Int.toNat_ofNat]
  interval_cases n <;> simp [offset_log2_dim] <;> constructor <;> omega

/-- C2 (counterexample). In the frame of all 64 generators -32..-1, 1..32 the level is
32, the width of `int`, and `1 << 32` wraps to 0: `folded_dim` is not `2^32`, and is
no power of two at all. In the frame of the 62 generators -31..-1, 1..31 the level is
31 and `1 << 31` is the negative number `-2^31`. -/
theorem folded_dim_full_frame_wraps :
    offset_level (count_pos (Finset.Icc (-32) 32 \ {0})) (count_neg (Finset.Icc (-32) 32 \ {0}))
        = (int_bits : Int)
      ∧ folded_dim (Finset.Icc (-32) 32 \ {0}) = 0
      ∧ folded_dim (Finset.Icc (-32) 32 \ {0})
          ≠ 2 ^ (offset_level (count_pos (Finset.Icc (-32) 32 \ {0}))
                  (count_neg (Finset.Icc (-32) 32 \ {0}))).toNat
      ∧ (¬ ∃ k : Nat, folded_dim (Finset.Icc (-32) 32 \ {0}) = 2 ^ k)
      ∧ offset_level (count_pos (Finset.Icc (-31) 31 \ {0}))
          (count_neg (Finset.Icc (-31) 31 \ {0})) = 31
      ∧ folded_dim (Finset.Icc (-31) 31 \ {0}) = -2147483648 := by
  have h0 : folded_dim (Finset.Icc (-32) 32 \ {0}) = 0 := by decide
  refine ⟨by decide, h0, by decide, ?_, by decide, by decide⟩
  rintro ⟨k, hk⟩
  rw [h0] at hk
  exact absurd hk.symm (pow_ne_zero k (by norm_num))

/-- C2 (amended). For every frame whose level `L = offset_level(p, q)` is below 31, so
that `2^L` fits an `int`, `folded_dim(frame)` equals `2^L`, and `L` is
`floor((p+q)/2) + T[(p-q) mod 8]` with `T = [0,1,0,1,1,2,1,1]`. -/
theorem folded_dim_eq_two_pow (sub : index_set)
    (h : offset_level (count_pos sub) (count_neg sub) < 31) :
    folded_dim sub = 2 ^ (offset_level (count_pos sub) (count_neg sub)).toNat
      ∧ 0 ≤ offset_level (count_pos sub) (count_neg sub)
      ∧ offset_level (count_pos sub) (count_neg sub)
          = (count_pos sub + count_neg sub) / 2
            + [0, 1, 0, 1, 1, 2, 1, 1].getD ((count_pos sub - count_neg sub) % 8).toNat 0 := by
  have hp := count_pos_nonneg sub
  have hq := count_neg_nonneg sub
  have hb := offset_level_range _ _ hp hq
  have h0 : 0 ≤ offset_level (count_pos sub) (count_neg sub) := by omega
  refine ⟨?_, h0, offset_level_formula _ _ hp hq⟩
  unfold folded_dim shl_int
  rw [one_mul]
  apply to_int_of_small _ (by positivity)
  have hle : (offset_level (count_pos sub) (count_neg sub)).toNat ≤ 30 := by omega
  calc (2 : Int) ^ (offset_level (count_pos sub) (count_neg sub)).toNat
      ≤ 2 ^ 30 := pow_le_pow_right₀ (by norm_num) hle
    _ < 2 ^ 31 := by norm_num

/-- Witness of C2: the frame {1, 2} has level 1 and `folded_dim` 2. -/
theorem folded_dim_eq_two_pow_witness :
    offset_level (count_pos {1, 2}) (count_neg {1, 2}) < 31
      ∧ folded_dim {1, 2} = 2 ^ (offset_level (count_pos {1, 2}) (count_neg {1, 2})).toNat :=
  ⟨by decide, (folded_dim_eq_two_pow {1, 2} (by decide)).1⟩

/-- C4. For all generator counts p, q >= 0: `p + q <= 2 * offset_level(p, q)`, so
the matrix of side `2^offset_level(p,q)` has at least `2^(p+q)` entries, and
`2 * offset_level(p, q) <= p + q + 3`. -/
theorem offset_level_bounds (p q : Int) (hp : 0 ≤ p) (hq : 0 ≤ q) :
    p + q ≤ 2 * offset_level p q ∧ 2 * offset_level p q ≤ p + q + 3
      ∧ (2 : Int) ^ (p + q).toNat
          ≤ 2 ^ (offset_level p q).toNat * 2 ^ (offset_level p q).toNat := by
  have hb := offset_level_range p q hp hq
  refine ⟨hb.1, hb.2, ?_⟩
  rw [← pow_add]
  apply pow_le_pow_right₀ (by norm_num)
  omega

/-- Witness of C4 at the signature (3, 0): level 2, a 4 by 4 matrix for 8 blades. -/
theorem offset_level_bounds_witness :
    (3 : Int) + 0 ≤ 2 * offset_level 3 0 ∧ 2 * offset_level 3 0 ≤ 3 + 0 + 3
      ∧ (2 : Int) ^ ((3 : Int) + 0).toNat
          ≤ 2 ^ (offset_level 3 0).toNat * 2 ^ (offset_level 3 0).toNat :=
  offset_level_bounds 3 0 (by decide) (by decide)

/-! ## Constructors -/

section ctor_lemmas

variable {α : Type} [Add α] [Sub α] [Mul α] [Div α] [Neg α] [Scalar_T α]

theorem add_term_shape (P : Prims α) (T : Tune_P) (x : matrix_multi α) (term : index_set × α)
    (c : basis_table α) :
    (add_term P T x term c).1.m_frame = x.m_frame
      ∧ (add_term P T x term c).1.m_matrix.size1 = x.m_matrix.size1
      ∧ (add_term P T x term c).1.m_matrix.size2 = x.m_matrix.size2 := by
  unfold add_term
  split <;> simp [matrix_t.plus_assign]

theorem sized_in_frame_shape (frm : index_set) :
    (sized_in_frame frm : matrix_multi α).m_frame = frm
      ∧ has_folded_dim (sized_in_frame frm : matrix_multi α) := by
  simp [sized_in_frame, has_folded_dim, matrix_t.resize]

theorem add_term_keeps_dim (P : Prims α) (T : Tune_P) (x : matrix_multi α)
    (term : index_set × α) (c : basis_table α) (frm : index_set)
    (h : x.m_frame = frm ∧ has_folded_dim x) :
    (add_term P T x term c).1.m_frame = frm ∧ has_folded_dim (add_term P T x term c).1 := by
  obtain ⟨h1, h2, h3⟩ := add_term_shape P T x term c
  unfold has_folded_dim at *
  rw [h1, h2, h3]
  exact h

theorem foldl_add_term_keeps_dim (P : Prims α) (T : Tune_P) (frm : index_set)
    (terms : List (index_set × α)) (s : matrix_multi α × basis_table α)
    (h : s.1.m_frame = frm ∧ has_folded_dim s.1) :
    (terms.foldl (fun s term => add_term P T s.1 term s.2) s).1.m_frame = frm
      ∧ has_folded_dim (terms.foldl (fun s term => add_term P T s.1 term s.2) s).1 := by
  induction terms generalizing s with
  | nil => simpa using h
  | cons t rest ih =>
    simp only [List.foldl_cons]
    exact ih _ (add_term_keeps_dim P T s.1 t s.2 frm h)

theorem term_by_term_keeps_dim (P : Prims α) (T : Tune_P) (val : framed_multi α)
    (frm : index_set) (c : basis_table α) :
    (term_by_term P T val frm c).1.m_frame = frm
      ∧ has_folded_dim (term_by_term P T val frm c).1 :=
  foldl_add_term_keeps_dim P T frm val.terms _ (sized_in_frame_shape frm)

theorem vec_loop_keeps_dim (P : Prims α) (T : Tune_P) (vec : List α) (frm f : index_set)
    (idxs : List Int) (k : Nat) (x : matrix_multi α) (c : basis_table α)
    (h : x.m_frame = f ∧ has_folded_dim x) (y : matrix_multi α) (c2 : basis_table α)
    (hy : vec_loop P T vec frm idxs k x c = (.ok y, c2)) :
    y.m_frame = f ∧ has_folded_dim y := by
  induction idxs generalizing k x c with
  | nil =>
    simp only [vec_loop, Prod.mk.injEq, Except.ok.injEq] at hy
    rw [← hy.1]; exact h
  | cons idx rest ih =>
    unfold vec_loop at hy
    split at hy
    · split at hy
      · simp at hy
      · exact ih _ _ _ (add_term_keeps_dim P T x _ c f h) hy
    · exact ih _ _ _ h hy

theorem from_framed_keeps_dim (P : Prims α) (T : Tune_P) (val : framed_multi α)
    (frm : index_set) (c : basis_table α)
    (hfast : ∀ r, T.fast_size_threshold ≤ val.size → P.fast_matrix_multi val frm = .ok r →
      fast_result_ok frm r)
    (y : matrix_multi α) (c2 : basis_table α)
    (hy : from_framed P T val frm c = (.ok y, c2)) :
    y.m_frame = frm ∧ has_folded_dim y := by
  unfold from_framed at hy
  split at hy
  · next hsz =>
    split at hy
    · next r hr =>
      simp only [Prod.mk.injEq, Except.ok.injEq] at hy
      rw [← hy.1]; exact hfast r hsz hr
    · simp only [Prod.mk.injEq, Except.ok.injEq] at hy
      rw [← hy.1]; exact term_by_term_keeps_dim P T val frm c
    · simp at hy
  · simp only [Prod.mk.injEq, Except.ok.injEq] at hy
    rw [← hy.1]; exact term_by_term_keeps_dim P T val frm c

theorem from_framed_below_threshold (P : Prims α) (T : Tune_P) (val : framed_multi α)
    (frm : index_set) (c : basis_table α) (h : val.size < T.fast_size_threshold) :
    from_framed P T val frm c
      = (.ok (term_by_term P T val frm c).1, (term_by_term P T val frm c).2) := by
  unfold from_framed
  rw [if_neg (by omega)]

end ctor_lemmas

section ctor_claims

variable {α : Type} [Add α] [Sub α] [Mul α] [Div α] [Neg α] [Scalar_T α]

/-- C3 (counterexample). The constructor from a raw matrix keeps the dimensions of its
argument: given a 2 by 3 matrix and the empty frame, whose `folded_dim` is 1, it
returns a 2 by 3 matrix. -/
theorem ctor_mtx_frm_keeps_argument_size :
    (folded_dim ∅).toNat = 1
      ∧ (ctor_mtx_frm (matrix_t.sized 2 3 : matrix_t ℚ) ∅).m_matrix.size1 = 2
      ∧ (ctor_mtx_frm (matrix_t.sized 2 3 : matrix_t ℚ) ∅).m_matrix.size2 = 3
      ∧ ¬ has_folded_dim (ctor_mtx_frm (matrix_t.sized 2 3 : matrix_t ℚ) ∅) := by
  have h1 : (folded_dim ∅).toNat = 1 := by decide
  refine ⟨h1, rfl, rfl, ?_⟩
  intro h
  have h2 := h.1
  simp only [ctor_mtx_frm, sized_in_frame, matrix_t.sized] at h2
  omega

/-- C3 (amended). Every value produced by the default constructor and by the
constructors from a scalar, an int, a single term, a coefficient vector and a sparse
multivector lies in the requested frame and holds a square matrix of side
`folded_dim(frame)`; for the sparse constructors this needs that the fast transform,
when it is used and returns, returns such a value. The constructor from a raw matrix
`mtx` stores `mtx` itself, so its result has side `folded_dim(frm)` exactly when
`mtx` is square with that side. -/
theorem constructors_dimension (P : Prims α) (T : Tune_P) (c : basis_table α) :
    has_folded_dim (ctor_default : matrix_multi α)
    ∧ (∀ (scr : α) (frm : index_set), ∃ x c2, ctor_scr_frm P T scr frm c = (.ok x, c2)
        ∧ x.m_frame = frm ∧ has_folded_dim x)
    ∧ (∀ (n : Int) (frm : index_set), ∃ x c2, ctor_int_frm P T n frm c = (.ok x, c2)
        ∧ x.m_frame = frm ∧ has_folded_dim x)
    ∧ (∀ (ist : index_set) (crd : α), ∃ x c2, ctor_ist_crd P T ist crd c = (.ok x, c2)
        ∧ x.m_frame = ist ∧ has_folded_dim x)
    ∧ (∀ (ist : index_set) (crd : α) (frm : index_set) (prechecked : Bool),
        (prechecked = true ∨ ist ⊆ frm) →
        ∃ x c2, ctor_ist_crd_frm P T ist crd frm prechecked c = (.ok x, c2)
          ∧ x.m_frame = frm ∧ has_folded_dim x)
    ∧ (∀ (vec : List α) (frm : index_set) (prechecked : Bool) x c2,
        ctor_vec_frm P T vec frm prechecked c = (.ok x, c2) →
        x.m_frame = frm ∧ has_folded_dim x)
    ∧ (∀ (val : framed_multi α) (frm : index_set) (prechecked : Bool),
        (∀ r, T.fast_size_threshold ≤ val.size → P.fast_matrix_multi val frm = .ok r →
          fast_result_ok frm r) →
        ∀ x c2, ctor_framed_frm P T val frm prechecked c = (.ok x, c2) →
          x.m_frame = frm ∧ has_folded_dim x)
    ∧ (∀ (val : framed_multi α),
        (∀ r, T.fast_size_threshold ≤ val.size → P.fast_matrix_multi val val.frame = .ok r →
          fast_result_ok val.frame r) →
        ∀ x c2, ctor_framed P T val c = (.ok x, c2) →
          x.m_frame = val.frame ∧ has_folded_dim x)
    ∧ (∀ (val : framed_multi α) (frm : index_set) (prechecked : Bool),
        val.size < T.fast_size_threshold → (prechecked = true ∨ val.frame ⊆ frm) →
        ∃ x c2, ctor_framed_frm P T val frm prechecked c = (.ok x, c2)
          ∧ x.m_frame = frm ∧ has_folded_dim x)
    ∧ (∀ (mtx : matrix_t α) (frm : index_set),
        (ctor_mtx_frm mtx frm).m_frame = frm ∧ (ctor_mtx_frm mtx frm).m_matrix = mtx
        ∧ (has_folded_dim (ctor_mtx_frm mtx frm)
            ↔ mtx.size1 = (folded_dim frm).toNat ∧ mtx.size2 = (folded_dim frm).toNat)) := by
  refine ⟨?_, ?_, ?_, ?_, ?_, ?_, ?_, ?_, ?_, ?_⟩
  · have h1 : (folded_dim ∅).toNat = 1 := by decide
    simp [has_folded_dim, ctor_default, matrix_t.sized, h1]
  · intro scr frm
    exact ⟨_, _, rfl, add_term_keeps_dim P T _ _ c frm (sized_in_frame_shape frm)⟩
  · intro n frm
    exact ⟨_, _, rfl, add_term_keeps_dim P T _ _ c frm (sized_in_frame_shape frm)⟩
  · intro ist crd
    exact ⟨_, _, rfl, add_term_keeps_dim P T _ _ c ist (sized_in_frame_shape ist)⟩
  · intro ist crd frm prechecked h
    refine ⟨(add_term P T (sized_in_frame frm) (ist, crd) c).1,
      (add_term P T (sized_in_frame frm) (ist, crd) c).2, ?_,
      add_term_keeps_dim P T _ _ c frm (sized_in_frame_shape frm)⟩
    unfold ctor_ist_crd_frm
    rw [if_neg]
    rcases h with h | h
    · simp [h]
    · simp [Finset.union_eq_right.mpr h]
  · intro vec frm prechecked x c2 h
    unfold ctor_vec_frm at h
    split at h
    · simp at h
    · exact vec_loop_keeps_dim P T vec frm frm _ 0 _ c (sized_in_frame_shape frm) x c2 h
  · intro val frm prechecked hfast x c2 h
    unfold ctor_framed_frm at h
    split at h
    · simp at h
    · exact from_framed_keeps_dim P T val frm c hfast x c2 h
  · intro val hfast x c2 h
    exact from_framed_keeps_dim P T val val.frame c hfast x c2 h
  · intro val frm prechecked hsz h
    refine ⟨(term_by_term P T val frm c).1, (term_by_term P T val frm c).2, ?_,
      term_by_term_keeps_dim P T val frm c⟩
    unfold ctor_framed_frm
    rw [if_neg, from_framed_below_threshold P T val frm c hsz]
    rcases h with h | h
    · simp [h]
    · simp [Finset.union_eq_right.mpr h]
  · intro mtx frm
    refine ⟨rfl, rfl, ?_⟩
    simp [has_folded_dim, ctor_mtx_frm, sized_in_frame]

/-- C10. Each of the three constructors with a `prechecked` flag raises its error
"cannot initialize with value outside of frame" if and only if `prechecked` is false
and the frame of the value (the index set of the term) is not a subset of `frm`; for
the constructor from a matrix multivector this is under the premise that the
conversion to the sparse representation does not itself raise that very error. With
`prechecked` true none of them raises it. -/
theorem outside_of_frame_iff (P : Prims α) (T : Tune_P) (c : basis_table α)
    (frm : index_set) (prechecked : Bool) (val : matrix_multi α)
    (hconv : P.to_framed val ≠ .error (error_t
      "multivector_t(val,frm): cannot initialize with value outside of frame")) :
    ((ctor_multi_frm P T val frm prechecked c).1 = .error (error_t
        "multivector_t(val,frm): cannot initialize with value outside of frame")
      ↔ (prechecked = false ∧ ¬ val.frame ⊆ frm))
    ∧ (∀ (ist : index_set) (crd : α),
        (ctor_ist_crd_frm P T ist crd frm prechecked c).1 = .error (error_t
          "multivector_t(ist,crd,frm): cannot initialize with value outside of frame")
        ↔ (prechecked = false ∧ ¬ ist ⊆ frm))
    ∧ (∀ (sval : framed_multi α),
        (ctor_framed_frm P T sval frm prechecked c).1 = .error (error_t
          "multivector_t(val,frm): cannot initialize with value outside of frame")
        ↔ (prechecked = false ∧ ¬ sval.frame ⊆ frm)) := by
  have hff : ∀ (sval : framed_multi α) (c1 : basis_table α) (msg : String),
      (from_framed P T sval frm c1).1 ≠ .error (error_t msg) := by
    intro sval c1 msg
    unfold from_framed
    split
    · split
      · simp
      · simp
      · next e hne _ =>
        intro h
        simp only [Except.error.injEq] at h
        subst h
        exact hne _ _ rfl
    · simp
  have hcond : ∀ s : index_set,
      ((!prechecked && (s ∪ frm) != frm) = true) ↔ (prechecked = false ∧ ¬ s ⊆ frm) := by
    intro s
    cases prechecked <;> simp [Finset.union_eq_right]
  refine ⟨?_, ?_, ?_⟩
  · unfold ctor_multi_frm
    rw [← hcond]
    split
    · next h => simp [h]
    · next h =>
      simp only [h, Bool.false_eq_true, iff_false]
      unfold via_framed
      split
      · next e he =>
        intro h2
        simp only [Except.error.injEq] at h2
        rw [h2] at he
        exact hconv he
      · unfold ctor_framed_frm
        simp only [Bool.not_true, Bool.false_and, Bool.false_eq_true, if_false]
        exact hff _ _ _
  · intro ist crd
    unfold ctor_ist_crd_frm
    rw [← hcond]
    split
    · next h => simp [h]
    · next h => simp [h]
  · intro sval
    unfold ctor_framed_frm
    rw [← hcond]
    split
    · next h => simp [h]
    · next h =>
      simp only [h, Bool.false_eq_true, iff_false]
      exact hff _ _ _

end ctor_claims

/-- Witness of C10: over the rationals with the sample collaborators, the scalar
multivector 5 of the empty frame passes the check for the frame {1}, and the term
on {2} is refused there. -/
theorem outside_of_frame_iff_witness :
    ((ctor_multi_frm (scalar_prims : Prims ℚ) sample_tune
          (ctor_mtx_frm (unit 1) ∅) {1} false basis_table.empty).1
        = .error (error_t
          "multivector_t(val,frm): cannot initialize with value outside of frame")
      ↔ (false = false ∧ ¬ (ctor_mtx_frm (unit 1 : matrix_t ℚ) ∅).frame ⊆ {1}))
    ∧ ((ctor_ist_crd_frm (scalar_prims : Prims ℚ) sample_tune {2} 5 {1} false basis_table.empty).1
        = .error (error_t
          "multivector_t(ist,crd,frm): cannot initialize with value outside of frame")
      ↔ (false = false ∧ ¬ ({2} : index_set) ⊆ {1})) :=
  ⟨(outside_of_frame_iff (scalar_prims : Prims ℚ) sample_tune basis_table.empty {1} false
      (ctor_mtx_frm (unit 1) ∅) (by simp [scalar_prims])).1,
   (outside_of_frame_iff (scalar_prims : Prims ℚ) sample_tune basis_table.empty {1} false
      (ctor_mtx_frm (unit 1) ∅) (by simp [scalar_prims])).2.1 {2} 5⟩

/-! ## Sum, difference, product -/

section arithmetic_claims

variable {α : Type} [Add α] [Sub α] [Mul α] [Div α] [Neg α] [Scalar_T α]

theorem from_framed_frame (P : Prims α) (T : Tune_P) (val : framed_multi α)
    (frm : index_set) (c : basis_table α)
    (hfast : ∀ v r, P.fast_matrix_multi v frm = .ok r → r.m_frame = frm)
    (y : matrix_multi α) (c2 : basis_table α)
    (hy : from_framed P T val frm c = (.ok y, c2)) : y.m_frame = frm := by
  unfold from_framed at hy
  split at hy
  · split at hy
    · next r hr =>
      simp only [Prod.mk.injEq, Except.ok.injEq] at hy
      rw [← hy.1]; exact hfast _ r hr
    · simp only [Prod.mk.injEq, Except.ok.injEq] at hy
      rw [← hy.1]; exact (term_by_term_keeps_dim P T val frm c).1
    · simp at hy
  · simp only [Prod.mk.injEq, Except.ok.injEq] at hy
    rw [← hy.1]; exact (term_by_term_keeps_dim P T val frm c).1

theorem via_framed_frame (P : Prims α) (T : Tune_P) (x : matrix_multi α)
    (frm : index_set) (c : basis_table α)
    (hfast : ∀ v r, P.fast_matrix_multi v frm = .ok r → r.m_frame = frm)
    (y : matrix_multi α) (c2 : basis_table α)
    (hy : via_framed P T x frm c = (.ok y, c2)) : y.m_frame = frm := by
  unfold via_framed at hy
  split at hy
  · simp at hy
  · unfold ctor_framed_frm at hy
    simp only [Bool.not_true, Bool.false_and, Bool.false_eq_true, if_false] at hy
    exact from_framed_frame P T _ frm c hfast y c2 hy

theorem represent_in_frame (P : Prims α) (T : Tune_P) (x : matrix_multi α)
    (frm : index_set) (c : basis_table α)
    (hfast : ∀ v r, P.fast_matrix_multi v frm = .ok r → r.m_frame = frm)
    (h : (represent_in P T x frm c).raised = none) :
    (represent_in P T x frm c).self.m_frame = frm := by
  unfold represent_in at h ⊢
  split
  · next hne =>
    rw [if_pos hne] at h
    unfold assign_from at h ⊢
    cases hv : via_framed P T x frm c with
    | mk r c2 =>
      cases r with
      | error e => simp [hv] at h
      | ok y => simpa using via_framed_frame P T x frm c hfast y c2 hv
  · next heq => simpa using heq

theorem represent_in_same (P : Prims α) (T : Tune_P) (x : matrix_multi α)
    (c : basis_table α) :
    represent_in P T x x.m_frame c = { raised := none, self := x, cache := c } := by
  simp [represent_in]

/-- C8. After `a += b`, `a -= b` or `a *= b` has returned, the frame of `a` is the
union of the two old frames, provided the fast transform, where it is used, returns a
value of the frame it is asked for. When the two frames are equal the call raises
nothing, leaves the cache alone, and the new matrix is the entrywise sum, the
entrywise difference, or `sparse_prod(A, B)` of the two old matrices, with no call of
a collaborator. -/
theorem union_frame_rule (P : Prims α) (T : Tune_P) (a b : matrix_multi α)
    (c : basis_table α)
    (hfast : ∀ v r, P.fast_matrix_multi v (a.m_frame ∪ b.m_frame) = .ok r →
      r.m_frame = a.m_frame ∪ b.m_frame) :
    ((add_assign P T a b c).raised = none →
        (add_assign P T a b c).self.m_frame = a.m_frame ∪ b.m_frame)
    ∧ ((sub_assign P T a b c).raised = none →
        (sub_assign P T a b c).self.m_frame = a.m_frame ∪ b.m_frame)
    ∧ ((mul_assign P T a b c).raised = none →
        (mul_assign P T a b c).self.m_frame = a.m_frame ∪ b.m_frame)
    ∧ (a.m_frame = b.m_frame →
        add_assign P T a b c =
          { raised := none,
            self := { m_frame := a.m_frame,
                      m_matrix := { size1 := a.m_matrix.size1, size2 := a.m_matrix.size2,
                                    data := fun i j =>
                                      a.m_matrix.data i j + b.m_matrix.data i j } },
            cache := c }
        ∧ sub_assign P T a b c =
          { raised := none,
            self := { m_frame := a.m_frame,
                      m_matrix := { size1 := a.m_matrix.size1, size2 := a.m_matrix.size2,
                                    data := fun i j =>
                                      a.m_matrix.data i j - b.m_matrix.data i j } },
            cache := c }
        ∧ mul_assign P T a b c =
          { raised := none,
            self := { m_frame := a.m_frame,
                      m_matrix := sparse_prod a.m_matrix b.m_matrix },
            cache := c }) := by
  have hframe := represent_in_frame P T a (a.m_frame ∪ b.m_frame) c hfast
  refine ⟨?_, ?_, ?_, ?_⟩
  · intro h
    unfold add_assign at h ⊢
    simp only at h ⊢
    cases hr : (represent_in P T a (a.m_frame ∪ b.m_frame) c).raised with
    | some e => simp [hr] at h
    | none =>
      simp only [hr] at h ⊢
      split
      · exact hframe hr
      · split <;> exact hframe hr
  · intro h
    unfold sub_assign at h ⊢
    simp only at h ⊢
    cases hr : (represent_in P T a (a.m_frame ∪ b.m_frame) c).raised with
    | some e => simp [hr] at h
    | none =>
      simp only [hr] at h ⊢
      split
      · exact hframe hr
      · split <;> exact hframe hr
  · intro h
    unfold mul_assign at h ⊢
    simp only at h ⊢
    cases hr : (represent_in P T a (a.m_frame ∪ b.m_frame) c).raised with
    | some e => simp [hr] at h
    | none =>
      simp only [hr] at h ⊢
      split
      · exact hframe hr
      · split <;> exact hframe hr
  · intro hab
    have hu : a.m_frame ∪ b.m_frame = a.m_frame := by rw [hab, Finset.union_self]
    have hb : (b.m_frame == a.m_frame) = true := by simp [hab]
    refine ⟨?_, ?_, ?_⟩
    · unfold add_assign
      simp only [hu, represent_in_same, hb, if_true]
      rfl
    · unfold sub_assign
      simp only [hu, represent_in_same, hb, if_true]
      rfl
    · unfold mul_assign
      simp only [hu, represent_in_same, hb, if_true]

/-- C9 (amended). For every multivector `a`, whatever its frame, `a *= Scalar(0)`
raises nothing, leaves the cache alone, and makes the receiver the zero scalar of the
empty frame, the default frame of the constructor from an int: its frame is empty
and its matrix is the all-zero matrix of side `folded_dim` of the empty frame, 1. -/
theorem mul_assign_scr_zero (P : Prims α) (T : Tune_P) (a : matrix_multi α)
    (c : basis_table α)
    (h0 : Scalar_T.ne (Scalar_T.of_int 0 : α) (Scalar_T.of_int 0) = false) :
    (mul_assign_scr P T a (Scalar_T.of_int 0) c).raised = none
    ∧ (mul_assign_scr P T a (Scalar_T.of_int 0) c).cache = c
    ∧ (mul_assign_scr P T a (Scalar_T.of_int 0) c).self.m_frame = ∅
    ∧ (mul_assign_scr P T a (Scalar_T.of_int 0) c).self.m_matrix.size1 = 1
    ∧ (mul_assign_scr P T a (Scalar_T.of_int 0) c).self.m_matrix.size2 = 1
    ∧ (folded_dim ∅).toNat = 1
    ∧ ∀ i j, (mul_assign_scr P T a (Scalar_T.of_int 0) c).self.m_matrix.data i j
        = Scalar_T.of_int 0 := by
  have h1 : (folded_dim ∅).toNat = 1 := by decide
  have hm : mul_assign_scr P T a (Scalar_T.of_int 0) c
      = { raised := none, self := sized_in_frame default_frm, cache := c } := by
    unfold mul_assign_scr
    simp only [scalar_eq, h0, Bool.not_false, if_true]
    unfold ctor_int_frm ctor_scr_frm add_term
    simp only [h0, Bool.false_eq_true, if_false]
    rfl
  rw [hm]
  refine ⟨rfl, rfl, rfl, ?_, ?_, h1, ?_⟩
  · simp [sized_in_frame, matrix_t.resize, default_frm, h1]
  · simp [sized_in_frame, matrix_t.resize, default_frm, h1]
  · intro i j
    simp [sized_in_frame, matrix_t.resize, matrix_t.empty, matrix_t.sized]

end arithmetic_claims

/-- Witness of C8: over the rationals with the sample collaborators, the sum, the
difference and the product of two scalars of the empty frame stay in that frame. -/
theorem union_frame_rule_witness :
    (add_assign (scalar_prims : Prims ℚ) sample_tune (ctor_mtx_frm (unit 1) ∅) (ctor_mtx_frm (unit 1) ∅)
        basis_table.empty).self.m_frame = ∅
    ∧ (mul_assign (scalar_prims : Prims ℚ) sample_tune (ctor_mtx_frm (unit 1) ∅) (ctor_mtx_frm (unit 1) ∅)
        basis_table.empty).self.m_matrix = sparse_prod (unit 1) (unit 1) :=
  have h := union_frame_rule (scalar_prims : Prims ℚ) sample_tune (ctor_mtx_frm (unit 1) ∅)
    (ctor_mtx_frm (unit 1) ∅) basis_table.empty (by simp [scalar_prims])
  ⟨by rw [(h.2.2.2 rfl).1]; rfl, by rw [(h.2.2.2 rfl).2.2]; rfl⟩

/-- C9 (counterexample). Multiplying the zero multivector of the frame {1} by
`Scalar(0)` leaves the receiver in the empty frame with a 1 by 1 matrix, while
`folded_dim` of {1} is 2: the frame is not kept. -/
theorem mul_assign_scr_zero_drops_frame :
    (sized_in_frame {1} : matrix_multi ℚ).m_frame = {1}
    ∧ (mul_assign_scr (scalar_prims : Prims ℚ) sample_tune (sized_in_frame {1}) 0
        basis_table.empty).self.m_frame ≠ {1}
    ∧ (folded_dim {1}).toNat = 2
    ∧ (mul_assign_scr (scalar_prims : Prims ℚ) sample_tune (sized_in_frame {1}) 0
        basis_table.empty).self.m_matrix.size1 = 1 := by
  have h2 : (folded_dim {1}).toNat = 2 := by decide
  have hm : mul_assign_scr (scalar_prims : Prims ℚ) sample_tune (sized_in_frame {1}) (0 : ℚ)
      basis_table.empty
      = { raised := none, self := sized_in_frame default_frm, cache := basis_table.empty } := by
    unfold mul_assign_scr
    simp only [scalar_eq, Scalar_T.ne, Scalar_T.of_int, Int.cast_zero, ne_eq, not_true_eq_false,
      decide_False, Bool.not_false, if_true]
    unfold ctor_int_frm ctor_scr_frm add_term
    simp [Scalar_T.ne, Scalar_T.of_int, assign_from]
  rw [hm]
  refine ⟨rfl, ?_, h2, ?_⟩
  · simp only [sized_in_frame, default_frm]
    decide
  · have h1 : (folded_dim ∅).toNat = 1 := by decide
    simp [sized_in_frame, matrix_t.resize, default_frm, h1]

/-- Witness of C9 over the rationals: the multivector of the frame {1} times
`Scalar(0)` is the zero scalar of the empty frame. -/
theorem mul_assign_scr_zero_witness :
    (mul_assign_scr (scalar_prims : Prims ℚ) sample_tune (sized_in_frame {1}) (Scalar_T.of_int 0)
        basis_table.empty).self.m_frame = ∅ :=
  (mul_assign_scr_zero (scalar_prims : Prims ℚ) sample_tune (sized_in_frame {1}) basis_table.empty
    (by simp [Scalar_T.ne])).2.2.1

/-! ## Division in exact arithmetic -/

section exact_division

variable {K : Type} [LinearOrderedField K]

theorem exact_of_int (n : Int) : (Scalar_T.of_int n : K) = (n : K) := rfl

theorem exact_ne (a b : K) : Scalar_T.ne a b = decide (a ≠ b) := rfl

theorem exact_lt (a b : K) : Scalar_T.lt a b = decide (a < b) := rfl

theorem exact_abs (a : K) : Scalar_T.abs a = |a| := rfl

theorem sum_upto_eq_sum (n : Nat) (f : Nat → K) :
    sum_upto n f = ∑ k in Finset.range n, f k := by
  unfold sum_upto
  induction n with
  | zero => simp [exact_of_int]
  | succ n ih => rw [List.range_succ, List.foldl_append, ih, Finset.sum_range_succ]; rfl

theorem foldl_scalar_max_zero (g : Nat → K) (l : List Nat) (h : ∀ i ∈ l, g i = 0) :
    l.foldl (fun t i => scalar_max t (g i)) (0 : K) = 0 := by
  induction l with
  | nil => rfl
  | cons i rest ih =>
    have hi : g i = 0 := h i (List.mem_cons_self _ _)
    have hstep : scalar_max (0 : K) (g i) = 0 := by
      simp [scalar_max, exact_lt, hi]
    rw [List.foldl_cons, hstep]
    exact ih (fun j hj => h j (List.mem_cons_of_mem _ hj))

theorem norm_inf_eq_zero (R : matrix_t K)
    (h : ∀ i, i < R.size1 → ∀ j, j < R.size2 → R.data i j = 0) : norm_inf R = 0 := by
  unfold norm_inf
  rw [exact_of_int, Int.cast_zero]
  apply foldl_scalar_max_zero
  intro i hi
  rw [sum_upto_eq_sum]
  apply Finset.sum_eq_zero
  intro j hj
  rw [exact_abs, h i (List.mem_range.mp hi) j (Finset.mem_range.mp hj), abs_zero]

theorem solve_refined_exact (P : Prims K) (T : Tune_P) (AT M : matrix_t K)
    (hsize : M.trans.size1 = AT.size1) (hlu : lu_exact P AT) :
    solve_refined P T AT M (P.lu_factorize AT).2.1 (P.lu_factorize AT).2.2
      = P.lu_substitute (P.lu_factorize AT).2.1 (P.lu_factorize AT).2.2 M.trans := by
  obtain ⟨hs1, hs2, hsame⟩ := hlu.2 M.trans hsize
  unfold solve_refined
  simp only
  split
  · have hz : norm_inf ((sparse_prod AT
        (P.lu_substitute (P.lu_factorize AT).2.1 (P.lu_factorize AT).2.2 M.trans)).minus
          M.trans) = 0 := by
      apply norm_inf_eq_zero
      intro i hi j hj
      simp only [matrix_t.minus] at hi hj ⊢
      rw [hsame.2.2 i hi j hj, sub_self]
    rw [hz]
    simp [exact_ne, exact_of_int]
  · rfl

theorem div_assign_exact (P : Prims K) (T : Tune_P) (a b : matrix_multi K)
    (c : basis_table K) (hf : a.m_frame = b.m_frame)
    (hsq : b.m_matrix.size1 = b.m_matrix.size2)
    (hcol : a.m_matrix.size2 = b.m_matrix.size2)
    (hlu : lu_exact P b.m_matrix.trans) :
    div_assign P T a b c
        = { raised := none,
            self := { m_frame := a.m_frame,
                      m_matrix := (P.lu_substitute (P.lu_factorize b.m_matrix.trans).2.1
                        (P.lu_factorize b.m_matrix.trans).2.2 a.m_matrix.trans).trans },
            cache := c }
    ∧ (sparse_prod (P.lu_substitute (P.lu_factorize b.m_matrix.trans).2.1
          (P.lu_factorize b.m_matrix.trans).2.2 a.m_matrix.trans).trans b.m_matrix).same
        a.m_matrix := by
  have hsz : a.m_matrix.trans.size1 = b.m_matrix.trans.size1 := by
    simp only [matrix_t.trans]
    exact hcol
  obtain ⟨hs1, hs2, hsame⟩ := hlu.2 a.m_matrix.trans hsz
  constructor
  · unfold div_assign
    have hne : (a.m_frame != b.m_frame) = false := by simp [hf]
    simp only [hne, Bool.false_eq_true, if_false, hlu.1, if_true]
    rw [solve_refined_exact P T _ _ hsz hlu]
  · refine ⟨?_, ?_, ?_⟩
    · simp only [sparse_prod, matrix_t.trans] at hs2 ⊢
      exact hs2
    · simp only [sparse_prod]
      exact hcol.symm
    · intro i hi j hj
      simp only [sparse_prod, matrix_t.trans] at hi hj hs1 hs2 ⊢
      have hij := hsame.2.2 j (by simp only [sparse_prod, matrix_t.trans]; exact hj)
        i (by simp only [sparse_prod, matrix_t.trans]; rw [hs2]; rw [hs2] at hi; exact hi)
      simp only [sparse_prod, matrix_t.trans] at hij
      rw [← hij, hs1, sum_upto_eq_sum, sum_upto_eq_sum, hcol, hsq]
      apply Finset.sum_congr rfl
      intro k _
      rw [mul_comm]

/-- C5. In exact arithmetic (the scalars of an ordered field), for `a` and `b` of one
frame, `B` square and `A` with as many columns as `B`, when the LU factorisation of
the transpose of `B` succeeds and factorisation and substitution are exact: `a /= b`
raises nothing, keeps the frame and the cache, and sets the matrix of `a` to an `X`
with `X * B = A`; and when `b` satisfies the dimension invariant, `b.inv()` returns a
value `y` of the frame of `b` for which `y *= b` yields the scalar 1 of that frame. -/
theorem division_law (P : Prims K) (T : Tune_P) (a b : matrix_multi K)
    (c : basis_table K) (hf : a.m_frame = b.m_frame)
    (hsq : b.m_matrix.size1 = b.m_matrix.size2)
    (hcol : a.m_matrix.size2 = b.m_matrix.size2)
    (hlu : lu_exact P b.m_matrix.trans) :
    (∃ X : matrix_t K,
      div_assign P T a b c
        = { raised := none, self := { m_frame := a.m_frame, m_matrix := X }, cache := c }
      ∧ (sparse_prod X b.m_matrix).same a.m_matrix)
    ∧ (has_folded_dim b → ∃ (one y : matrix_multi K) (c1 : basis_table K),
        ctor_int_frm P T 1 b.m_frame c = (.ok one, c1)
        ∧ inv P T b c = (.ok y, c1)
        ∧ y.m_frame = b.m_frame
        ∧ (mul_assign P T y b c1).raised = none
        ∧ (mul_assign P T y b c1).self.m_frame = b.m_frame
        ∧ (mul_assign P T y b c1).self.m_matrix.same one.m_matrix) := by
  constructor
  · exact ⟨_, div_assign_exact P T a b c hf hsq hcol hlu⟩
  · intro hb
    have hone := add_term_keeps_dim P T (sized_in_frame b.m_frame)
      (∅, (Scalar_T.of_int 1 : K)) c b.m_frame (sized_in_frame_shape b.m_frame)
    have hctor : ctor_int_frm P T 1 b.m_frame c
        = (.ok (add_term P T (sized_in_frame b.m_frame) (∅, (Scalar_T.of_int 1 : K)) c).1,
            (add_term P T (sized_in_frame b.m_frame) (∅, (Scalar_T.of_int 1 : K)) c).2) := rfl
    generalize add_term P T (sized_in_frame b.m_frame) (∅, (Scalar_T.of_int 1 : K)) c = r
      at hone hctor
    obtain ⟨hd1, hd2⟩ := div_assign_exact P T r.1 b r.2 hone.1 hsq
      (by rw [hone.2.2, hb.2, hone.1]) hlu
    refine ⟨r.1, matrix_multi.mk (r.1).m_frame
        (P.lu_substitute (P.lu_factorize b.m_matrix.trans).2.1
          (P.lu_factorize b.m_matrix.trans).2.2 (r.1).m_matrix.trans).trans, r.2,
      hctor, ?_, hone.1, ?_, ?_, ?_⟩
    · unfold inv
      simp only [hctor, hd1]
    · unfold mul_assign
      simp only [hone.1, Finset.union_self, represent_in_same, beq_self_eq_true, if_true]
    · unfold mul_assign
      simp only [hone.1, Finset.union_self, represent_in_same, beq_self_eq_true, if_true]
    · unfold mul_assign
      simp only [hone.1, Finset.union_self, represent_in_same, beq_self_eq_true, if_true]
      exact hd2

end exact_division

/-- Witness of C5 over the rationals with 1 by 1 matrices: dividing the scalar 6 by
the scalar 2 of the empty frame. -/
theorem division_law_witness :
    ∃ X : matrix_t ℚ,
      div_assign scalar_prims sample_tune (matrix_multi.mk ∅ ((unit 1).times 6))
          (matrix_multi.mk ∅ ((unit 1).times 2)) basis_table.empty
        = { raised := none, self := { m_frame := ∅, m_matrix := X },
            cache := basis_table.empty }
      ∧ (sparse_prod X ((unit 1).times 2)).same ((unit 1).times 6) := by
  refine (division_law (scalar_prims : Prims ℚ) sample_tune
    (matrix_multi.mk ∅ ((unit 1).times 6)) (matrix_multi.mk ∅ ((unit 1).times 2))
    basis_table.empty rfl rfl rfl ?_).1
  · refine ⟨?_, ?_⟩
    · simp [scalar_prims, unit, matrix_t.times, matrix_t.trans, exact_ne, exact_of_int]
    · intro Y hY
      refine ⟨rfl, rfl, hY.symm, rfl, ?_⟩
      intro i hi j _
      have hi0 : i = 0 := by
        simp only [sparse_prod, matrix_t.trans, unit, matrix_t.times] at hi
        omega
      subst hi0
      simp [scalar_prims, sparse_prod, sum_upto, unit, matrix_t.times, matrix_t.trans,
        exact_of_int, List.range_succ]
      ring

/-! ## Division by a singular element -/

section singular

variable {α : Type} [Add α] [Sub α] [Mul α] [Div α] [Neg α] [Scalar_T α]

theorem generator_product_empty (P : Prims α) (e : Int → matrix_t α)
    (folded_min folded_max dim : Int) :
    generator_product P e ∅ folded_min folded_max dim = unit dim.toNat := by
  unfold generator_product
  induction index_range folded_min folded_max generalizing dim with
  | nil => rfl
  | cons k rest ih => simp [ih dim]

theorem basis_element_empty_set (P : Prims α) (T : Tune_P) (frm : index_set)
    (c : basis_table α) (hfold : P.fold_in ∅ frm = ∅) (hc : cache_sound P c) :
    (basis_element P T ∅ frm c).1 = unit (folded_dim frm).toNat := by
  unfold basis_element
  simp only
  split
  · next found hfound =>
    split at hfound
    · have h := hc ∅ frm found hfound
      rw [hfold, generator_product_empty] at h
      exact h
    · simp at hfound
  · rw [hfold, generator_product_empty]
    split <;> rfl

/-- C6. For `a` and `b` of one frame, when the LU factorisation of the transpose of the
matrix of `b` reports singularity, `a /= b` raises nothing and makes `a` the
multivector constructed from the scalar quiet NaN, or from `Scalar_T(log(0.0))` when
the scalar type has no quiet NaN. When it has one, NaN compares unequal to itself and
to zero, `1 * NaN` and `0 + NaN` are NaN, the empty index set folds to the empty set
and the cache holds only generator products, then `isnan()` of the result is true. -/
theorem singular_division (P : Prims α) (T : Tune_P) (a b : matrix_multi α)
    (c : basis_table α) (hf : a.m_frame = b.m_frame)
    (hsing : (P.lu_factorize b.m_matrix.trans).1 ≠ 0)
    (hfold : P.fold_in ∅ ∅ = ∅) (hc : cache_sound P c)
    (hnan : Scalar_T.has_quiet_NaN α = true →
      Scalar_T.ne (Scalar_T.quiet_NaN : α) Scalar_T.quiet_NaN = true
      ∧ Scalar_T.ne (Scalar_T.quiet_NaN : α) (Scalar_T.of_int 0) = true
      ∧ (Scalar_T.of_int 1 : α) * Scalar_T.quiet_NaN = Scalar_T.quiet_NaN
      ∧ (Scalar_T.of_int 0 : α) + Scalar_T.quiet_NaN = Scalar_T.quiet_NaN) :
    ∃ (x : matrix_multi α) (c2 : basis_table α),
      ctor_scr_frm P T
          (if Scalar_T.has_quiet_NaN α = true then Scalar_T.quiet_NaN else Scalar_T.log_zero)
          default_frm c = (.ok x, c2)
      ∧ div_assign P T a b c = { raised := none, self := x, cache := c2 }
      ∧ (Scalar_T.has_quiet_NaN α = true → isnan x = true) := by
  refine ⟨_, _, rfl, ?_, ?_⟩
  · unfold div_assign
    have hne : (a.m_frame != b.m_frame) = false := by simp [hf]
    simp only [hne, Bool.false_eq_true, if_false, hsing]
    rfl
  · intro hq
    obtain ⟨h1, h2, h3, h4⟩ := hnan hq
    have hd : (folded_dim ∅).toNat = 1 := by decide
    have hbe := basis_element_empty_set P T ∅ c hfold hc
    rw [hd] at hbe
    simp only [hq, if_true]
    unfold add_term
    simp only [h2, if_true]
    unfold isnan
    simp only [default_frm, hbe, sized_in_frame, matrix_t.plus_assign, matrix_t.times,
      matrix_t.resize, matrix_t.empty, matrix_t.sized, unit, hd]
    simp [h1, h3, h4]

end singular

/-- Witness of C6 over the sample scalars with a NaN: the zero scalar of the empty
frame divided by itself is the NaN scalar, and `isnan()` holds of it. -/
theorem singular_division_witness :
    ∃ (x : matrix_multi nanq) (c2 : basis_table nanq),
      ctor_scr_frm scalar_prims sample_tune
          (if Scalar_T.has_quiet_NaN nanq = true then Scalar_T.quiet_NaN else Scalar_T.log_zero)
          default_frm basis_table.empty = (.ok x, c2)
      ∧ div_assign scalar_prims sample_tune (sized_in_frame ∅) (sized_in_frame ∅)
          basis_table.empty = { raised := none, self := x, cache := c2 }
      ∧ (Scalar_T.has_quiet_NaN nanq = true → isnan x = true) :=
  singular_division (scalar_prims : Prims nanq) sample_tune (sized_in_frame ∅)
    (sized_in_frame ∅) basis_table.empty rfl (by decide) rfl
    (by intro ist frm found h; simp [basis_table.empty] at h)
    (by intro _; exact ⟨rfl, rfl, rfl, rfl⟩)

/-! ## Integer powers -/

section powers

variable {α : Type} [Add α] [Sub α] [Mul α] [Div α] [Neg α] [Scalar_T α]

theorem mul_assign_same_frame (P : Prims α) (T : Tune_P) (y z : matrix_multi α)
    (c : basis_table α) (h : y.m_frame = z.m_frame) :
    mul_assign P T y z c
      = { raised := none,
          self := { m_frame := y.m_frame, m_matrix := sparse_prod y.m_matrix z.m_matrix },
          cache := c } := by
  unfold mul_assign
  have hu : y.m_frame ∪ z.m_frame = y.m_frame := by rw [h, Finset.union_self]
  have hb : (z.m_frame == y.m_frame) = true := by simp [h]
  simp only [hu, represent_in_same, hb, if_true]

theorem m_fold_frame (one x : matrix_multi α) (n : Nat) :
    (m_fold one x (n + 1)).m_frame = x.m_frame := by
  cases n <;> rfl

theorem m_fold_succ (one x : matrix_multi α) (n : Nat) :
    (m_fold one x (n + 2)).m_matrix
      = sparse_prod (m_fold one x (n + 1)).m_matrix x.m_matrix := rfl

theorem m_fold_add (one x : matrix_multi α)
    (hassoc : ∀ X Y Z : matrix_t α,
      sparse_prod (sparse_prod X Y) Z = sparse_prod X (sparse_prod Y Z))
    (e j : Nat) :
    sparse_prod (m_fold one x (e + 1)).m_matrix (m_fold one x (j + 1)).m_matrix
      = (m_fold one x (e + 1 + (j + 1))).m_matrix := by
  induction j with
  | zero => rfl
  | succ j ih =>
    have h1 : e + 1 + (j + 1 + 1) = (e + 1 + j) + 2 := by omega
    have h2 : e + 1 + (j + 1) = (e + 1 + j) + 1 := by omega
    rw [m_fold_succ, ← hassoc, ih, h1, m_fold_succ, h2]

theorem m_fold_mul (one x : matrix_multi α)
    (hassoc : ∀ X Y Z : matrix_t α,
      sparse_prod (sparse_prod X Y) Z = sparse_prod X (sparse_prod Y Z))
    (e j : Nat) (he : 0 < e) (hj : 0 < j) :
    ({ m_frame := (m_fold one x e).m_frame,
       m_matrix := sparse_prod (m_fold one x e).m_matrix (m_fold one x j).m_matrix }
        : matrix_multi α)
      = m_fold one x (e + j) := by
  obtain ⟨e, rfl⟩ := Nat.exists_eq_succ_of_ne_zero (Nat.pos_iff_ne_zero.mp he)
  obtain ⟨j, rfl⟩ := Nat.exists_eq_succ_of_ne_zero (Nat.pos_iff_ne_zero.mp hj)
  have hfr : (m_fold one x (e + 1 + (j + 1))).m_frame = x.m_frame := by
    have : e + 1 + (j + 1) = (e + j + 1) + 1 := by omega
    rw [this, m_fold_frame]
  have hm := m_fold_add one x hassoc e j
  cases hx : m_fold one x (e + 1 + (j + 1)) with
  | mk fr mt =>
    rw [hx] at hfr hm
    simp only [Nat.succ_eq_add_one, m_fold_frame, matrix_multi.mk.injEq]
    exact ⟨hfr.symm, hm⟩

theorem pow_loop_spec (P : Prims α) (T : Tune_P) (one base : matrix_multi α)
    (c1 : basis_table α)
    (hassoc : ∀ X Y Z : matrix_t α,
      sparse_prod (sparse_prod X Y) Z = sparse_prod X (sparse_prod Y Z))
    (hunit : ∀ k : Nat, ∃ c2,
      mul_assign P T one (m_fold one base (2 ^ k)) c1
        = { raised := none, self := m_fold one base (2 ^ k), cache := c2 })
    (fuel : Nat) :
    ∀ (n e k : Nat) (c : basis_table α), n < 2 ^ fuel →
      ((e = 0 ∧ c = c1) ∨ 0 < e) →
      ∃ c3, pow_loop P T fuel (n : Int) (m_fold one base e) (m_fold one base (2 ^ k)) c
        = some (.ok (m_fold one base (e + n * 2 ^ k)), c3) := by
  induction fuel with
  | zero =>
    intro n e k c hn _
    have h0 : n = 0 := by simpa using hn
    subst h0
    exact ⟨c, by simp [pow_loop]⟩
  | succ fuel ih =>
    intro n e k c hn he
    by_cases h0 : n = 0
    · subst h0
      exact ⟨c, by simp [pow_loop]⟩
    · have hk : 0 < 2 ^ k := Nat.pos_of_ne_zero (by positivity)
      have hsq : mul_assign P T (m_fold one base (2 ^ k)) (m_fold one base (2 ^ k))
          = fun c => { raised := none, self := m_fold one base (2 ^ (k + 1)), cache := c } := by
        funext c
        rw [mul_assign_same_frame P T _ _ c rfl, m_fold_mul one base hassoc _ _ hk hk]
        congr 2
        rw [pow_succ]; omega
      have hshift : Int.shiftRight (n : Int) 1 = ((n / 2 : Nat) : Int) := by
        simp [Int.shiftRight, Nat.shiftRight_eq_div_pow]
      have hn2 : n / 2 < 2 ^ fuel := by
        rw [pow_succ] at hn; omega
      have hn0 : ((n : Int) = 0) = False := by simp [h0]
      unfold pow_loop
      simp only [hn0, if_false, hsq, hshift]
      by_cases hbit : n % 2 = 1
      · have hbit2 : ((n : Int) % 2 = 1) = True := by
          simp only [eq_iff_iff, iff_true]; omega
        simp only [hbit2, if_true]
        have hstep : ∃ c2, mul_assign P T (m_fold one base e) (m_fold one base (2 ^ k)) c
            = { raised := none, self := m_fold one base (e + 2 ^ k), cache := c2 } := by
          rcases he with ⟨he0, hc⟩ | hpos
          · subst he0; subst hc
            obtain ⟨c2, h2⟩ := hunit k
            exact ⟨c2, by rw [Nat.zero_add]; exact h2⟩
          · refine ⟨c, ?_⟩
            obtain ⟨e, rfl⟩ := Nat.exists_eq_succ_of_ne_zero (Nat.pos_iff_ne_zero.mp hpos)
            obtain ⟨j, hj⟩ := Nat.exists_eq_succ_of_ne_zero (Nat.pos_iff_ne_zero.mp hk)
            rw [mul_assign_same_frame P T _ _ c (by rw [hj]; simp [m_fold_frame]),
              m_fold_mul one base hassoc _ _ (Nat.succ_pos e) hk]
        obtain ⟨c2, h2⟩ := hstep
        simp only [h2]
        obtain ⟨c3, h3⟩ := ih (n / 2) (e + 2 ^ k) (k + 1) c2 hn2 (Or.inr (by omega))
        refine ⟨c3, ?_⟩
        rw [h3]
        congr 4
        rw [pow_succ]
        have := Nat.div_add_mod n 2
        nlinarith [Nat.div_add_mod n 2]
      · have hbit2 : ((n : Int) % 2 = 1) = False := by
          simp only [eq_iff_iff, iff_false]; omega
        simp only [hbit2, if_false]
        obtain ⟨c3, h3⟩ := ih (n / 2) e (k + 1) c hn2 he
        refine ⟨c3, ?_⟩
        rw [h3]
        congr 4
        rw [pow_succ]
        have h2 : n % 2 = 0 := by omega
        nlinarith [Nat.div_add_mod n 2]

end powers

section power_claims

variable {α : Type} [Add α] [Sub α] [Mul α] [Div α] [Neg α] [Scalar_T α]

theorem pow_loop_negative (P : Prims α) (T : Tune_P) (fuel : Nat) :
    ∀ (m : Int) (result a : matrix_multi α) (c : basis_table α), m < 0 →
      result.m_frame = a.m_frame → pow_loop P T fuel m result a c = none := by
  induction fuel with
  | zero =>
    intro m result a c hm _
    have h0 : (m = 0) = False := by simp only [eq_iff_iff, iff_false]; omega
    simp [pow_loop, h0]
  | succ fuel ih =>
    intro m result a c hm hfr
    have h0 : (m = 0) = False := by simp only [eq_iff_iff, iff_false]; omega
    have hshift : Int.shiftRight m 1 < 0 := by
      have h : Int.shiftRight m 1 = m / 2 := by
        have := Int.shiftRight_eq_div_pow m 1
        simpa using this
      rw [h]; omega
    unfold pow_loop
    simp only [h0, if_false, mul_assign_same_frame P T a a _ rfl]
    by_cases hbit : m % 2 = 1
    · simp only [hbit, if_true, mul_assign_same_frame P T result a c hfr]
      exact ih _ _ _ _ hshift hfr
    · simp only [hbit, if_false]
      exact ih _ _ _ _ hshift hfr

theorem inv_returns (P : Prims α) (T : Tune_P) (x : matrix_multi α) (c : basis_table α) :
    ∃ y c2, inv P T x c = (.ok y, c2)
      ∧ (y.m_frame = x.m_frame ∨ y.m_frame = default_frm) := by
  have hone := add_term_keeps_dim P T (sized_in_frame x.m_frame)
    (∅, (Scalar_T.of_int 1 : α)) c x.m_frame (sized_in_frame_shape x.m_frame)
  have hctor : ctor_int_frm P T 1 x.m_frame c
      = (.ok (add_term P T (sized_in_frame x.m_frame) (∅, (Scalar_T.of_int 1 : α)) c).1,
          (add_term P T (sized_in_frame x.m_frame) (∅, (Scalar_T.of_int 1 : α)) c).2) := rfl
  generalize add_term P T (sized_in_frame x.m_frame) (∅, (Scalar_T.of_int 1 : α)) c = r
    at hone hctor
  unfold inv
  simp only [hctor]
  unfold div_assign
  have hne : ((r.1).m_frame != x.m_frame) = false := by simp [hone.1]
  simp only [hne, Bool.false_eq_true, if_false]
  by_cases hs : (P.lu_factorize x.m_matrix.trans).1 = 0
  · simp only [hs, if_true]
    exact ⟨_, _, rfl, Or.inl hone.1⟩
  · simp only [hs, if_false, assign_from, ctor_scr_frm]
    refine ⟨_, _, rfl, Or.inr ?_⟩
    exact (add_term_keeps_dim P T (sized_in_frame default_frm) _ r.2 default_frm
      (sized_in_frame_shape default_frm)).1

/-- C7 (amended). Power law for every exponent whose negation is an `int`, that is for
every `int` but `INT_MIN`. Let `base` be the receiver for `m >= 0` and its inverse
`inv()` for `m < 0`, and `one` the multivector `1` that `pow` constructs. If the matrix product is
associative and `one` is a left unit of the powers of `base`, then `pow(m)` returns
the `|m|`-fold geometric product of `base` with itself: `one` for `m = 0`,
`(base * base) * base` for `|m| = 3`, and `inv()` itself for `m = -1`. -/
theorem pow_law (P : Prims α) (T : Tune_P) (x : matrix_multi α) (m : Int)
    (c : basis_table α) (base one : matrix_multi α) (c0 c1 : basis_table α) (fuel : Nat)
    (hfuel : 32 ≤ fuel) (hm : -2 ^ 31 < m ∧ m < 2 ^ 31)
    (hbase : (if m < 0 then inv P T x c else (.ok x, c)) = (.ok base, c0))
    (hone : ctor_int_frm P T 1 default_frm c0 = (.ok one, c1))
    (hassoc : ∀ X Y Z : matrix_t α,
      sparse_prod (sparse_prod X Y) Z = sparse_prod X (sparse_prod Y Z))
    (hunit : ∀ k : Nat, ∃ c2,
      mul_assign P T one (m_fold one base (2 ^ k)) c1
        = { raised := none, self := m_fold one base (2 ^ k), cache := c2 }) :
    (∃ c3, pow P T fuel x m c = some (.ok (m_fold one base m.natAbs), c3))
    ∧ m_fold one base 0 = one ∧ m_fold one base 1 = base
    ∧ m_fold one base 3
        = { m_frame := base.m_frame,
            m_matrix := sparse_prod (sparse_prod base.m_matrix base.m_matrix) base.m_matrix } := by
  refine ⟨?_, rfl, rfl, rfl⟩
  have hm1 : (if m < 0 then to_int (-m) else m) = ((m.natAbs : Nat) : Int) := by
    split
    · rw [to_int_of_small (-m) (by omega) (by omega)]; omega
    · omega
  have hlt : m.natAbs < 2 ^ fuel := by
    have h31 : m.natAbs < 2 ^ 31 := by omega
    exact lt_of_lt_of_le h31 (Nat.pow_le_pow_right (by norm_num) (by omega))
  obtain ⟨c3, h3⟩ := pow_loop_spec P T one base c1 hassoc hunit fuel m.natAbs 0 0 c1 hlt
    (Or.inl ⟨rfl, rfl⟩)
  refine ⟨c3, ?_⟩
  unfold pow
  simp only [hbase, hone, hm1]
  simpa using h3

end power_claims

section exact_product

variable {K : Type} [LinearOrderedField K]

theorem sparse_prod_assoc (X Y Z : matrix_t K) :
    sparse_prod (sparse_prod X Y) Z = sparse_prod X (sparse_prod Y Z) := by
  simp only [sparse_prod, matrix_t.mk.injEq, true_and]
  funext i j
  simp only [sum_upto_eq_sum, Finset.sum_mul, Finset.mul_sum]
  rw [Finset.sum_comm]
  apply Finset.sum_congr rfl
  intro l _
  apply Finset.sum_congr rfl
  intro k _
  rw [mul_assoc]

end exact_product

/-- C7 (counterexample). With `m = INT_MIN` the statement `m = -m` wraps back to
`INT_MIN`, the loop `for (; m != 0; m >>= 1)` shifts a negative `m` and never reaches
0: for no amount of fuel does `pow` return, here for the scalar 1 of the empty frame
over the rationals. -/
theorem pow_int_min_never_returns :
    to_int (-(-2147483648)) = -2147483648
    ∧ ¬ ∃ (fuel : Nat) (r : Except exception (matrix_multi ℚ) × basis_table ℚ),
        pow scalar_prims sample_tune fuel (matrix_multi.mk ∅ (unit 1)) (-2147483648)
          basis_table.empty = some r := by
  have hw : to_int (-(-2147483648)) = -2147483648 := by decide
  refine ⟨hw, ?_⟩
  rintro ⟨fuel, r, h⟩
  obtain ⟨y, c2, hy, hfr⟩ := inv_returns (scalar_prims : Prims ℚ) sample_tune
    (matrix_multi.mk ∅ (unit 1)) basis_table.empty
  have hy0 : y.m_frame = ∅ := by
    rcases hfr with h1 | h1
    · exact h1
    · exact h1
  have hone := add_term_keeps_dim (scalar_prims : Prims ℚ) sample_tune
    (sized_in_frame default_frm) (∅, (Scalar_T.of_int 1 : ℚ)) c2 default_frm
    (sized_in_frame_shape default_frm)
  unfold pow at h
  have hneg : ((-2147483648 : Int) < 0) = True := by decide
  simp only [hneg, if_true, hy, hw] at h
  unfold ctor_int_frm ctor_scr_frm at h
  simp only at h
  rw [pow_loop_negative _ _ fuel _ _ _ _ (by decide) (by rw [hone.1, hy0]; rfl)] at h
  exact absurd h (by simp)

section power_witness

theorem matrix_multi_eta {α : Type} (y : matrix_multi α) (F : index_set)
    (h : y.m_frame = F) : matrix_multi.mk F y.m_matrix = y := by
  cases y with
  | mk fr mt =>
    simp only at h
    subst h
    rfl

theorem cache_sound_empty {α : Type} [Add α] [Mul α] [Scalar_T α] (P : Prims α) :
    cache_sound P basis_table.empty := by
  intro ist frm found h
  simp [basis_table.empty] at h

theorem scalar_one_frame :
    (add_term (scalar_prims : Prims ℚ) sample_tune (sized_in_frame default_frm)
      (∅, Scalar_T.of_int 1) basis_table.empty).1.m_frame = ∅ :=
  (add_term_shape _ _ _ _ _).1

theorem scalar_one_matrix :
    (add_term (scalar_prims : Prims ℚ) sample_tune (sized_in_frame default_frm)
      (∅, Scalar_T.of_int 1) basis_table.empty).1.m_matrix
      = { size1 := 1, size2 := 1, data := fun i j => if i = j ∧ i < 1 then 1 else 0 } := by
  have hd : (folded_dim ∅).toNat = 1 := by decide
  have hbe := basis_element_empty_set (scalar_prims : Prims ℚ) sample_tune ∅
    basis_table.empty rfl (cache_sound_empty _)
  rw [hd] at hbe
  unfold add_term
  have hne : Scalar_T.ne ((∅ : index_set), (Scalar_T.of_int 1 : ℚ)).2 (Scalar_T.of_int 0) = true := by
    simp [exact_ne, exact_of_int]
  simp only [hne, if_true, default_frm, sized_in_frame, hbe, hd]
  simp only [matrix_t.plus_assign, matrix_t.times, matrix_t.resize, matrix_t.empty,
    matrix_t.sized, unit, exact_of_int, matrix_t.mk.injEq, true_and]
  funext i j
  simp

theorem first_row_only (x : matrix_multi ℚ) (hs : x.m_matrix.size1 = 1)
    (hx : ∀ i j, i ≠ 0 → x.m_matrix.data i j = 0) (one : matrix_multi ℚ) (n : Nat) :
    (m_fold one x (n + 1)).m_matrix.size1 = 1
      ∧ ∀ i j, i ≠ 0 → (m_fold one x (n + 1)).m_matrix.data i j = 0 := by
  induction n with
  | zero => exact ⟨hs, hx⟩
  | succ n ih =>
    refine ⟨ih.1, ?_⟩
    intro i j hi
    rw [m_fold_succ]
    simp only [sparse_prod, sum_upto_eq_sum]
    apply Finset.sum_eq_zero
    intro k _
    rw [ih.2 i k hi, zero_mul]

theorem scalar_one_left_unit (M : matrix_t ℚ) (hs : M.size1 = 1)
    (hM : ∀ i j, i ≠ 0 → M.data i j = 0) :
    sparse_prod (add_term (scalar_prims : Prims ℚ) sample_tune (sized_in_frame default_frm)
      (∅, Scalar_T.of_int 1) basis_table.empty).1.m_matrix M = M := by
  rw [scalar_one_matrix]
  cases M with
  | mk s1 s2 d =>
    simp only at hs hM
    subst hs
    simp only [sparse_prod, matrix_t.mk.injEq, true_and, sum_upto_eq_sum]
    funext i j
    by_cases hi : i = 0
    · subst hi; simp
    · simp [hi, hM i j hi]

/-- Witness of C7 over the rationals: the cube of the scalar 2 of the empty
frame, with 32 iterations of fuel. -/
theorem pow_law_witness :
    ∃ c3, pow (scalar_prims : Prims ℚ) sample_tune 32 (matrix_multi.mk ∅ ((unit 1).times 2)) 3
        basis_table.empty
      = some (.ok (m_fold
          (add_term (scalar_prims : Prims ℚ) sample_tune (sized_in_frame default_frm)
            (∅, Scalar_T.of_int 1) basis_table.empty).1
          (matrix_multi.mk ∅ ((unit 1).times 2)) (3 : Int).natAbs), c3) :=
  (pow_law (scalar_prims : Prims ℚ) sample_tune (matrix_multi.mk ∅ ((unit 1).times 2)) 3
    basis_table.empty (matrix_multi.mk ∅ ((unit 1).times 2))
    (add_term (scalar_prims : Prims ℚ) sample_tune (sized_in_frame default_frm)
      (∅, Scalar_T.of_int 1) basis_table.empty).1
    basis_table.empty
    (add_term (scalar_prims : Prims ℚ) sample_tune (sized_in_frame default_frm)
      (∅, Scalar_T.of_int 1) basis_table.empty).2
    32 (le_refl 32) (by norm_num) (by simp) rfl sparse_prod_assoc
    (by
      intro k
      obtain ⟨n, hn⟩ := Nat.exists_eq_succ_of_ne_zero
        (Nat.pos_iff_ne_zero.mp (Nat.pos_of_ne_zero (by positivity : 2 ^ k ≠ 0)))
      rw [hn]
      have hrow := first_row_only (matrix_multi.mk ∅ ((unit 1).times 2)) rfl
        (by intro i j hi; simp [unit, matrix_t.times, exact_of_int, hi])
        (add_term (scalar_prims : Prims ℚ) sample_tune (sized_in_frame default_frm)
          (∅, Scalar_T.of_int 1) basis_table.empty).1 n
      refine ⟨(add_term (scalar_prims : Prims ℚ) sample_tune (sized_in_frame default_frm)
          (∅, Scalar_T.of_int 1) basis_table.empty).2, ?_⟩
      rw [mul_assign_same_frame _ _ _ _ _ (by rw [scalar_one_frame, m_fold_frame]),
        scalar_one_left_unit _ hrow.1 hrow.2, scalar_one_frame]
      have hfr := m_fold_frame
        (add_term (scalar_prims : Prims ℚ) sample_tune (sized_in_frame default_frm)
          (∅, Scalar_T.of_int 1) basis_table.empty).1
        (matrix_multi.mk ∅ ((unit 1).times 2)) n
      simp only [Nat.succ_eq_add_one] at hfr ⊢
      rw [matrix_multi_eta _ ∅ hfr])).1

end power_witness

/-! ## Signature shifting -/

theorem shift_pm4_qp4_spec (p q : Int) (hp : 0 ≤ p) (hq : 0 ≤ q) :
    (shift_pm4_qp4 p q).1 + (shift_pm4_qp4 p q).2 = p + q
      ∧ 0 ≤ (shift_pm4_qp4 p q).1 ∧ 0 ≤ (shift_pm4_qp4 p q).2
      ∧ (shift_pm4_qp4 p q).1 - (shift_pm4_qp4 p q).2 ≤ 4
      ∧ (-3 ≤ p - q → -3 ≤ (shift_pm4_qp4 p q).1 - (shift_pm4_qp4 p q).2)
      ∧ (shift_pm4_qp4 p q).1 - (shift_pm4_qp4 p q).2 ≤ max (p - q) 4 := by
  induction p, q using shift_pm4_qp4.induct with
  | case1 p q h ih =>
    have := ih (by omega) (by omega)
    rw [shift_pm4_qp4, if_pos h]
    refine ⟨by omega, this.2.1, this.2.2.1, this.2.2.2.1, fun _ => this.2.2.2.2.1 (by omega), ?_⟩
    have h2 := this.2.2.2.2.2
    simp only [le_max_iff] at h2 ⊢
    omega
  | case2 p q h =>
    rw [shift_pm4_qp4, if_neg h]
    exact ⟨rfl, hp, hq, by omega, fun h3 => h3, le_max_left _ _⟩

theorem shift_pp4_qm4_spec (p q : Int) (hp : 0 ≤ p) (hq : 0 ≤ q) :
    (shift_pp4_qm4 p q).1 + (shift_pp4_qm4 p q).2 = p + q
      ∧ 0 ≤ (shift_pp4_qm4 p q).1 ∧ 0 ≤ (shift_pp4_qm4 p q).2
      ∧ -3 ≤ (shift_pp4_qm4 p q).1 - (shift_pp4_qm4 p q).2
      ∧ (p - q ≤ 4 → (shift_pp4_qm4 p q).1 - (shift_pp4_qm4 p q).2 ≤ 4) := by
  induction p, q using shift_pp4_qm4.induct with
  | case1 p q h ih =>
    have := ih (by omega) (by omega)
    rw [shift_pp4_qm4, if_pos h]
    exact ⟨by omega, this.2.1, this.2.2.1, this.2.2.2.1, fun _ => this.2.2.2.2 (by omega)⟩
  | case2 p q h =>
    rw [shift_pp4_qm4, if_neg h]
    omega

/-- C16. For every pair of non-negative counts (p, q) the two shifting loops of
`fast_framed_multi` end (they are total functions), keep p+q, keep p and q
non-negative and end with p-q in [-3, 4]; the conditional swap that follows keeps
p+q and non-negativity and leaves p-q in [-3, 1]. -/
theorem signature_shifting (p q : Int) (hp : 0 ≤ p) (hq : 0 ≤ q) :
    (shift_loops p q).1 + (shift_loops p q).2 = p + q
      ∧ 0 ≤ (shift_loops p q).1 ∧ 0 ≤ (shift_loops p q).2
      ∧ -3 ≤ (shift_loops p q).1 - (shift_loops p q).2
      ∧ (shift_loops p q).1 - (shift_loops p q).2 ≤ 4
      ∧ (swap_qp1_pm1 (shift_loops p q).1 (shift_loops p q).2).1
          + (swap_qp1_pm1 (shift_loops p q).1 (shift_loops p q).2).2 = p + q
      ∧ 0 ≤ (swap_qp1_pm1 (shift_loops p q).1 (shift_loops p q).2).1
      ∧ 0 ≤ (swap_qp1_pm1 (shift_loops p q).1 (shift_loops p q).2).2
      ∧ -3 ≤ (swap_qp1_pm1 (shift_loops p q).1 (shift_loops p q).2).1
          - (swap_qp1_pm1 (shift_loops p q).1 (shift_loops p q).2).2
      ∧ (swap_qp1_pm1 (shift_loops p q).1 (shift_loops p q).2).1
          - (swap_qp1_pm1 (shift_loops p q).1 (shift_loops p q).2).2 ≤ 1 := by
  have h1 := shift_pm4_qp4_spec p q hp hq
  have h2 := shift_pp4_qm4_spec (shift_pm4_qp4 p q).1 (shift_pm4_qp4 p q).2 h1.2.1 h1.2.2.1
  have h3 := h2.2.2.2.2 h1.2.2.2.1
  unfold shift_loops
  generalize shift_pp4_qm4 (shift_pm4_qp4 p q).1 (shift_pm4_qp4 p q).2 = r at h2 h3 ⊢
  unfold swap_qp1_pm1
  split <;> simp only <;> omega

/-- Witness of C16 at the signatures (13, 0) and (4, 0): the loops take (13, 0) to
(5, 8), and the swap takes (4, 0) to (1, 3). -/
theorem signature_shifting_witness :
    shift_loops 13 0 = (5, 8) ∧ swap_qp1_pm1 4 0 = (1, 3)
      ∧ (shift_loops 13 0).1 + (shift_loops 13 0).2 = 13 + 0 :=
  ⟨by simp [shift_loops, shift_pm4_qp4, shift_pp4_qm4], by decide,
    (signature_shifting 13 0 (by decide) (by decide)).1⟩


/-! ## The constructor from a vector -/

section vector_ctor

variable {α : Type} [Add α] [Sub α] [Mul α] [Div α] [Neg α] [Scalar_T α]

theorem mem_index_range (lo hi k : Int) : k ∈ index_range lo hi ↔ lo ≤ k ∧ k ≤ hi := by
  unfold index_range
  simp only [List.mem_map, List.mem_range]
  constructor
  · rintro ⟨i, hi1, rfl⟩
    omega
  · rintro ⟨h1, h2⟩
    exact ⟨(k - lo).toNat, by omega, by omega⟩

theorem index_range_sorted (lo hi : Int) : (index_range lo hi).Sorted (· < ·) := by
  unfold index_range
  rw [List.Sorted, List.pairwise_map]
  exact (List.pairwise_lt_range _).imp (by intro a b h; omega)

theorem index_set_min_le (frm : index_set) (k : Int) (h : k ∈ frm) : index_set_min frm ≤ k := by
  unfold index_set_min
  rw [dif_pos ⟨k, h⟩]
  exact Finset.min'_le _ _ h

theorem le_index_set_max (frm : index_set) (k : Int) (h : k ∈ frm) : k ≤ index_set_max frm := by
  unfold index_set_max
  rw [dif_pos ⟨k, h⟩]
  exact Finset.le_max' _ _ h

theorem filter_index_range_eq_sort (s : index_set) (lo hi : Int)
    (h : ∀ k ∈ s, lo ≤ k ∧ k ≤ hi) :
    (index_range lo hi).filter (fun k => decide (k ∈ s)) = s.sort (· ≤ ·) := by
  apply List.eq_of_perm_of_sorted (r := (· ≤ ·))
  · apply List.perm_of_nodup_nodup_toFinset_eq
    · exact ((index_range_sorted lo hi).nodup).filter _
    · exact Finset.sort_nodup _ _
    · ext k
      simp only [List.mem_toFinset, List.mem_filter, mem_index_range, decide_eq_true_eq,
        Finset.mem_sort]
      constructor
      · exact fun hk => hk.2
      · exact fun hk => ⟨h k hk, hk⟩
  · exact ((index_range_sorted lo hi).filter _).imp (fun hab => le_of_lt hab)
  · exact Finset.sort_sorted _ _

theorem vec_loop_eq (P : Prims α) (T : Tune_P) (vec : List α) (frm : index_set)
    (idxs : List Int) :
    ∀ (k : Nat) (x : matrix_multi α) (c : basis_table α),
      (idxs.filter (fun i => decide (i ∈ frm))).length + k ≤ vec.length →
      vec_loop P T vec frm idxs k x c
        = (.ok (((idxs.filter (fun i => decide (i ∈ frm))).zip (vec.drop k)).foldl
              (fun s t => add_term P T s.1 ({t.1}, t.2) s.2) (x, c)).1,
            (((idxs.filter (fun i => decide (i ∈ frm))).zip (vec.drop k)).foldl
              (fun s t => add_term P T s.1 ({t.1}, t.2) s.2) (x, c)).2) := by
  induction idxs with
  | nil => intro k x c _; simp [vec_loop]
  | cons idx rest ih =>
    intro k x c hlen
    unfold vec_loop
    by_cases hmem : idx ∈ frm
    · simp only [hmem, if_true, List.filter_cons_of_pos, decide_True, List.length_cons] at hlen ⊢
      have hk : k < vec.length := by omega
      have hget : vec.get? k = some (vec.get ⟨k, hk⟩) := List.get?_eq_get hk
      have hdrop : vec.drop k = vec.get ⟨k, hk⟩ :: vec.drop (k + 1) :=
        (List.drop_eq_getElem_cons hk)
      rw [hget, hdrop]
      simp only [List.zip_cons_cons, List.foldl_cons]
      exact ih (k + 1) _ _ (by omega)
    · simp only [hmem, if_false, decide_False, Bool.false_eq_true, not_false_eq_true,
        List.filter_cons_of_neg] at hlen ⊢
      exact ih k x c hlen

theorem vec_loop_no_glucat_error (P : Prims α) (T : Tune_P) (vec : List α) (frm : index_set)
    (idxs : List Int) :
    ∀ (k : Nat) (x : matrix_multi α) (c : basis_table α) (name msg : String),
      (vec_loop P T vec frm idxs k x c).1 ≠ .error (exception.glucat_error name msg) := by
  induction idxs with
  | nil => intro k x c name msg; simp [vec_loop]
  | cons idx rest ih =>
    intro k x c name msg
    unfold vec_loop
    split
    · split
      · simp
      · exact ih _ _ _ _ _
    · exact ih _ _ _ _ _

/-- C11. The constructor from a vector raises "cannot initialize with vector not
matching frame" if and only if `prechecked` is false and `vec.size()` differs from
`frm.count()`. When the two are equal it returns without reading past the end of
`vec`, and the value is built by adding, for the indices of `frm` in ascending order
paired with `vec[0], vec[1], ...`, the term with that index and that coordinate to the
zero matrix of the frame. -/
theorem vector_constructor (P : Prims α) (T : Tune_P) (vec : List α) (frm : index_set)
    (prechecked : Bool) (c : basis_table α) :
    ((ctor_vec_frm P T vec frm prechecked c).1 = .error (error_t
        "multivector_t(vec,frm): cannot initialize with vector not matching frame")
      ↔ (prechecked = false ∧ vec.length ≠ frm.card))
    ∧ (vec.length = frm.card →
        ctor_vec_frm P T vec frm prechecked c
          = (.ok (((frm.sort (· ≤ ·)).zip vec).foldl
                (fun s t => add_term P T s.1 ({t.1}, t.2) s.2) (sized_in_frame frm, c)).1,
              (((frm.sort (· ≤ ·)).zip vec).foldl
                (fun s t => add_term P T s.1 ({t.1}, t.2) s.2) (sized_in_frame frm, c)).2)) := by
  have hsort := filter_index_range_eq_sort frm (index_set_min frm) (index_set_max frm + 1 - 1)
    (fun k hk => ⟨index_set_min_le frm k hk, by have := le_index_set_max frm k hk; omega⟩)
  constructor
  · unfold ctor_vec_frm
    by_cases hcond : (!prechecked && ((vec.length : Int) != (frm.card : Int))) = true
    · rw [if_pos hcond]
      simp only [true_iff]
      cases prechecked
      · simp only [Bool.not_false, Bool.true_and, bne_iff_ne, ne_eq, Nat.cast_inj] at hcond
        exact ⟨rfl, hcond⟩
      · simp at hcond
    · rw [if_neg hcond]
      constructor
      · intro h
        exact absurd h (vec_loop_no_glucat_error P T vec frm _ _ _ _ _ _)
      · rintro ⟨hp, hne⟩
        exfalso
        apply hcond
        subst hp
        simp only [Bool.not_false, Bool.true_and, bne_iff_ne, ne_eq, Nat.cast_inj]
        exact hne
  · intro hlen
    unfold ctor_vec_frm
    have hcond : (!prechecked && ((vec.length : Int) != (frm.card : Int))) = false := by
      simp [hlen]
    rw [hcond]
    simp only [Bool.false_eq_true, if_false]
    rw [vec_loop_eq P T vec frm _ 0 _ c (by rw [hsort, Finset.length_sort]; omega)]
    rw [hsort, List.drop_zero]

end vector_ctor


/-! ## Fallback from the fast transform -/

section fallback

variable {α : Type} [Add α] [Sub α] [Mul α] [Div α] [Neg α] [Scalar_T α]

theorem sized_in_frame_zero (frm : index_set) (i j : Nat) :
    (sized_in_frame frm : matrix_multi α).m_matrix.data i j = Scalar_T.of_int 0 := by
  simp [sized_in_frame, matrix_t.resize, matrix_t.empty, matrix_t.sized]

theorem from_framed_fallback (P : Prims α) (T : Tune_P) (val : framed_multi α)
    (frm : index_set) (c : basis_table α) (name msg : String)
    (hsz : T.fast_size_threshold ≤ val.size)
    (hfast : P.fast_matrix_multi val frm = .error (exception.glucat_error name msg)) :
    from_framed P T val frm c
      = (.ok (term_by_term P T val frm c).1, (term_by_term P T val frm c).2) := by
  unfold from_framed
  rw [if_pos hsz, hfast]

/-- C13. Fast-path fallback. When `val.size()` is at least `fast_size_threshold` and
the fast transform raises a `glucat_error`, the constructor from a sparse multivector
(without a frame, and with a frame once its containment check is passed) raises
nothing and returns exactly the result of the term by term path. That result has the
frame `frm`, a square matrix of side `folded_dim(frm)`, and is accumulated from the
all-zero matrix by adding `basis_element(index set, frm) * coefficient` for each term
with a non-zero coefficient, in the order of the terms. When `val.size()` is below the
threshold the result is the term by term result whatever the fast transform would
do: replacing the fast transform by any other function changes nothing. -/
theorem fast_path_fallback (P : Prims α) (T : Tune_P) (val : framed_multi α)
    (frm : index_set) (prechecked : Bool) (c : basis_table α) :
    (∀ name msg, T.fast_size_threshold ≤ val.size →
        P.fast_matrix_multi val val.frame = .error (exception.glucat_error name msg) →
        ctor_framed P T val c
          = (.ok (term_by_term P T val val.frame c).1, (term_by_term P T val val.frame c).2))
    ∧ (∀ name msg, T.fast_size_threshold ≤ val.size →
        (prechecked = true ∨ val.frame ⊆ frm) →
        P.fast_matrix_multi val frm = .error (exception.glucat_error name msg) →
        ctor_framed_frm P T val frm prechecked c
          = (.ok (term_by_term P T val frm c).1, (term_by_term P T val frm c).2))
    ∧ (term_by_term P T val frm c).1.m_frame = frm
    ∧ has_folded_dim (term_by_term P T val frm c).1
    ∧ term_by_term P T val frm c
        = val.terms.foldl
            (fun s term =>
              if Scalar_T.ne term.2 (Scalar_T.of_int 0) then
                (matrix_multi.mk s.1.m_frame
                  (s.1.m_matrix.plus_assign
                    ((basis_element P T term.1 s.1.m_frame s.2).1.times term.2)),
                 (basis_element P T term.1 s.1.m_frame s.2).2)
              else s)
            (sized_in_frame frm, c)
    ∧ (∀ i j, (sized_in_frame frm : matrix_multi α).m_matrix.data i j = Scalar_T.of_int 0)
    ∧ (val.size < T.fast_size_threshold →
        ∀ g : framed_multi α → index_set → Except exception (matrix_multi α),
          ctor_framed { P with fast_matrix_multi := g } T val c
            = (.ok (term_by_term P T val val.frame c).1, (term_by_term P T val val.frame c).2)
          ∧ ((prechecked = true ∨ val.frame ⊆ frm) →
            ctor_framed_frm { P with fast_matrix_multi := g } T val frm prechecked c
              = (.ok (term_by_term P T val frm c).1, (term_by_term P T val frm c).2))) := by
  have hcheck : (prechecked = true ∨ val.frame ⊆ frm) →
      (!prechecked && (val.frame ∪ frm) != frm) = false := by
    intro h
    rcases h with h | h
    · simp [h]
    · simp [Finset.union_eq_right.mpr h]
  refine ⟨?_, ?_, (term_by_term_keeps_dim P T val frm c).1,
    (term_by_term_keeps_dim P T val frm c).2, ?_, sized_in_frame_zero frm, ?_⟩
  · intro name msg hsz hfast
    exact from_framed_fallback P T val val.frame c name msg hsz hfast
  · intro name msg hsz hpre hfast
    unfold ctor_framed_frm
    rw [hcheck hpre]
    simp only [Bool.false_eq_true, if_false]
    exact from_framed_fallback P T val frm c name msg hsz hfast
  · rfl
  · intro hlt g
    constructor
    · unfold ctor_framed
      rw [from_framed_below_threshold _ T val val.frame c hlt]
      rfl
    · intro hpre
      unfold ctor_framed_frm
      rw [hcheck hpre]
      simp only [Bool.false_eq_true, if_false]
      rw [from_framed_below_threshold _ T val frm c hlt]
      rfl

end fallback

/-- Witness of C13: with the sample collaborators, whose fast transform always raises
a `glucat_error`, and a threshold of one term, the constructor from the sparse scalar
3 returns the term by term result. -/
theorem fast_path_fallback_witness :
    (1 ≤ (framed_multi.mk [((∅ : index_set), (3 : ℚ))]).size)
    ∧ ctor_framed (scalar_prims : Prims ℚ) (Tune_P.mk 1 6 4) (framed_multi.mk [(∅, 3)])
          basis_table.empty
        = (.ok (term_by_term (scalar_prims : Prims ℚ) (Tune_P.mk 1 6 4)
              (framed_multi.mk [(∅, 3)]) (framed_multi.mk [((∅ : index_set), (3 : ℚ))]).frame
              basis_table.empty).1,
            (term_by_term (scalar_prims : Prims ℚ) (Tune_P.mk 1 6 4)
              (framed_multi.mk [(∅, 3)]) (framed_multi.mk [((∅ : index_set), (3 : ℚ))]).frame
              basis_table.empty).2) :=
  ⟨by decide,
   (fast_path_fallback (scalar_prims : Prims ℚ) (Tune_P.mk 1 6 4) (framed_multi.mk [(∅, 3)])
      ∅ true basis_table.empty).1 "framed_multi" "fast_matrix_multi: not available"
      (by decide) rfl⟩


/-! ## Grade extraction -/

section grading

variable {α : Type} [Add α] [Sub α] [Mul α] [Div α] [Neg α] [Scalar_T α]

theorem ctor_int_zero (P : Prims α) (T : Tune_P) (frm : index_set) (c : basis_table α)
    (h0 : Scalar_T.ne (Scalar_T.of_int 0 : α) (Scalar_T.of_int 0) = false) :
    ctor_int_frm P T 0 frm c = (.ok (sized_in_frame frm), c) := by
  unfold ctor_int_frm ctor_scr_frm add_term
  simp only [h0, Bool.false_eq_true, if_false]

/-- C18. Grade extraction. For a grade `g` with `g < 0` or `g > HI-LO` the call
`a(g)` returns the conversion of the int 0 whatever the conversion to the sparse
representation and its grade part would do (replacing them by any other functions
changes nothing); when `0 != 0` is false on the scalars this is the zero multivector:
empty frame, all entries zero, nothing raised, cache untouched. For
`0 <= g <= HI-LO` the call converts `a` to the sparse representation, takes its grade
`g` part, and returns the matrix multivector the constructor from a sparse
multivector makes of that part; an exception of either step is passed on. -/
theorem grade_extraction (P : Prims α) (T : Tune_P) (LO HI : Int) (a : matrix_multi α)
    (g : Int) (c : basis_table α) :
    ((g < 0 ∨ g > HI - LO) →
      grade_part P T LO HI a g c = ctor_int_frm P T 0 default_frm c
      ∧ (∀ (tf : matrix_multi α → Except exception (framed_multi α))
           (fg : framed_multi α → Int → Except exception (framed_multi α)),
          grade_part { P with to_framed := tf, framed_grade := fg } T LO HI a g c
            = grade_part P T LO HI a g c)
      ∧ (Scalar_T.ne (Scalar_T.of_int 0 : α) (Scalar_T.of_int 0) = false →
          grade_part P T LO HI a g c = (.ok (sized_in_frame ∅), c)
          ∧ ∀ i j, (sized_in_frame ∅ : matrix_multi α).m_matrix.data i j = Scalar_T.of_int 0))
    ∧ ((0 ≤ g ∧ g ≤ HI - LO) →
      (∀ f part, P.to_framed a = .ok f → P.framed_grade f g = .ok part →
          grade_part P T LO HI a g c = ctor_framed P T part c)
      ∧ (∀ e, P.to_framed a = .error e → grade_part P T LO HI a g c = (.error e, c))
      ∧ (∀ f e, P.to_framed a = .ok f → P.framed_grade f g = .error e →
          grade_part P T LO HI a g c = (.error e, c))) := by
  constructor
  · intro hg
    have hcond : (decide (g < 0) || decide (g > HI - LO)) = true := by
      rcases hg with h | h <;> simp [h]
    have hret : ∀ Q : Prims α, grade_part Q T LO HI a g c = ctor_int_frm Q T 0 default_frm c := by
      intro Q
      unfold grade_part
      rw [if_pos hcond]
    refine ⟨hret P, ?_, ?_⟩
    · intro tf fg
      rw [hret, hret]
      rfl
    · intro h0
      rw [hret, ctor_int_zero P T default_frm c h0]
      exact ⟨rfl, sized_in_frame_zero ∅⟩
  · rintro ⟨h1, h2⟩
    have hcond : ¬ ((decide (g < 0) || decide (g > HI - LO)) = true) := by
      simp only [Bool.or_eq_true, decide_eq_true_eq, not_or, not_lt]
      exact ⟨h1, by omega⟩
    refine ⟨?_, ?_, ?_⟩
    · intro f part hf hp
      unfold grade_part
      rw [if_neg hcond, hf]
      simp only [hp]
    · intro e hf
      unfold grade_part
      rw [if_neg hcond, hf]
    · intro f e hf hp
      unfold grade_part
      rw [if_neg hcond, hf]
      simp only [hp]

end grading

/-- Witness of C18 over the rationals with the sample collaborators and `LO = -2`,
`HI = 2`: the grade 5 part of the scalar 1 is the zero multivector, and its grade 0
part is the matrix form of the scalar read back from the sparse representation. -/
theorem grade_extraction_witness :
    grade_part (scalar_prims : Prims ℚ) sample_tune (-2) 2 (ctor_mtx_frm (unit 1) ∅) 5
        basis_table.empty = (.ok (sized_in_frame ∅), basis_table.empty)
    ∧ grade_part (scalar_prims : Prims ℚ) sample_tune (-2) 2 (ctor_mtx_frm (unit 1) ∅) 0
        basis_table.empty
      = ctor_framed (scalar_prims : Prims ℚ) sample_tune
          (framed_multi.mk [(∅, (unit 1 : matrix_t ℚ).data 0 0)]) basis_table.empty :=
  ⟨((grade_extraction (scalar_prims : Prims ℚ) sample_tune (-2) 2 (ctor_mtx_frm (unit 1) ∅) 5
      basis_table.empty).1 (Or.inr (by decide))).2.2 (by simp [Scalar_T.ne]) |>.1,
   ((grade_extraction (scalar_prims : Prims ℚ) sample_tune (-2) 2 (ctor_mtx_frm (unit 1) ∅) 0
      basis_table.empty).2 ⟨by decide, by decide⟩).1 _ _ rfl rfl⟩

/-! ## Stream input -/

section stream_input

variable {α : Type} [Add α] [Sub α] [Mul α] [Div α] [Neg α] [Scalar_T α]

/-- C19 (amended). Stream input reads a sparse multivector from the stream first.
If the stream is bad after that (`badbit` set), the target keeps its frame and matrix,
nothing is raised and the cache is untouched. If the stream is not bad, whether or
not `failbit` is set, the value read is assigned to the target through the
constructor from a sparse multivector: the target becomes the matrix form of the
value read when that constructor returns, and is unchanged when it raises. The stream
returned is the stream as the extraction left it. -/
theorem stream_input (P : Prims α) (T : Tune_P) (s : istream) (val : matrix_multi α)
    (c : basis_table α) :
    (read_multi P T s val c).1 = (P.read_framed s).2
    ∧ ((P.read_framed s).2.bad = true →
        (read_multi P T s val c).2.raised = none
        ∧ (read_multi P T s val c).2.self = val
        ∧ (read_multi P T s val c).2.cache = c)
    ∧ ((P.read_framed s).2.bad = false →
        (read_multi P T s val c).2 = assign_from val (ctor_framed P T (P.read_framed s).1 c)
        ∧ (∀ v c2, ctor_framed P T (P.read_framed s).1 c = (.ok v, c2) →
            (read_multi P T s val c).2.raised = none
            ∧ (read_multi P T s val c).2.self = v)
        ∧ (∀ e c2, ctor_framed P T (P.read_framed s).1 c = (.error e, c2) →
            (read_multi P T s val c).2.raised = some e
            ∧ (read_multi P T s val c).2.self = val)) := by
  refine ⟨?_, ?_, ?_⟩
  · unfold read_multi
    simp only
    split <;> rfl
  · intro hbad
    unfold read_multi
    simp only [hbad, Bool.not_true, Bool.false_eq_true, if_false, and_self]
  · intro hbad
    have hr : (read_multi P T s val c).2
        = assign_from val (ctor_framed P T (P.read_framed s).1 c) := by
      unfold read_multi
      simp only [hbad, Bool.not_false, if_true]
    refine ⟨hr, ?_, ?_⟩
    · intro v c2 hv
      rw [hr]
      unfold assign_from
      rw [hv]
      exact ⟨rfl, rfl⟩
    · intro e c2 hv
      rw [hr]
      unfold assign_from
      rw [hv]
      exact ⟨rfl, rfl⟩

end stream_input

/-- C19 (counterexample). A stream that is in a failed state after the extraction
with only `failbit` set (here it was already failed before, so that nothing is read
and the value read has no term): `fail()` is true, and the target, the zero
multivector of the frame {1}, is overwritten by the zero multivector of the empty
frame. -/
theorem read_multi_failbit_overwrites :
    (read_multi (scalar_prims : Prims ℚ) sample_tune (istream.mk "x" false true false)
        (sized_in_frame {1}) basis_table.empty).1.fail = true
    ∧ (sized_in_frame {1} : matrix_multi ℚ).m_frame = {1}
    ∧ (read_multi (scalar_prims : Prims ℚ) sample_tune (istream.mk "x" false true false)
        (sized_in_frame {1}) basis_table.empty).2.self.m_frame = ∅
    ∧ (read_multi (scalar_prims : Prims ℚ) sample_tune (istream.mk "x" false true false)
        (sized_in_frame {1}) basis_table.empty).2.self.m_frame
      ≠ (sized_in_frame {1} : matrix_multi ℚ).m_frame := by
  have hr : read_multi (scalar_prims : Prims ℚ) sample_tune (istream.mk "x" false true false)
      (sized_in_frame {1}) basis_table.empty
      = (istream.mk "x" false true false,
          { raised := none, self := sized_in_frame ∅, cache := basis_table.empty }) := by
    simp [read_multi, scalar_prims, istream.bad, ctor_framed, from_framed, sample_tune,
      framed_multi.size, framed_multi.frame, term_by_term, assign_from]
  rw [hr]
  refine ⟨by decide, rfl, rfl, ?_⟩
  simp only [sized_in_frame]
  decide

/-- Witness of C19 over the rationals with the sample collaborators: a stream with
`badbit` set leaves the target, the zero multivector of the frame {1}, as it was. -/
theorem stream_input_witness :
    (read_multi (scalar_prims : Prims ℚ) sample_tune (istream.mk "x" false false true)
        (sized_in_frame {1}) basis_table.empty).2.self = sized_in_frame {1} :=
  ((stream_input (scalar_prims : Prims ℚ) sample_tune (istream.mk "x" false false true)
      (sized_in_frame {1}) basis_table.empty).2.1 rfl).2.1


/-! ## Failure while changing frame -/

section frame_change_failure

variable {α : Type} [Add α] [Sub α] [Mul α] [Div α] [Neg α] [Scalar_T α]

theorem represent_in_raised (P : Prims α) (T : Tune_P) (a : matrix_multi α)
    (our_frame : index_set) (c : basis_table α) (e : exception)
    (h : (represent_in P T a our_frame c).raised = some e) :
    (represent_in P T a our_frame c).self = a := by
  unfold represent_in at h ⊢
  split
  · next hne =>
    rw [if_pos hne] at h
    unfold assign_from at h ⊢
    split
    · next v hv => rw [hv] at h; simp at h
    · rfl
  · rfl

theorem represent_in_value (P : Prims α) (T : Tune_P) (a : matrix_multi α)
    (our_frame : index_set) (c : basis_table α)
    (hne : a.m_frame ≠ our_frame)
    (h : (represent_in P T a our_frame c).raised = none) :
    ∃ v c1, via_framed P T a our_frame c = (.ok v, c1)
      ∧ (represent_in P T a our_frame c).self = v := by
  unfold represent_in at h ⊢
  have hc : (a.m_frame != our_frame) = true := by simpa using hne
  rw [if_pos hc] at h ⊢
  unfold assign_from at h ⊢
  split
  · next v hv => exact ⟨v, _, Prod.ext hv rfl, rfl⟩
  · next e he => rw [he] at h; simp at h

/-- C20 (amended). When `a += b`, `a -= b` or `a *= b` raises, the receiver is what
the first statement of the operator, the promotion of `a` into the union frame, left
it: the operator assigns the promoted `a` to the receiver before it promotes `b`.
So the receiver is unchanged when the frame of `b` lies in the frame of `a` and when
the promotion of `a` itself raises; when the promotion of `a` returns and the
promotion of `b` raises, the receiver is the value returned for `a` by the conversion
through the sparse representation into the union frame, never a partial sum,
difference or product. -/
theorem failed_operation_state (P : Prims α) (T : Tune_P) (a b : matrix_multi α)
    (c : basis_table α) :
    (∀ e, (add_assign P T a b c).raised = some e →
        (add_assign P T a b c).self = (represent_in P T a (a.m_frame ∪ b.m_frame) c).self)
    ∧ (∀ e, (sub_assign P T a b c).raised = some e →
        (sub_assign P T a b c).self = (represent_in P T a (a.m_frame ∪ b.m_frame) c).self)
    ∧ (∀ e, (mul_assign P T a b c).raised = some e →
        (mul_assign P T a b c).self = (represent_in P T a (a.m_frame ∪ b.m_frame) c).self)
    ∧ (b.m_frame ⊆ a.m_frame →
        (represent_in P T a (a.m_frame ∪ b.m_frame) c).self = a)
    ∧ (∀ e, (represent_in P T a (a.m_frame ∪ b.m_frame) c).raised = some e →
        (represent_in P T a (a.m_frame ∪ b.m_frame) c).self = a)
    ∧ (a.m_frame ≠ a.m_frame ∪ b.m_frame →
        (represent_in P T a (a.m_frame ∪ b.m_frame) c).raised = none →
        ∃ v c1, via_framed P T a (a.m_frame ∪ b.m_frame) c = (.ok v, c1)
          ∧ (represent_in P T a (a.m_frame ∪ b.m_frame) c).self = v) := by
  refine ⟨?_, ?_, ?_, ?_, ?_, ?_⟩
  · intro e h
    unfold add_assign at h ⊢
    simp only at h ⊢
    split
    · rfl
    · next hu =>
      rw [hu] at h
      simp only at h
      split
      · next hb => rw [if_pos hb] at h; simp at h
      · next hb =>
        split
        · rfl
        · next v c2 hv =>
          rw [if_neg hb, hv] at h
          simp at h
  · intro e h
    unfold sub_assign at h ⊢
    simp only at h ⊢
    split
    · rfl
    · next hu =>
      rw [hu] at h
      simp only at h
      split
      · next hb => rw [if_pos hb] at h; simp at h
      · next hb =>
        split
        · rfl
        · next v c2 hv =>
          rw [if_neg hb, hv] at h
          simp at h
  · intro e h
    unfold mul_assign at h ⊢
    simp only at h ⊢
    split
    · rfl
    · next hu =>
      rw [hu] at h
      simp only at h
      split
      · next hb => rw [if_pos hb] at h; simp at h
      · next hb =>
        split
        · rfl
        · next v c2 hv =>
          rw [if_neg hb, hv] at h
          simp at h
  · intro hsub
    rw [Finset.union_eq_left.mpr hsub]
    unfold represent_in
    simp
  · intro e h
    exact represent_in_raised P T a _ c e h
  · intro hne h
    exact represent_in_value P T a _ c hne h

end frame_change_failure

/-- C20 (counterexample). With collaborators whose conversion to the sparse
representation fails for `b`, the zero multivector of the frame {2}, the sum `a += b`
with `a` the zero multivector of the frame {1} raises while promoting `b`, and leaves
the receiver in the frame {1,2}: its frame is not the frame it had before the
call. The same holds for `a -= b` and `a *= b`. -/
theorem failed_sum_changes_frame :
    (sized_in_frame {1} : matrix_multi ℚ).m_frame = {1}
    ∧ (add_assign exhausted_prims sample_tune (sized_in_frame {1}) (sized_in_frame {2})
        basis_table.empty).raised = some (exception.other "std::bad_alloc")
    ∧ (add_assign exhausted_prims sample_tune (sized_in_frame {1}) (sized_in_frame {2})
        basis_table.empty).self.m_frame = {1, 2}
    ∧ (add_assign exhausted_prims sample_tune (sized_in_frame {1}) (sized_in_frame {2})
        basis_table.empty).self.m_frame ≠ (sized_in_frame {1} : matrix_multi ℚ).m_frame
    ∧ (sub_assign exhausted_prims sample_tune (sized_in_frame {1}) (sized_in_frame {2})
        basis_table.empty).self.m_frame ≠ (sized_in_frame {1} : matrix_multi ℚ).m_frame
    ∧ (mul_assign exhausted_prims sample_tune (sized_in_frame {1}) (sized_in_frame {2})
        basis_table.empty).self.m_frame ≠ (sized_in_frame {1} : matrix_multi ℚ).m_frame := by
  have hU : ({1} ∪ {2} : index_set) = {1, 2} := by decide
  have h12 : ¬ (({1} : index_set) = {1, 2}) := by decide
  have h2 : ¬ (({2} : index_set) = {1, 2}) := by decide
  have ha : add_assign exhausted_prims sample_tune (sized_in_frame {1}) (sized_in_frame {2})
      basis_table.empty
      = { raised := some (exception.other "std::bad_alloc"), self := sized_in_frame {1, 2},
          cache := basis_table.empty } := by
    simp [add_assign, represent_in, via_framed, exhausted_prims, sized_in_frame,
      ctor_framed_frm, from_framed, term_by_term, sample_tune, framed_multi.size, assign_from,
      hU, h12, h2]
  have hs : sub_assign exhausted_prims sample_tune (sized_in_frame {1}) (sized_in_frame {2})
      basis_table.empty
      = { raised := some (exception.other "std::bad_alloc"), self := sized_in_frame {1, 2},
          cache := basis_table.empty } := by
    simp [sub_assign, represent_in, via_framed, exhausted_prims, sized_in_frame,
      ctor_framed_frm, from_framed, term_by_term, sample_tune, framed_multi.size, assign_from,
      hU, h12, h2]
  have hm : mul_assign exhausted_prims sample_tune (sized_in_frame {1}) (sized_in_frame {2})
      basis_table.empty
      = { raised := some (exception.other "std::bad_alloc"), self := sized_in_frame {1, 2},
          cache := basis_table.empty } := by
    simp [mul_assign, represent_in, via_framed, exhausted_prims, sized_in_frame,
      ctor_framed_frm, from_framed, term_by_term, sample_tune, framed_multi.size, assign_from,
      hU, h12, h2]
  rw [ha, hs, hm]
  have hne : (sized_in_frame {1, 2} : matrix_multi ℚ).m_frame
      ≠ (sized_in_frame {1} : matrix_multi ℚ).m_frame := by
    simp only [sized_in_frame]
    decide
  exact ⟨rfl, rfl, rfl, hne, hne, hne⟩

/-- Witness of C20 (amended) on the same input: the receiver of the failed sum is
the promoted `a`, the zero multivector of the frame {1,2}. -/
theorem failed_operation_state_witness :
    (add_assign exhausted_prims sample_tune (sized_in_frame {1}) (sized_in_frame {2})
        basis_table.empty).raised = some (exception.other "std::bad_alloc")
    ∧ (add_assign exhausted_prims sample_tune (sized_in_frame {1}) (sized_in_frame {2})
        basis_table.empty).self
      = (represent_in exhausted_prims sample_tune (sized_in_frame {1})
          ((sized_in_frame {1} : matrix_multi ℚ).m_frame
            ∪ (sized_in_frame {2} : matrix_multi ℚ).m_frame) basis_table.empty).self := by
  have hU : ({1} ∪ {2} : index_set) = {1, 2} := by decide
  have h12 : ¬ (({1} : index_set) = {1, 2}) := by decide
  have h2 : ¬ (({2} : index_set) = {1, 2}) := by decide
  have ha : (add_assign exhausted_prims sample_tune (sized_in_frame {1}) (sized_in_frame {2})
      basis_table.empty).raised = some (exception.other "std::bad_alloc") := by
    simp [add_assign, represent_in, via_framed, exhausted_prims, sized_in_frame,
      ctor_framed_frm, from_framed, term_by_term, sample_tune, framed_multi.size, assign_from,
      hU, h12, h2]
  exact ⟨ha, (failed_operation_state exhausted_prims sample_tune (sized_in_frame {1})
    (sized_in_frame {2}) basis_table.empty).1 _ ha⟩


/-! ## The cache of basis elements -/

section cache

variable {α : Type} [Add α] [Sub α] [Mul α] [Div α] [Neg α] [Scalar_T α]

theorem basis_element_uncached (P : Prims α) (T : Tune_P) (ist frm : index_set)
    (c : basis_table α) (h : cache_sound P c) :
    (basis_element P T ist frm c).1 = uncached_element P ist frm := by
  unfold basis_element uncached_element
  simp only
  split
  · next found hfound =>
    split at hfound
    · exact h ist frm found hfound
    · simp at hfound
  · split <;> rfl

theorem basis_element_disabled (P : Prims α) (T : Tune_P) (ist frm : index_set)
    (c : basis_table α) :
    basis_element P (cache_disabled T) ist frm c = (uncached_element P ist frm, c) := by
  have hneg : ¬ (max (index_set_max (P.fold frm)) 0 + max (-(index_set_min (P.fold frm))) 0
      ≤ (cache_disabled T).basis_max_count) := by
    simp only [cache_disabled]
    have h1 := le_max_right (index_set_max (P.fold frm)) 0
    have h2 := le_max_right (-(index_set_min (P.fold frm))) 0
    omega
  unfold basis_element uncached_element
  simp only [if_neg hneg]

theorem basis_element_sound (P : Prims α) (T : Tune_P)
    (hdim : ∀ f1 f2 : index_set, P.fold f1 = P.fold f2 → folded_dim f1 = folded_dim f2)
    (ist frm : index_set) (c : basis_table α) (h : cache_sound P c) :
    cache_sound P (basis_element P T ist frm c).2 := by
  unfold basis_element
  simp only
  split
  · exact h
  · next hnone =>
    split
    · next hle =>
      rw [if_pos hle] at hnone
      intro ist2 frm2 found hfound
      simp only [basis_table.insert] at hfound
      by_cases hkey : (P.fold_in ist2 frm2, P.fold frm2) = (P.fold_in ist frm, P.fold frm)
      · rw [if_pos hkey, hnone] at hfound
        simp only [Option.some.injEq] at hfound
        rw [← hfound]
        have h1 : P.fold_in ist2 frm2 = P.fold_in ist frm := (Prod.mk.inj hkey).1
        have h2 : P.fold frm2 = P.fold frm := (Prod.mk.inj hkey).2
        rw [h1, h2, hdim frm2 frm h2]
      · rw [if_neg hkey] at hfound
        exact h ist2 frm2 found hfound
    · exact h

theorem run_calls_sound (P : Prims α) (T : Tune_P)
    (hdim : ∀ f1 f2 : index_set, P.fold f1 = P.fold f2 → folded_dim f1 = folded_dim f2)
    (calls : List (index_set × index_set)) (c : basis_table α) (h : cache_sound P c) :
    cache_sound P (run_calls P T calls c) := by
  unfold run_calls
  induction calls generalizing c with
  | nil => exact h
  | cons call rest ih =>
    simp only [List.foldl_cons]
    exact ih _ (basis_element_sound P T hdim call.1 call.2 c h)

theorem basis_element_keys (P : Prims α) (T : Tune_P) (ist frm : index_set)
    (c : basis_table α)
    (h : ∀ key found, c key = some found → ∃ i f, key = (P.fold_in i f, P.fold f)) :
    ∀ key found, (basis_element P T ist frm c).2 key = some found →
      ∃ i f, key = (P.fold_in i f, P.fold f) := by
  unfold basis_element
  simp only
  split
  · exact h
  · split
    · intro key found hfound
      simp only [basis_table.insert] at hfound
      by_cases hkey : key = (P.fold_in ist frm, P.fold frm)
      · exact ⟨ist, frm, hkey⟩
      · rw [if_neg hkey] at hfound
        exact h key found hfound
    · exact h

theorem run_calls_keys (P : Prims α) (T : Tune_P)
    (calls : List (index_set × index_set)) (c : basis_table α)
    (h : ∀ key found, c key = some found → ∃ i f, key = (P.fold_in i f, P.fold f)) :
    ∀ key found, run_calls P T calls c key = some found →
      ∃ i f, key = (P.fold_in i f, P.fold f) := by
  unfold run_calls
  induction calls generalizing c with
  | nil => exact h
  | cons call rest ih =>
    simp only [List.foldl_cons]
    exact ih _ (basis_element_keys P T call.1 call.2 c h)

theorem basis_element_hit (P : Prims α) (T : Tune_P) (ist frm : index_set)
    (c : basis_table α) (found : matrix_t α)
    (hle : max (index_set_max (P.fold frm)) 0 + max (-(index_set_min (P.fold frm))) 0
      ≤ T.basis_max_count)
    (hfound : c (P.fold_in ist frm, P.fold frm) = some found) :
    basis_element P T ist frm c = (found, c) := by
  unfold basis_element
  simp only [if_pos hle, hfound]

/-- C14. Cache transparency. Let folding determine the matrix dimension (frames with
the same folded frame have the same `folded_dim`). Start from the empty cache and make
any sequence of calls of `basis_element`. Then every entry of the cache is stored
under the key of some pair (index set, frame) and equals the generator product
computed without the cache for every pair with that key; the next call
`basis_element(ist, frm)` returns the matrix it returns with the cache disabled;
calling it again, after any further calls, returns the same matrix; and when the call
finds its key in the cache it returns the stored matrix and leaves the cache as it
is whatever the generator table and the matrix product are, so it performs no
generator product. -/
theorem cache_transparency (P : Prims α) (T : Tune_P)
    (hdim : ∀ f1 f2 : index_set, P.fold f1 = P.fold f2 → folded_dim f1 = folded_dim f2)
    (calls : List (index_set × index_set)) (ist frm : index_set) :
    (∀ key found, run_calls P T calls basis_table.empty key = some found →
        ∃ i f, key = (P.fold_in i f, P.fold f))
    ∧ (∀ i f found,
        run_calls P T calls basis_table.empty (P.fold_in i f, P.fold f) = some found →
        found = uncached_element P i f)
    ∧ (∀ c2, (basis_element P T ist frm (run_calls P T calls basis_table.empty)).1
        = (basis_element P (cache_disabled T) ist frm c2).1)
    ∧ (∀ more,
        (basis_element P T ist frm (run_calls P T more
            (basis_element P T ist frm (run_calls P T calls basis_table.empty)).2)).1
          = (basis_element P T ist frm (run_calls P T calls basis_table.empty)).1)
    ∧ (∀ found,
        max (index_set_max (P.fold frm)) 0 + max (-(index_set_min (P.fold frm))) 0
          ≤ T.basis_max_count →
        run_calls P T calls basis_table.empty (P.fold_in ist frm, P.fold frm) = some found →
        ∀ (gen : Int → Int → Int → matrix_t α) (mp : matrix_t α → matrix_t α → matrix_t α),
          basis_element { P with generator := gen, mono_prod := mp } T ist frm
              (run_calls P T calls basis_table.empty)
            = (found, run_calls P T calls basis_table.empty)) := by
  have hs := run_calls_sound P T hdim calls basis_table.empty (cache_sound_empty P)
  refine ⟨?_, ?_, ?_, ?_, ?_⟩
  · exact run_calls_keys P T calls basis_table.empty (by intro key found h; simp [basis_table.empty] at h)
  · intro i f found h
    exact hs i f found h
  · intro c2
    rw [basis_element_uncached P T ist frm _ hs, basis_element_disabled]
  · intro more
    rw [basis_element_uncached P T ist frm _ hs]
    exact basis_element_uncached P T ist frm _
      (run_calls_sound P T hdim more _ (basis_element_sound P T hdim ist frm _ hs))
  · intro found hle hfound gen mp
    exact basis_element_hit { P with generator := gen, mono_prod := mp } T ist frm _ found
      hle hfound

end cache

/-- Witness of C14 over the rationals with the sample collaborators, whose folding is
the identity: after one call for the empty set in the empty frame, the next call
returns what it returns with the cache disabled. -/
theorem cache_transparency_witness :
    (basis_element (scalar_prims : Prims ℚ) sample_tune ∅ ∅
        (run_calls (scalar_prims : Prims ℚ) sample_tune [(∅, ∅)] basis_table.empty)).1
      = (basis_element (scalar_prims : Prims ℚ) (cache_disabled sample_tune) ∅ ∅
          basis_table.empty).1 :=
  (cache_transparency (scalar_prims : Prims ℚ) sample_tune
    (by intro f1 f2 h; simp only [scalar_prims] at h; rw [h]) [(∅, ∅)] ∅ ∅).2.2.1
    basis_table.empty


/-! ## Comparison with a scalar -/

section scalar_comparison_lemmas

variable {K : Type} [LinearOrderedField K]

theorem entrywise_equal_iff (A B : matrix_t K) :
    entrywise_equal A B = true ↔ A.same B := by
  unfold entrywise_equal matrix_t.same
  simp only [Bool.and_eq_true, decide_eq_true_eq, List.all_eq_true, List.mem_range, scalar_eq,
    exact_ne, Bool.not_eq_true', decide_eq_false_iff_not, ne_eq, not_not]
  constructor
  · rintro ⟨⟨h1, h2⟩, h3⟩
    exact ⟨h1, h2, h3⟩
  · rintro ⟨h1, h2, h3⟩
    exact ⟨⟨h1, h2⟩, h3⟩

theorem promoted_scalar (P : Prims K) (T : Tune_P) (F : index_set) (s : K)
    (c : basis_table K) (hfold : P.fold_in ∅ F = ∅) (hc : cache_sound P c) :
    (term_by_term P T (framed_of_scalar s) F c).1
      = matrix_multi.mk F ((unit (folded_dim F).toNat).times s) := by
  have hbe := basis_element_empty_set P T F c hfold hc
  unfold term_by_term framed_of_scalar
  simp only [List.foldl_cons, List.foldl_nil]
  unfold add_term
  by_cases hs : s = 0
  · subst hs
    have hne : Scalar_T.ne (0 : K) (Scalar_T.of_int 0) = false := by
      simp [exact_ne, exact_of_int]
    simp only [hne, Bool.false_eq_true, if_false]
    simp only [sized_in_frame, matrix_t.resize, matrix_t.empty, matrix_t.sized, unit,
      matrix_t.times, exact_of_int, matrix_multi.mk.injEq, matrix_t.mk.injEq, true_and]
    funext i j
    simp
  · have hne : Scalar_T.ne s (Scalar_T.of_int 0 : K) = true := by
      simp [exact_ne, exact_of_int, hs]
    simp only [hne, if_true]
    have hfr : (sized_in_frame F : matrix_multi K).m_frame = F := rfl
    rw [hfr, hbe]
    simp only [sized_in_frame, matrix_t.resize, matrix_t.empty, matrix_t.sized, unit,
      matrix_t.times, matrix_t.plus_assign, exact_of_int, matrix_multi.mk.injEq,
      matrix_t.mk.injEq, true_and]
    funext i j
    simp

/-- C17. Scalar comparison in exact arithmetic. Let the promotion of the scalar take
the term by term path (the threshold of the fast transform is above one term, or the
fast transform raises a `glucat_error`), let the empty index set fold to the empty
set, let the cache hold only generator products, and let `ublas::equals` decide
equality of dimensions and of all entries. Then `a == s` raises nothing and is true if
and only if the matrix of `a` equals `s` times the unit matrix of side
`folded_dim(F)`, `F` the frame of `a`; for `s = 0` that matrix is the all-zero matrix
of that side. The scalar is promoted to the frame `F` before the comparison. -/
theorem scalar_comparison (P : Prims K) (T : Tune_P) (a : matrix_multi K) (s : K)
    (c : basis_table K)
    (hfast : 1 < T.fast_size_threshold
      ∨ ∃ name msg, P.fast_matrix_multi (framed_of_scalar s) a.m_frame
          = .error (exception.glucat_error name msg))
    (hfold : P.fold_in ∅ a.m_frame = ∅) (hc : cache_sound P c)
    (hmeq : ∀ A B : matrix_t K, P.matrix_equals A B = true ↔ A.same B) :
    (∃ c1, ctor_framed_frm P T (framed_of_scalar s) a.m_frame true c
        = (.ok (matrix_multi.mk a.m_frame ((unit (folded_dim a.m_frame).toNat).times s)), c1))
    ∧ (∃ b, (eq_scr P T a s c).1 = .ok b
        ∧ (b = true ↔ a.m_matrix.same ((unit (folded_dim a.m_frame).toNat).times s)))
    ∧ ((unit (folded_dim a.m_frame).toNat).times (0 : K)
        = matrix_t.sized (folded_dim a.m_frame).toNat (folded_dim a.m_frame).toNat) := by
  have hctor : ctor_framed_frm P T (framed_of_scalar s) a.m_frame true c
      = (.ok (matrix_multi.mk a.m_frame ((unit (folded_dim a.m_frame).toNat).times s)),
          (term_by_term P T (framed_of_scalar s) a.m_frame c).2) := by
    unfold ctor_framed_frm
    simp only [Bool.not_true, Bool.false_and, Bool.false_eq_true, if_false]
    have hbody : from_framed P T (framed_of_scalar s) a.m_frame c
        = (.ok (term_by_term P T (framed_of_scalar s) a.m_frame c).1,
            (term_by_term P T (framed_of_scalar s) a.m_frame c).2) := by
      by_cases hlt : 1 < T.fast_size_threshold
      · exact from_framed_below_threshold P T _ _ c (by simpa [framed_of_scalar, framed_multi.size] using hlt)
      · rcases hfast with h | ⟨name, msg, h⟩
        · exact absurd h hlt
        · exact from_framed_fallback P T _ _ c name msg
            (by simp only [framed_of_scalar, framed_multi.size, List.length_singleton]; omega) h
    rw [hbody, promoted_scalar P T a.m_frame s c hfold hc]
  refine ⟨⟨_, hctor⟩, ?_, ?_⟩
  · refine ⟨P.matrix_equals a.m_matrix ((unit (folded_dim a.m_frame).toNat).times s), ?_, hmeq _ _⟩
    unfold eq_scr
    rw [hctor]
    simp only
    unfold eq_multi
    simp
  · simp only [unit, matrix_t.times, matrix_t.sized, exact_of_int, matrix_t.mk.injEq, true_and]
    funext i j
    simp

end scalar_comparison_lemmas

/-- Witness of C17 over the rationals with the sample collaborators: the comparison
of the scalar multivector 2 of the empty frame with the scalar 2. -/
theorem scalar_comparison_witness :
    ∃ b, (eq_scr (scalar_prims : Prims ℚ) sample_tune (ctor_mtx_frm ((unit 1).times 2) ∅) 2
        basis_table.empty).1 = .ok b
      ∧ (b = true ↔ (ctor_mtx_frm ((unit 1).times (2 : ℚ)) ∅).m_matrix.same
          ((unit (folded_dim (ctor_mtx_frm ((unit 1).times (2 : ℚ)) ∅).m_frame).toNat).times 2)) :=
  (scalar_comparison (scalar_prims : Prims ℚ) sample_tune (ctor_mtx_frm ((unit 1).times 2) ∅) 2
    basis_table.empty (Or.inl (by decide)) rfl (cache_sound_empty _)
    (fun A B => entrywise_equal_iff A B)).2.1


/-! ## Basis elements as ordered products of generators -/

section ordered_products

variable {α : Type} [Add α] [Sub α] [Mul α] [Div α] [Neg α] [Scalar_T α]

theorem foldl_cond_eq_filter {β : Type} (f : β → Int → β) (S : index_set) (l : List Int)
    (r : β) :
    l.foldl (fun r k => if k ∈ S then f r k else r) r
      = (l.filter (fun k => decide (k ∈ S))).foldl f r := by
  induction l generalizing r with
  | nil => rfl
  | cons k rest ih =>
    by_cases hk : k ∈ S
    · simp only [List.foldl_cons, hk, if_true, decide_True, List.filter_cons_of_pos]
      exact ih _
    · simp only [List.foldl_cons, hk, if_false, decide_False, Bool.false_eq_true,
        not_false_eq_true, List.filter_cons_of_neg]
      exact ih _

theorem generator_product_sorted (P : Prims α) (e : Int → matrix_t α) (S : index_set)
    (lo hi dim : Int) (h : ∀ k ∈ S, lo ≤ k ∧ k ≤ hi) :
    generator_product P e S lo hi dim
      = (S.sort (· ≤ ·)).foldl (fun r k => P.mono_prod r (e k)) (unit dim.toNat) := by
  unfold generator_product
  rw [foldl_cond_eq_filter, filter_index_range_eq_sort S lo hi h]

theorem sort_union_of_lt (A B : index_set) (h : ∀ a ∈ A, ∀ b ∈ B, a < b) :
    (A ∪ B).sort (· ≤ ·) = A.sort (· ≤ ·) ++ B.sort (· ≤ ·) := by
  apply List.eq_of_perm_of_sorted (r := (· ≤ ·))
  · apply List.perm_of_nodup_nodup_toFinset_eq
    · exact Finset.sort_nodup _ _
    · apply List.Nodup.append (Finset.sort_nodup _ _) (Finset.sort_nodup _ _)
      intro x hxA hxB
      rw [Finset.mem_sort] at hxA hxB
      exact lt_irrefl x (h x hxA x hxB)
    · ext k
      simp only [List.mem_toFinset, Finset.mem_sort, Finset.mem_union, List.mem_append]
  · exact Finset.sort_sorted _ _
  · rw [List.Sorted, List.pairwise_append]
    refine ⟨Finset.sort_sorted _ _, Finset.sort_sorted _ _, ?_⟩
    intro a ha b hb
    rw [Finset.mem_sort] at ha hb
    exact le_of_lt (h a ha b hb)

end ordered_products

section ordered_products_exact

variable {K : Type} [LinearOrderedField K]

theorem sparse_prod_foldl (e : Int → matrix_t K) (l : List Int) (X Y : matrix_t K) :
    sparse_prod X (l.foldl (fun r k => sparse_prod r (e k)) Y)
      = l.foldl (fun r k => sparse_prod r (e k)) (sparse_prod X Y) := by
  induction l generalizing Y with
  | nil => rfl
  | cons k rest ih =>
    simp only [List.foldl_cons]
    rw [ih, sparse_prod_assoc]

theorem sparse_prod_unit_right (X : matrix_t K) (dim : Nat) (h : X.size2 = dim) :
    (sparse_prod X (unit dim)).same X := by
  refine ⟨rfl, h.symm, ?_⟩
  intro i _ j hj
  simp only [sparse_prod, unit, sum_upto_eq_sum, exact_of_int] at hj ⊢
  rw [Finset.sum_eq_single j]
  · simp [hj]
  · intro k _ hkj
    simp [hkj]
  · intro hnot
    exfalso
    apply hnot
    rw [Finset.mem_range, h]
    exact hj

theorem sparse_prod_same_left (X Y G : matrix_t K) (h : X.same Y) :
    (sparse_prod X G).same (sparse_prod Y G) := by
  obtain ⟨h1, h2, h3⟩ := h
  refine ⟨h1, rfl, ?_⟩
  intro i hi j _
  simp only [sparse_prod, sum_upto_eq_sum] at hi ⊢
  rw [← h2]
  apply Finset.sum_congr rfl
  intro k hk
  rw [h3 i hi k (Finset.mem_range.mp hk)]

theorem foldl_same (e : Int → matrix_t K) (l : List Int) (X Y : matrix_t K) (h : X.same Y) :
    (l.foldl (fun r k => sparse_prod r (e k)) X).same
      (l.foldl (fun r k => sparse_prod r (e k)) Y) := by
  induction l generalizing X Y with
  | nil => exact h
  | cons k rest ih =>
    simp only [List.foldl_cons]
    exact ih _ _ (sparse_prod_same_left X Y (e k) h)

theorem foldl_size2 (e : Int → matrix_t K) (dim : Nat) (l : List Int) (X : matrix_t K)
    (hX : X.size2 = dim) (he : ∀ k ∈ l, (e k).size2 = dim) :
    (l.foldl (fun r k => sparse_prod r (e k)) X).size2 = dim := by
  induction l generalizing X with
  | nil => exact hX
  | cons k rest ih =>
    simp only [List.foldl_cons]
    apply ih
    · exact he k (List.mem_cons_self _ _)
    · intro k2 hk2
      exact he k2 (List.mem_cons_of_mem _ hk2)

/-- C15. Basis elements are ordered generator products, in exact arithmetic. Let the
cache hold only generator products. For every index set `S` whose folded set lies
between the least and the greatest index of the folded frame, `basis_element(S, frm)`
is the unit matrix of side `folded_dim(frm)` multiplied on the right with `mono_prod`,
in ascending order, by the generator of each index of the folded `S`; when the empty
set folds to the empty set, its basis element is the unit matrix. Let moreover
`mono_prod` be the matrix product, the generators of the folded `A` have
`folded_dim(frm)` columns, folding map the union of `A` and `B` to the union of the
folded sets, and every folded index of `A` lie below every folded index of `B`. Then
the matrix product of `basis_element(A, frm)` and `basis_element(B, frm)` is the same
matrix as `basis_element(A ∪ B, frm)`. -/
theorem basis_element_ordered_product (P : Prims K) (T : Tune_P) (frm A B : index_set)
    (c : basis_table K) (hc : cache_sound P c)
    (hA : ∀ k ∈ P.fold_in A frm,
      index_set_min (P.fold frm) ≤ k ∧ k ≤ index_set_max (P.fold frm))
    (hB : ∀ k ∈ P.fold_in B frm,
      index_set_min (P.fold frm) ≤ k ∧ k ≤ index_set_max (P.fold frm))
    (hmono : P.mono_prod = sparse_prod)
    (hgen : ∀ k ∈ P.fold_in A frm,
      (P.generator (max (index_set_max (P.fold frm)) 0) (max (-(index_set_min (P.fold frm))) 0)
        k).size2 = (folded_dim frm).toNat)
    (hunion : P.fold_in (A ∪ B) frm = P.fold_in A frm ∪ P.fold_in B frm)
    (hlt : ∀ a ∈ P.fold_in A frm, ∀ b ∈ P.fold_in B frm, a < b) :
    (∀ S : index_set,
        (∀ k ∈ P.fold_in S frm,
          index_set_min (P.fold frm) ≤ k ∧ k ≤ index_set_max (P.fold frm)) →
        (basis_element P T S frm c).1
          = ((P.fold_in S frm).sort (· ≤ ·)).foldl
              (fun r k => P.mono_prod r
                (P.generator (max (index_set_max (P.fold frm)) 0)
                  (max (-(index_set_min (P.fold frm))) 0) k))
              (unit (folded_dim frm).toNat))
    ∧ (P.fold_in ∅ frm = ∅ → (basis_element P T ∅ frm c).1 = unit (folded_dim frm).toNat)
    ∧ (sparse_prod (basis_element P T A frm c).1 (basis_element P T B frm c).1).same
        (basis_element P T (A ∪ B) frm c).1 := by
  have hform : ∀ S : index_set,
      (∀ k ∈ P.fold_in S frm,
        index_set_min (P.fold frm) ≤ k ∧ k ≤ index_set_max (P.fold frm)) →
      (basis_element P T S frm c).1
        = ((P.fold_in S frm).sort (· ≤ ·)).foldl
            (fun r k => P.mono_prod r
              (P.generator (max (index_set_max (P.fold frm)) 0)
                (max (-(index_set_min (P.fold frm))) 0) k))
            (unit (folded_dim frm).toNat) := by
    intro S hS
    rw [basis_element_uncached P T S frm c hc]
    unfold uncached_element
    exact generator_product_sorted P _ _ _ _ _ hS
  refine ⟨hform, fun h0 => basis_element_empty_set P T frm c h0 hc, ?_⟩
  have hAB : ∀ k ∈ P.fold_in (A ∪ B) frm,
      index_set_min (P.fold frm) ≤ k ∧ k ≤ index_set_max (P.fold frm) := by
    intro k hk
    rw [hunion, Finset.mem_union] at hk
    rcases hk with hk | hk
    · exact hA k hk
    · exact hB k hk
  rw [hform A hA, hform B hB, hform (A ∪ B) hAB, hunion, sort_union_of_lt _ _ hlt,
    List.foldl_append, hmono, sparse_prod_foldl]
  apply foldl_same
  apply sparse_prod_unit_right
  apply foldl_size2 _ _ _ _ rfl
  intro k hk
  rw [Finset.mem_sort] at hk
  exact hgen k hk

end ordered_products_exact

/-- Witness of C15 in the frame {1,2} over the rationals with the sample
collaborators of that frame: the product of the basis elements for {1} and for {2} is
the same matrix as the basis element for {1,2}. -/
theorem basis_element_ordered_product_witness :
    (sparse_prod (basis_element plane_prims sample_tune {1} {1, 2} basis_table.empty).1
        (basis_element plane_prims sample_tune {2} {1, 2} basis_table.empty).1).same
      (basis_element plane_prims sample_tune ({1} ∪ {2}) {1, 2} basis_table.empty).1 :=
  have hmin : index_set_min ({1, 2} : index_set) = 1 := by decide
  have hmax : index_set_max ({1, 2} : index_set) = 2 := by decide
  (basis_element_ordered_product plane_prims sample_tune {1, 2} {1} {2} basis_table.empty
    (cache_sound_empty _)
    (by
      intro k hk
      have hk1 : k = 1 := by simpa [plane_prims, scalar_prims] using hk
      have h1 : plane_prims.fold {1, 2} = {1, 2} := rfl
      rw [h1, hmin, hmax, hk1]
      decide)
    (by
      intro k hk
      have hk1 : k = 2 := by simpa [plane_prims, scalar_prims] using hk
      have h1 : plane_prims.fold {1, 2} = {1, 2} := rfl
      rw [h1, hmin, hmax, hk1]
      decide)
    rfl
    (by
      intro k hk
      have hk1 : k = 1 := by simpa [plane_prims, scalar_prims] using hk
      have hd : (folded_dim {1, 2}).toNat = 2 := by decide
      rw [hd, hk1]
      rfl)
    rfl
    (by
      intro a ha b hb
      have ha1 : a = 1 := by simpa [plane_prims, scalar_prims] using ha
      have hb1 : b = 2 := by simpa [plane_prims, scalar_prims] using hb
      rw [ha1, hb1]
      decide)).2.2


/-! ## Outer product power -/

section outer_power

variable {α : Type} [Add α] [Sub α] [Mul α] [Div α] [Neg α] [Scalar_T α]

theorem outer_fold_self_fold (w : matrix_multi α → matrix_multi α → matrix_multi α)
    (hassoc : ∀ a b d, w (w a b) d = w a (w b d)) (one x : matrix_multi α) (e j : Nat) :
    w (outer_fold w one x e) (self_fold w x j) = outer_fold w one x (e + j + 1) := by
  induction j with
  | zero => rfl
  | succ j ih =>
    show w (outer_fold w one x e) (w (self_fold w x j) x) = w (outer_fold w one x (e + j + 1)) x
    rw [← hassoc, ih]

theorem self_fold_self_fold (w : matrix_multi α → matrix_multi α → matrix_multi α)
    (hassoc : ∀ a b d, w (w a b) d = w a (w b d)) (x : matrix_multi α) (i j : Nat) :
    w (self_fold w x i) (self_fold w x j) = self_fold w x (i + j + 1) := by
  induction j with
  | zero => rfl
  | succ j ih =>
    show w (self_fold w x i) (w (self_fold w x j) x) = w (self_fold w x (i + j + 1)) x
    rw [← hassoc, ih]

theorem outer_pow_loop_spec (P : Prims α) (T : Tune_P)
    (w : matrix_multi α → matrix_multi α → matrix_multi α) (Inv : basis_table α → Prop)
    (hw : ∀ y z c1, Inv c1 →
      ∃ c2, Inv c2 ∧ outer_assign P T y z c1 = { raised := none, self := w y z, cache := c2 })
    (hassoc : ∀ a b d, w (w a b) d = w a (w b d)) (one x : matrix_multi α) (fuel : Nat) :
    ∀ (n e j : Nat) (c : basis_table α), n < 2 ^ fuel → Inv c →
      ∃ c3, outer_pow_loop P T fuel (n : Int) (outer_fold w one x e) (self_fold w x j) c
        = some (.ok (outer_fold w one x (e + n * (j + 1))), c3) := by
  induction fuel with
  | zero =>
    intro n e j c hn _
    have h0 : n = 0 := by simpa using hn
    subst h0
    exact ⟨c, by simp [outer_pow_loop]⟩
  | succ fuel ih =>
    intro n e j c hn hc
    by_cases h0 : n = 0
    · subst h0
      exact ⟨c, by simp [outer_pow_loop]⟩
    · have hshift : Int.shiftRight (n : Int) 1 = ((n / 2 : Nat) : Int) := by
        simp [Int.shiftRight, Nat.shiftRight_eq_div_pow]
      have hn2 : n / 2 < 2 ^ fuel := by
        rw [pow_succ] at hn; omega
      have hn0 : ((n : Int) = 0) = False := by simp [h0]
      unfold outer_pow_loop
      simp only [hn0, if_false, hshift]
      by_cases hbit : n % 2 = 1
      · have hbit2 : ((n : Int) % 2 = 1) = True := by
          simp only [eq_iff_iff, iff_true]; omega
        simp only [hbit2, if_true]
        obtain ⟨c2, hc2, h2⟩ := hw (outer_fold w one x e) (self_fold w x j) c hc
        rw [outer_fold_self_fold w hassoc] at h2
        simp only [h2]
        obtain ⟨c4, hc4, h4⟩ := hw (self_fold w x j) (self_fold w x j) c2 hc2
        rw [self_fold_self_fold w hassoc] at h4
        simp only [h4]
        obtain ⟨c3, h3⟩ := ih (n / 2) (e + j + 1) (j + j + 1) c4 hn2 hc4
        refine ⟨c3, ?_⟩
        rw [h3]
        congr 4
        have := Nat.div_add_mod n 2
        nlinarith [Nat.div_add_mod n 2]
      · have hbit2 : ((n : Int) % 2 = 1) = False := by
          simp only [eq_iff_iff, iff_false]; omega
        simp only [hbit2, if_false]
        obtain ⟨c4, hc4, h4⟩ := hw (self_fold w x j) (self_fold w x j) c hc
        rw [self_fold_self_fold w hassoc] at h4
        simp only [h4]
        obtain ⟨c3, h3⟩ := ih (n / 2) e (j + j + 1) c4 hn2 hc4
        refine ⟨c3, ?_⟩
        rw [h3]
        congr 4
        have h2 : n % 2 = 0 := by omega
        nlinarith [Nat.div_add_mod n 2]

theorem outer_pow_loop_error (P : Prims α) (T : Tune_P) (fuel : Nat) :
    ∀ (m : Int) (result a : matrix_multi α) (c : basis_table α) (e : exception)
      (c2 : basis_table α),
      outer_pow_loop P T fuel m result a c = some (.error e, c2) →
      ∃ y z c0, (outer_assign P T y z c0).raised = some e := by
  induction fuel with
  | zero =>
    intro m result a c e c2 h
    unfold outer_pow_loop at h
    split at h <;> simp at h
  | succ fuel ih =>
    intro m result a c e c2 h
    unfold outer_pow_loop at h
    split at h
    · simp at h
    · simp only at h
      split at h
      · next e1 he1 =>
        simp only [Option.some.injEq, Prod.mk.injEq, Except.error.injEq] at h
        rw [← h.1]
        by_cases hbit : m % 2 = 1
        · rw [if_pos hbit] at he1
          exact ⟨_, _, _, he1⟩
        · rw [if_neg hbit] at he1
          simp at he1
      · split at h
        · next e2 he2 =>
          simp only [Option.some.injEq, Prod.mk.injEq, Except.error.injEq] at h
          rw [← h.1]
          exact ⟨_, _, _, he2⟩
        · exact ih _ _ _ _ _ _ h

/-- C12. Outer product power. For `m < 0` the call raises
"outer_pow(m): negative exponent" and nothing else happens. For `m >= 0` every
exception the call raises is one raised by a call of `^=`. Let `^=` raise nothing and
compute an associative operation `w` (on the caches that arise, described by an
invariant that `^=` keeps and that holds after the conversion of the int 1); then,
for `m` in the range of `int` and 32 iterations, the call raises the error if and only
if `m < 0`, and for `m >= 0` it returns the product of `m` copies of the receiver
started from the scalar 1, which is the scalar 1 for `m = 0`. -/
theorem outer_pow_law (P : Prims α) (T : Tune_P) (x : matrix_multi α) (m : Int)
    (c : basis_table α) (fuel : Nat) :
    (m < 0 → outer_pow P T fuel x m c
        = some (.error (error_t "outer_pow(m): negative exponent"), c))
    ∧ (0 ≤ m → ∀ e c2, outer_pow P T fuel x m c = some (.error e, c2) →
        ∃ y z c0, (outer_assign P T y z c0).raised = some e)
    ∧ (∀ (w : matrix_multi α → matrix_multi α → matrix_multi α) (Inv : basis_table α → Prop),
        (∀ y z c1, Inv c1 →
          ∃ c2, Inv c2
            ∧ outer_assign P T y z c1 = { raised := none, self := w y z, cache := c2 }) →
        (∀ a b d, w (w a b) d = w a (w b d)) →
        Inv (ctor_int_frm P T 1 default_frm c).2 →
        m < 2 ^ 31 → 32 ≤ fuel →
        ((∃ c2, outer_pow P T fuel x m c
            = some (.error (error_t "outer_pow(m): negative exponent"), c2)) ↔ m < 0)
        ∧ (0 ≤ m → ∃ one c1 c3,
            ctor_int_frm P T 1 default_frm c = (.ok one, c1)
            ∧ outer_fold w one x 0 = one
            ∧ outer_pow P T fuel x m c = some (.ok (outer_fold w one x m.toNat), c3))) := by
  have hone : ctor_int_frm P T 1 default_frm c
      = (.ok (add_term P T (sized_in_frame default_frm) (∅, Scalar_T.of_int 1) c).1,
          (add_term P T (sized_in_frame default_frm) (∅, Scalar_T.of_int 1) c).2) := rfl
  have hneg : m < 0 → outer_pow P T fuel x m c
      = some (.error (error_t "outer_pow(m): negative exponent"), c) := by
    intro h
    unfold outer_pow
    rw [if_pos h]
  refine ⟨hneg, ?_, ?_⟩
  · intro hm e c2 h
    unfold outer_pow at h
    rw [if_neg (by omega), hone] at h
    exact outer_pow_loop_error P T fuel _ _ _ _ _ _ h
  · intro w Inv hw hassoc hInv hm hfuel
    have hret : 0 ≤ m → ∃ c3, outer_pow P T fuel x m c
        = some (.ok (outer_fold w
            (add_term P T (sized_in_frame default_frm) (∅, Scalar_T.of_int 1) c).1 x m.toNat),
            c3) := by
      intro h0
      obtain ⟨n, rfl⟩ := Int.eq_ofNat_of_zero_le h0
      have hn : n < 2 ^ fuel := by
        have h1 : n < 2 ^ 31 := by exact_mod_cast hm
        have h2 : (2 : Nat) ^ 31 ≤ 2 ^ fuel := Nat.pow_le_pow_right (by decide) (by omega)
        omega
      obtain ⟨c3, h3⟩ := outer_pow_loop_spec P T w Inv hw hassoc
        (add_term P T (sized_in_frame default_frm) (∅, Scalar_T.of_int 1) c).1 x fuel
        n 0 0 _ hn hInv
      refine ⟨c3, ?_⟩
      unfold outer_pow
      rw [if_neg (by omega), hone]
      simp only [Int.toNat_ofNat]
      have h4 : 0 + n * (0 + 1) = n := by omega
      rw [h4] at h3
      exact h3
    constructor
    · constructor
      · rintro ⟨c2, h⟩
        by_contra hge
        obtain ⟨c3, h3⟩ := hret (by omega)
        rw [h3] at h
        simp at h
      · intro h
        exact ⟨c, hneg h⟩
    · intro h0
      obtain ⟨c3, h3⟩ := hret h0
      exact ⟨_, _, c3, hone, rfl, h3⟩

end outer_power

section outer_power_witness

theorem add_term_sound {α : Type} [Add α] [Sub α] [Mul α] [Div α] [Neg α] [Scalar_T α]
    (P : Prims α) (T : Tune_P)
    (hdim : ∀ f1 f2 : index_set, P.fold f1 = P.fold f2 → folded_dim f1 = folded_dim f2)
    (x : matrix_multi α) (term : index_set × α) (c : basis_table α) (h : cache_sound P c) :
    cache_sound P (add_term P T x term c).2 := by
  unfold add_term
  split
  · exact basis_element_sound P T hdim _ _ c h
  · exact h

theorem scalar_prims_dim (f1 f2 : index_set)
    (h : (scalar_prims : Prims ℚ).fold f1 = (scalar_prims : Prims ℚ).fold f2) :
    folded_dim f1 = folded_dim f2 := by
  simp only [scalar_prims] at h
  rw [h]

theorem scalar_outer_assign (y z : matrix_multi ℚ) (c1 : basis_table ℚ)
    (h : cache_sound (scalar_prims : Prims ℚ) c1) :
    ∃ c2, cache_sound (scalar_prims : Prims ℚ) c2
      ∧ outer_assign (scalar_prims : Prims ℚ) sample_tune y z c1
        = { raised := none,
            self := matrix_multi.mk ∅
              ((unit 1).times (y.m_matrix.data 0 0 * z.m_matrix.data 0 0)),
            cache := c2 } := by
  have hd : (folded_dim ∅).toNat = 1 := by decide
  have hp := promoted_scalar (scalar_prims : Prims ℚ) sample_tune ∅
    (y.m_matrix.data 0 0 * z.m_matrix.data 0 0) c1 rfl h
  rw [hd] at hp
  refine ⟨(term_by_term (scalar_prims : Prims ℚ) sample_tune
    (framed_of_scalar (y.m_matrix.data 0 0 * z.m_matrix.data 0 0)) ∅ c1).2, ?_, ?_⟩
  · unfold term_by_term framed_of_scalar
    simp only [List.foldl_cons, List.foldl_nil]
    exact add_term_sound _ _ scalar_prims_dim _ _ c1 h
  · have hout : outer_assign (scalar_prims : Prims ℚ) sample_tune y z c1
        = assign_from y (ctor_framed (scalar_prims : Prims ℚ) sample_tune
            (framed_of_scalar (y.m_matrix.data 0 0 * z.m_matrix.data 0 0)) c1) := by
      simp [outer_assign, scalar_prims, head_coordinate, framed_of_scalar]
    have hfr : (framed_of_scalar (y.m_matrix.data 0 0 * z.m_matrix.data 0 0)).frame = ∅ := by
      simp [framed_of_scalar, framed_multi.frame]
    rw [hout]
    unfold ctor_framed
    rw [hfr, from_framed_below_threshold _ _ _ _ _
      (by simp [framed_of_scalar, framed_multi.size, sample_tune])]
    unfold assign_from
    simp only [hp]

end outer_power_witness

/-- Witness of C12 over the rationals with the sample collaborators, for which `^=`
multiplies the scalar parts: the third outer power of the scalar 2 of the empty
frame, with 32 iterations of fuel. -/
theorem outer_pow_law_witness :
    ∃ one c1 c3,
      ctor_int_frm (scalar_prims : Prims ℚ) sample_tune 1 default_frm basis_table.empty
        = (.ok one, c1)
      ∧ outer_fold
          (fun y z => matrix_multi.mk ∅
            ((unit 1).times (y.m_matrix.data 0 0 * z.m_matrix.data 0 0)))
          one (matrix_multi.mk ∅ ((unit 1).times 2)) 0 = one
      ∧ outer_pow (scalar_prims : Prims ℚ) sample_tune 32 (matrix_multi.mk ∅ ((unit 1).times 2)) 3
          basis_table.empty
        = some (.ok (outer_fold
            (fun y z => matrix_multi.mk ∅
              ((unit 1).times (y.m_matrix.data 0 0 * z.m_matrix.data 0 0)))
            one (matrix_multi.mk ∅ ((unit 1).times 2)) (3 : Int).toNat), c3) :=
  ((outer_pow_law (scalar_prims : Prims ℚ) sample_tune (matrix_multi.mk ∅ ((unit 1).times 2)) 3
      basis_table.empty 32).2.2
    (fun y z => matrix_multi.mk ∅
      ((unit 1).times (y.m_matrix.data 0 0 * z.m_matrix.data 0 0)))
    (cache_sound (scalar_prims : Prims ℚ))
    (fun y z c1 h => scalar_outer_assign y z c1 h)
    (by
      intro a b d
      simp only [unit, matrix_t.times, exact_of_int, matrix_multi.mk.injEq, matrix_t.mk.injEq,
        true_and]
      funext i j
      simp [mul_assoc])
    (add_term_sound _ _ scalar_prims_dim _ _ _ (cache_sound_empty _))
    (by decide) (by decide)).2 (by decide)

/-- Witness of C11 over the rationals with the sample collaborators of the frame
{1,2}: the vector (2, 3) has as many entries as the frame has indices, and the
constructor adds the term 2 on {1} and then the term 3 on {2}. -/
theorem vector_constructor_witness :
    ([2, 3] : List ℚ).length = ({1, 2} : index_set).card
    ∧ ctor_vec_frm plane_prims sample_tune [2, 3] {1, 2} false basis_table.empty
      = (.ok (((({1, 2} : index_set).sort (· ≤ ·)).zip [2, 3]).foldl
            (fun s t => add_term plane_prims sample_tune s.1 ({t.1}, t.2) s.2)
            (sized_in_frame {1, 2}, basis_table.empty)).1,
          (((({1, 2} : index_set).sort (· ≤ ·)).zip [2, 3]).foldl
            (fun s t => add_term plane_prims sample_tune s.1 ({t.1}, t.2) s.2)
            (sized_in_frame {1, 2}, basis_table.empty)).2) :=
  ⟨by decide,
   (vector_constructor plane_prims sample_tune [2, 3] {1, 2} false basis_table.empty).2
     (by decide)⟩


/-! ## The level under the signature moves -/

theorem offset_level_shift (p q : Int) (hp : 0 ≤ p) (hq : 4 ≤ q) :
    offset_level (p + 4) (q - 4) = offset_level p q := by
  unfold offset_level pos_mod
  simp only [tdiv_two_eq (p + q) (by omega), tdiv_two_eq (p + 4 + (q - 4)) (by omega)]
  have h1 : (p + 4 - (q - 4)) % 8 = (p - q) % 8 := by omega
  have h2 : p + 4 + (q - 4) = p + q := by omega
  rw [h1, h2]

theorem offset_level_swap (p q : Int) (hp : 1 ≤ p) (hq : 0 ≤ q) :
    offset_level (q + 1) (p - 1) = offset_level p q := by
  unfold offset_level pos_mod
  simp only [tdiv_two_eq (p + q) (by omega), tdiv_two_eq (q + 1 + (p - 1)) (by omega)]
  have h2 : q + 1 + (p - 1) = p + q := by omega
  rw [h2]
  have h8 : 0 ≤ (p - q) % 8 := Int.emod_nonneg _ (by norm_num)
  have h8b : (p - q) % 8 < 8 := Int.emod_lt_of_pos _ (by norm_num)
  have h9 : 0 ≤ (q + 1 - (p - 1)) % 8 := Int.emod_nonneg _ (by norm_num)
  obtain ⟨n, hn⟩ := Int.eq_ofNat_of_zero_le h8
  obtain ⟨k, hk⟩ := Int.eq_ofNat_of_zero_le h9
  have hlt : n < 8 := by omega
  have hkn : k = (10 - n) % 8 := by omega
  simp only [hn, hk, Int.toNat_ofNat, hkn]
  interval_cases n <;> simp [offset_log2_dim]

/-- C25. `offset_level` is invariant under the two signature moves of
`fast_framed_multi`: for `p >= 0`, `q >= 4` the shift gives
`offset_level(p+4, q-4) = offset_level(p, q)`, and for `p >= 1`, `q >= 0` the swap
gives `offset_level(q+1, p-1) = offset_level(p, q)`; so the matrix dimension
`1 << offset_level` is the same before and after either move. The opposite shift,
for `p >= 4`, `q >= 0`, keeps the level as well. -/
theorem offset_level_invariant (p q : Int) :
    (0 ≤ p → 4 ≤ q →
      offset_level (p + 4) (q - 4) = offset_level p q
      ∧ shl_int 1 (offset_level (p + 4) (q - 4)) = shl_int 1 (offset_level p q))
    ∧ (1 ≤ p → 0 ≤ q →
      offset_level (q + 1) (p - 1) = offset_level p q
      ∧ shl_int 1 (offset_level (q + 1) (p - 1)) = shl_int 1 (offset_level p q))
    ∧ (4 ≤ p → 0 ≤ q → offset_level (p - 4) (q + 4) = offset_level p q) := by
  refine ⟨?_, ?_, ?_⟩
  · intro hp hq
    rw [offset_level_shift p q hp hq]
    exact ⟨rfl, rfl⟩
  · intro hp hq
    rw [offset_level_swap p q hp hq]
    exact ⟨rfl, rfl⟩
  · intro hp hq
    have h := offset_level_shift (p - 4) (q + 4) (by omega) (by omega)
    have h1 : p - 4 + 4 = p := by omega
    have h2 : q + 4 - 4 = q := by omega
    rw [h1, h2] at h
    exact h.symm

/-- Witness of C25 at the signature (3, 5): the shift gives (7, 1), the swap gives
(6, 2), and all three have the level 5. -/
theorem offset_level_invariant_witness :
    offset_level (3 + 4) (5 - 4) = offset_level 3 5
    ∧ offset_level (5 + 1) (3 - 1) = offset_level 3 5
    ∧ offset_level 3 5 = 5 :=
  ⟨((offset_level_invariant 3 5).1 (by decide) (by decide)).1,
   ((offset_level_invariant 3 5).2.1 (by decide) (by decide)).1, by decide⟩


/-! ## Gating of the cache -/

section cache_gating

variable {α : Type} [Add α] [Sub α] [Mul α] [Div α] [Neg α] [Scalar_T α]

theorem basis_element_above_bound (P : Prims α) (T : Tune_P) (ist frm : index_set)
    (c : basis_table α)
    (h : ¬ (max (index_set_max (P.fold frm)) 0 + max (-(index_set_min (P.fold frm))) 0
      ≤ T.basis_max_count)) :
    basis_element P T ist frm c = (uncached_element P ist frm, c) := by
  unfold basis_element uncached_element
  simp only [if_neg h]

theorem basis_element_keeps_entries (P : Prims α) (T : Tune_P) (ist frm : index_set)
    (c : basis_table α) (key : index_set × index_set) (v : matrix_t α)
    (h : c key = some v) : (basis_element P T ist frm c).2 key = some v := by
  unfold basis_element
  simp only
  split
  · exact h
  · split
    · simp only [basis_table.insert]
      by_cases hkey : key = (P.fold_in ist frm, P.fold frm)
      · rw [if_pos hkey, ← hkey, h]
      · rw [if_neg hkey]
        exact h
    · exact h

theorem basis_element_other_keys (P : Prims α) (T : Tune_P) (ist frm : index_set)
    (c : basis_table α) (key : index_set × index_set)
    (h : key ≠ (P.fold_in ist frm, P.fold frm)) :
    (basis_element P T ist frm c).2 key = c key := by
  unfold basis_element
  simp only
  split
  · rfl
  · split
    · simp only [basis_table.insert]
      rw [if_neg h]
    · rfl

theorem basis_element_miss (P : Prims α) (T : Tune_P) (ist frm : index_set)
    (c : basis_table α)
    (hle : max (index_set_max (P.fold frm)) 0 + max (-(index_set_min (P.fold frm))) 0
      ≤ T.basis_max_count)
    (hnone : c (P.fold_in ist frm, P.fold frm) = none) :
    (basis_element P T ist frm c).1 = uncached_element P ist frm
      ∧ (basis_element P T ist frm c).2 (P.fold_in ist frm, P.fold frm)
          = some (uncached_element P ist frm) := by
  unfold basis_element uncached_element
  simp only [if_pos hle, hnone, basis_table.insert, if_true, and_self]

/-- C22 (amended). Cache gating. With `p` and `q` the generator counts
`max(folded_max, 0)` and `max(-folded_min, 0)` of the folded frame:
when `p+q` exceeds `basis_max_count`, the cache after the call is the cache before it
and the matrix returned does not depend on the cache; when `p+q` is at most
`basis_max_count` (equality included), the call returns the entry stored under its
key when there is one, leaving the cache as it is, and otherwise stores the matrix it
returns under that key. In every case an entry present before the call is present
with the same matrix after it, and no other key than the key of the call changes. -/
theorem cache_gating (P : Prims α) (T : Tune_P) (ist frm : index_set) (c : basis_table α) :
    (¬ (max (index_set_max (P.fold frm)) 0 + max (-(index_set_min (P.fold frm))) 0
          ≤ T.basis_max_count) →
        (basis_element P T ist frm c).2 = c
        ∧ ∀ c2, (basis_element P T ist frm c2).1 = (basis_element P T ist frm c).1)
    ∧ (max (index_set_max (P.fold frm)) 0 + max (-(index_set_min (P.fold frm))) 0
          ≤ T.basis_max_count →
        (∀ v, c (P.fold_in ist frm, P.fold frm) = some v →
          basis_element P T ist frm c = (v, c))
        ∧ (c (P.fold_in ist frm, P.fold frm) = none →
          (basis_element P T ist frm c).2 (P.fold_in ist frm, P.fold frm)
            = some (basis_element P T ist frm c).1))
    ∧ (∀ key v, c key = some v → (basis_element P T ist frm c).2 key = some v)
    ∧ (∀ key, key ≠ (P.fold_in ist frm, P.fold frm) →
        (basis_element P T ist frm c).2 key = c key) := by
  refine ⟨?_, ?_, ?_, ?_⟩
  · intro h
    rw [basis_element_above_bound P T ist frm c h]
    refine ⟨rfl, ?_⟩
    intro c2
    rw [basis_element_above_bound P T ist frm c2 h]
  · intro hle
    refine ⟨?_, ?_⟩
    · intro v hv
      exact basis_element_hit P T ist frm c v hle hv
    · intro hnone
      obtain ⟨h1, h2⟩ := basis_element_miss P T ist frm c hle hnone
      rw [h2, h1]
  · intro key v h
    exact basis_element_keeps_entries P T ist frm c key v h
  · intro key h
    exact basis_element_other_keys P T ist frm c key h

end cache_gating

/-- C22 (counterexample). With `basis_max_count = 0` and the empty frame, where
`p + q = 0`, the count is not below the threshold, and yet the call writes the cache:
the empty cache has an entry for the key of the call afterwards. -/
theorem basis_element_caches_at_bound :
    ¬ (max (index_set_max ((scalar_prims : Prims ℚ).fold ∅)) 0
        + max (-(index_set_min ((scalar_prims : Prims ℚ).fold ∅))) 0
        < (Tune_P.mk 8 0 4).basis_max_count)
    ∧ (basis_table.empty : basis_table ℚ) (∅, ∅) = none
    ∧ (basis_element (scalar_prims : Prims ℚ) (Tune_P.mk 8 0 4) ∅ ∅ basis_table.empty).2 (∅, ∅)
        = some (unit 1)
    ∧ (basis_element (scalar_prims : Prims ℚ) (Tune_P.mk 8 0 4) ∅ ∅ basis_table.empty).2
        ≠ basis_table.empty := by
  have hmax : index_set_max (∅ : index_set) = 0 := by decide
  have hmin : index_set_min (∅ : index_set) = 0 := by decide
  have hfold : (scalar_prims : Prims ℚ).fold ∅ = ∅ := rfl
  have hfi : (scalar_prims : Prims ℚ).fold_in ∅ ∅ = ∅ := rfl
  have hle : max (index_set_max ((scalar_prims : Prims ℚ).fold ∅)) 0
      + max (-(index_set_min ((scalar_prims : Prims ℚ).fold ∅))) 0
      ≤ (Tune_P.mk 8 0 4).basis_max_count := by
    rw [hfold, hmax, hmin]
    decide
  have hm := basis_element_miss (scalar_prims : Prims ℚ) (Tune_P.mk 8 0 4) ∅ ∅
    basis_table.empty hle rfl
  have hu : uncached_element (scalar_prims : Prims ℚ) ∅ ∅ = unit 1 := by
    unfold uncached_element
    rw [hfi, generator_product_empty]
    have hd : (folded_dim ∅).toNat = 1 := by decide
    rw [hd]
  have hentry := hm.2
  rw [hfi, hfold, hu] at hentry
  refine ⟨?_, rfl, hentry, ?_⟩
  · rw [hfold, hmax, hmin]
    decide
  · intro heq
    rw [heq] at hentry
    simp [basis_table.empty] at hentry

/-- Witness of C22 (amended) over the rationals with the sample collaborators and
`basis_max_count = -1`: the call for the empty set in the empty frame leaves the
empty cache empty. -/
theorem cache_gating_witness :
    (basis_element (scalar_prims : Prims ℚ) (Tune_P.mk 8 (-1) 4) ∅ ∅ basis_table.empty).2
      = basis_table.empty :=
  ((cache_gating (scalar_prims : Prims ℚ) (Tune_P.mk 8 (-1) 4) ∅ ∅ basis_table.empty).1
    (by
      have hmax : index_set_max (∅ : index_set) = 0 := by decide
      have hmin : index_set_min (∅ : index_set) = 0 := by decide
      have hfold : (scalar_prims : Prims ℚ).fold ∅ = ∅ := rfl
      rw [hfold, hmax, hmin]
      decide)).1


/-! ## The iterative refinement loop -/

section refinement

variable {α : Type} [Add α] [Sub α] [Mul α] [Div α] [Neg α] [Scalar_T α]

theorem refine_loop_run (P : Prims α) (AT BT LU : matrix_t α) (pvector : List Nat)
    (X0 : matrix_t α) (rem : Nat) :
    ∀ (s : Nat) (nrold : α),
      refine_loop P AT BT LU pvector rem (s : Int)
          (refine_iterate P AT BT LU pvector X0 (s - 1))
          (refine_iterate P AT BT LU pvector X0 s)
          ((sparse_prod AT (refine_iterate P AT BT LU pvector X0 s)).minus BT)
          (residual_norm AT BT (refine_iterate P AT BT LU pvector X0 s)) nrold
        = refine_iterate P AT BT LU pvector X0
            (s + refine_count P AT BT LU pvector rem (s : Int)
              (refine_iterate P AT BT LU pvector X0 (s - 1))
              (refine_iterate P AT BT LU pvector X0 s)
              ((sparse_prod AT (refine_iterate P AT BT LU pvector X0 s)).minus BT)
              (residual_norm AT BT (refine_iterate P AT BT LU pvector X0 s)) nrold - 1) := by
  induction rem with
  | zero =>
    intro s nrold
    simp [refine_loop, refine_count]
  | succ rem ih =>
    intro s nrold
    unfold refine_loop refine_count
    split
    · simp only
      have hXT : (if ((s : Int) != 0) = true then refine_iterate P AT BT LU pvector X0 s
          else refine_iterate P AT BT LU pvector X0 (s - 1))
          = refine_iterate P AT BT LU pvector X0 (s + 1 - 1) := by
        by_cases hs : s = 0
        · subst hs; simp
        · have : ((s : Int) != 0) = true := by simpa using hs
          rw [if_pos this]; simp
      rw [hXT]
      have h := ih (s + 1) (residual_norm AT BT (refine_iterate P AT BT LU pvector X0 s))
      have hcast : ((s + 1 : Nat) : Int) = (s : Int) + 1 := by push_cast; rfl
      rw [hcast] at h
      have hnext : refine_iterate P AT BT LU pvector X0 (s + 1)
          = (refine_iterate P AT BT LU pvector X0 s).minus_assign
              (P.lu_substitute LU pvector
                ((sparse_prod AT (refine_iterate P AT BT LU pvector X0 s)).minus BT)) := rfl
      rw [hnext] at h
      unfold residual_norm at h ⊢
      rw [h]
      congr 1
      omega
    · simp

theorem steps_from_zero (P : Prims α) (AT BT LU : matrix_t α) (pvector : List Nat)
    (X0 : matrix_t α) (s : Nat) (nrold : α) :
    steps_from P AT BT LU pvector X0 0 s nrold = 0 := by
  simp [steps_from, refine_count]

theorem steps_from_succ (P : Prims α) (AT BT LU : matrix_t α) (pvector : List Nat)
    (X0 : matrix_t α) (rem s : Nat) (nrold : α) :
    steps_from P AT BT LU pvector X0 (rem + 1) s nrold
      = if refine_continues (residual_norm AT BT (refine_iterate P AT BT LU pvector X0 s)) nrold
          = true then
          steps_from P AT BT LU pvector X0 rem (s + 1)
            (residual_norm AT BT (refine_iterate P AT BT LU pvector X0 s)) + 1
        else 0 := by
  unfold steps_from
  rw [refine_count]
  unfold refine_continues
  split
  · simp only
    have hXT : (if ((s : Int) != 0) = true then refine_iterate P AT BT LU pvector X0 s
        else refine_iterate P AT BT LU pvector X0 (s - 1))
        = refine_iterate P AT BT LU pvector X0 (s + 1 - 1) := by
      by_cases hs : s = 0
      · subst hs; simp
      · have : ((s : Int) != 0) = true := by simpa using hs
        rw [if_pos this]; simp
    rw [hXT]
    have hcast : ((s + 1 : Nat) : Int) = (s : Int) + 1 := by push_cast; rfl
    rw [hcast]
    rfl
  · rfl

theorem steps_from_le (P : Prims α) (AT BT LU : matrix_t α) (pvector : List Nat)
    (X0 : matrix_t α) (rem : Nat) :
    ∀ (s : Nat) (nrold : α), steps_from P AT BT LU pvector X0 rem s nrold ≤ rem := by
  induction rem with
  | zero => intro s nrold; rw [steps_from_zero]
  | succ rem ih =>
    intro s nrold
    rw [steps_from_succ]
    split
    · have := ih (s + 1) (residual_norm AT BT (refine_iterate P AT BT LU pvector X0 s))
      omega
    · omega

theorem steps_from_pos (P : Prims α) (AT BT LU : matrix_t α) (pvector : List Nat)
    (X0 : matrix_t α) (rem s : Nat) (nrold : α)
    (h : 0 < steps_from P AT BT LU pvector X0 rem s nrold) :
    refine_continues (residual_norm AT BT (refine_iterate P AT BT LU pvector X0 s)) nrold
      = true := by
  cases rem with
  | zero => rw [steps_from_zero] at h; omega
  | succ rem =>
    rw [steps_from_succ] at h
    by_contra hc
    rw [if_neg hc] at h
    omega

theorem steps_from_chain (P : Prims α) (AT BT LU : matrix_t α) (pvector : List Nat)
    (X0 : matrix_t α) (rem : Nat) :
    ∀ (s : Nat) (nrold : α) (i : Nat), s < i →
      i < s + steps_from P AT BT LU pvector X0 rem s nrold →
      refine_continues (residual_norm AT BT (refine_iterate P AT BT LU pvector X0 i))
        (residual_norm AT BT (refine_iterate P AT BT LU pvector X0 (i - 1))) = true := by
  induction rem with
  | zero => intro s nrold i h1 h2; rw [steps_from_zero] at h2; omega
  | succ rem ih =>
    intro s nrold i h1 h2
    rw [steps_from_succ] at h2
    split at h2
    · by_cases hi : i = s + 1
      · subst hi
        have hpos : 0 < steps_from P AT BT LU pvector X0 rem (s + 1)
            (residual_norm AT BT (refine_iterate P AT BT LU pvector X0 s)) := by omega
        have := steps_from_pos P AT BT LU pvector X0 rem (s + 1) _ hpos
        simpa using this
      · exact ih (s + 1) (residual_norm AT BT (refine_iterate P AT BT LU pvector X0 s)) i
          (by omega) (by omega)
    · omega

theorem steps_from_stop (P : Prims α) (AT BT LU : matrix_t α) (pvector : List Nat)
    (X0 : matrix_t α) (rem : Nat) :
    ∀ (s : Nat) (nrold : α),
      steps_from P AT BT LU pvector X0 rem s nrold < rem →
      refine_continues
        (residual_norm AT BT (refine_iterate P AT BT LU pvector X0
          (s + steps_from P AT BT LU pvector X0 rem s nrold)))
        (if steps_from P AT BT LU pvector X0 rem s nrold = 0 then nrold
          else residual_norm AT BT (refine_iterate P AT BT LU pvector X0
            (s + steps_from P AT BT LU pvector X0 rem s nrold - 1))) = false := by
  induction rem with
  | zero => intro s nrold h; omega
  | succ rem ih =>
    intro s nrold h
    rw [steps_from_succ] at h ⊢
    by_cases hc : refine_continues
        (residual_norm AT BT (refine_iterate P AT BT LU pvector X0 s)) nrold = true
    · rw [if_pos hc] at h ⊢
      have h2 := ih (s + 1) (residual_norm AT BT (refine_iterate P AT BT LU pvector X0 s))
        (by omega)
      have e1 : s + (steps_from P AT BT LU pvector X0 rem (s + 1)
          (residual_norm AT BT (refine_iterate P AT BT LU pvector X0 s)) + 1)
          = s + 1 + steps_from P AT BT LU pvector X0 rem (s + 1)
              (residual_norm AT BT (refine_iterate P AT BT LU pvector X0 s)) := by omega
      rw [e1, if_neg (by omega)]
      by_cases hk : steps_from P AT BT LU pvector X0 rem (s + 1)
          (residual_norm AT BT (refine_iterate P AT BT LU pvector X0 s)) = 0
      · rw [hk] at h2 ⊢
        simpa using h2
      · rw [if_neg hk] at h2
        exact h2
    · rw [if_neg hc]
      simpa using hc

theorem refine_loop_iterate (P : Prims α) (AT BT LU : matrix_t α) (pvector : List Nat)
    (X0 : matrix_t α) (rem s : Nat) (nrold : α) :
    refine_loop P AT BT LU pvector rem (s : Int)
        (refine_iterate P AT BT LU pvector X0 (s - 1))
        (refine_iterate P AT BT LU pvector X0 s)
        ((sparse_prod AT (refine_iterate P AT BT LU pvector X0 s)).minus BT)
        (residual_norm AT BT (refine_iterate P AT BT LU pvector X0 s)) nrold
      = refine_iterate P AT BT LU pvector X0
          (s + steps_from P AT BT LU pvector X0 rem s nrold - 1) :=
  refine_loop_run P AT BT LU pvector X0 rem s nrold

end refinement

section refinement_claims

variable {α : Type} [Add α] [Sub α] [Mul α] [Div α] [Neg α] [Scalar_T α]

theorem refine_steps_eq (P : Prims α) (T : Tune_P) (AT M LU : matrix_t α)
    (pvector : List Nat) :
    refine_steps P T AT M LU pvector
      = if 0 < T.div_max_steps then
          if (Scalar_T.ne (residual_norm AT M.trans (P.lu_substitute LU pvector M.trans))
                (Scalar_T.of_int 0)
              && scalar_eq (residual_norm AT M.trans (P.lu_substitute LU pvector M.trans))
                (residual_norm AT M.trans (P.lu_substitute LU pvector M.trans))) = true then
            steps_from P AT M.trans LU pvector (P.lu_substitute LU pvector M.trans)
              T.div_max_steps.toNat 0
              (residual_norm AT M.trans (P.lu_substitute LU pvector M.trans)
                + Scalar_T.of_int 1)
          else 0
        else 0 := rfl

theorem solve_refined_iterate (P : Prims α) (T : Tune_P) (AT M LU : matrix_t α)
    (pvector : List Nat) :
    solve_refined P T AT M LU pvector
      = refine_iterate P AT M.trans LU pvector (P.lu_substitute LU pvector M.trans)
          (refine_steps P T AT M LU pvector - 1) := by
  rw [refine_steps_eq]
  unfold solve_refined residual_norm
  simp only
  by_cases h0 : 0 < T.div_max_steps
  · rw [if_pos h0, if_pos h0]
    by_cases hc : (Scalar_T.ne
          (norm_inf ((sparse_prod AT (P.lu_substitute LU pvector M.trans)).minus M.trans))
          (Scalar_T.of_int 0)
        && scalar_eq
          (norm_inf ((sparse_prod AT (P.lu_substitute LU pvector M.trans)).minus M.trans))
          (norm_inf ((sparse_prod AT (P.lu_substitute LU pvector M.trans)).minus M.trans)))
        = true
    · rw [if_pos hc, if_pos hc]
      have h := refine_loop_iterate P AT M.trans LU pvector
        (P.lu_substitute LU pvector M.trans) T.div_max_steps.toNat 0
        (residual_norm AT M.trans (P.lu_substitute LU pvector M.trans) + Scalar_T.of_int 1)
      simp only [Nat.zero_add, Nat.cast_zero, Nat.zero_sub, refine_iterate] at h
      unfold residual_norm at h
      exact h
    · rw [if_neg hc, if_neg hc]
      rfl
  · rw [if_neg h0, if_neg h0]
    rfl

theorem div_assign_nonsingular (P : Prims α) (T : Tune_P) (a b : matrix_multi α)
    (c : basis_table α) (hf : a.m_frame = b.m_frame)
    (hns : (P.lu_factorize b.m_matrix.trans).1 = 0) :
    div_assign P T a b c
      = { raised := none,
          self := { a with m_matrix :=
            (solve_refined P T b.m_matrix.trans a.m_matrix (P.lu_factorize b.m_matrix.trans).2.1
              (P.lu_factorize b.m_matrix.trans).2.2).trans },
          cache := c } := by
  unfold div_assign
  have h1 : (a.m_frame != b.m_frame) = false := by simp [hf]
  simp only [h1, Bool.false_eq_true, if_false, hns, if_true]

theorem refine_steps_le (P : Prims α) (T : Tune_P) (AT M LU : matrix_t α)
    (pvector : List Nat) : refine_steps P T AT M LU pvector ≤ T.div_max_steps.toNat := by
  have hle := steps_from_le P AT M.trans LU pvector (P.lu_substitute LU pvector M.trans)
    T.div_max_steps.toNat 0
    (residual_norm AT M.trans (P.lu_substitute LU pvector M.trans) + Scalar_T.of_int 1)
  rw [refine_steps_eq]
  split
  · split
    · exact hle
    · omega
  · omega

theorem refine_steps_chain (P : Prims α) (T : Tune_P) (AT M LU : matrix_t α)
    (pvector : List Nat) (i : Nat) (hi1 : 0 < i) (hi2 : i < refine_steps P T AT M LU pvector) :
    refine_continues
      (residual_norm AT M.trans
        (refine_iterate P AT M.trans LU pvector (P.lu_substitute LU pvector M.trans) i))
      (residual_norm AT M.trans
        (refine_iterate P AT M.trans LU pvector (P.lu_substitute LU pvector M.trans)
          (i - 1))) = true := by
  rw [refine_steps_eq] at hi2
  split at hi2
  · split at hi2
    · exact steps_from_chain P AT M.trans LU pvector (P.lu_substitute LU pvector M.trans)
        T.div_max_steps.toNat 0
        (residual_norm AT M.trans (P.lu_substitute LU pvector M.trans) + Scalar_T.of_int 1)
        i hi1 (by omega)
    · omega
  · omega

/-- C21. Bounded refinement. In the non-singular branch of the division within one
frame the body of the refinement loop runs at most `div_max_steps` times (not at all
when `div_max_steps <= 0`), and not at all when the residual norm of the LU solution
compares equal to zero or is NaN (unequal to itself). The first iteration runs only
when that norm is smaller than itself plus one, non-zero and not NaN; every later
iteration `i` runs only when the residual norm of the iterate `i` is smaller than
that of the iterate `i-1`, non-zero and not NaN. When the loop is entered and ends
before `div_max_steps` iterations, that condition fails for the iterate it ends
at. -/
theorem bounded_refinement (P : Prims α) (T : Tune_P) (AT M LU : matrix_t α)
    (pvector : List Nat) :
    refine_steps P T AT M LU pvector ≤ T.div_max_steps.toNat
    ∧ (T.div_max_steps ≤ 0 → refine_steps P T AT M LU pvector = 0)
    ∧ (Scalar_T.ne (residual_norm AT M.trans (P.lu_substitute LU pvector M.trans))
          (Scalar_T.of_int 0) = false → refine_steps P T AT M LU pvector = 0)
    ∧ (scalar_eq (residual_norm AT M.trans (P.lu_substitute LU pvector M.trans))
          (residual_norm AT M.trans (P.lu_substitute LU pvector M.trans)) = false →
        refine_steps P T AT M LU pvector = 0)
    ∧ (0 < refine_steps P T AT M LU pvector →
        refine_continues (residual_norm AT M.trans (P.lu_substitute LU pvector M.trans))
          (residual_norm AT M.trans (P.lu_substitute LU pvector M.trans) + Scalar_T.of_int 1)
          = true)
    ∧ (∀ i, 0 < i → i < refine_steps P T AT M LU pvector →
        refine_continues
          (residual_norm AT M.trans
            (refine_iterate P AT M.trans LU pvector (P.lu_substitute LU pvector M.trans) i))
          (residual_norm AT M.trans
            (refine_iterate P AT M.trans LU pvector (P.lu_substitute LU pvector M.trans)
              (i - 1))) = true)
    ∧ (0 < T.div_max_steps →
        Scalar_T.ne (residual_norm AT M.trans (P.lu_substitute LU pvector M.trans))
          (Scalar_T.of_int 0) = true →
        scalar_eq (residual_norm AT M.trans (P.lu_substitute LU pvector M.trans))
          (residual_norm AT M.trans (P.lu_substitute LU pvector M.trans)) = true →
        refine_steps P T AT M LU pvector < T.div_max_steps.toNat →
        refine_continues
          (residual_norm AT M.trans
            (refine_iterate P AT M.trans LU pvector (P.lu_substitute LU pvector M.trans)
              (refine_steps P T AT M LU pvector)))
          (if refine_steps P T AT M LU pvector = 0 then
              residual_norm AT M.trans (P.lu_substitute LU pvector M.trans) + Scalar_T.of_int 1
            else residual_norm AT M.trans
              (refine_iterate P AT M.trans LU pvector (P.lu_substitute LU pvector M.trans)
                (refine_steps P T AT M LU pvector - 1))) = false) := by
  refine ⟨refine_steps_le P T AT M LU pvector, ?_, ?_, ?_, ?_, ?_, ?_⟩
  · intro h
    rw [refine_steps_eq, if_neg (by omega)]
  · intro h
    rw [refine_steps_eq]
    split
    · rw [h]; simp
    · rfl
  · intro h
    rw [refine_steps_eq]
    split
    · rw [h]; simp
    · rfl
  · intro h
    rw [refine_steps_eq] at h
    split at h
    · split at h
      · exact steps_from_pos P AT M.trans LU pvector _ _ 0 _ h
      · omega
    · omega
  · intro i hi1 hi2
    exact refine_steps_chain P T AT M LU pvector i hi1 hi2
  · intro h0 h1 h2 hlt
    have hcond : (Scalar_T.ne (residual_norm AT M.trans (P.lu_substitute LU pvector M.trans))
          (Scalar_T.of_int 0)
        && scalar_eq (residual_norm AT M.trans (P.lu_substitute LU pvector M.trans))
          (residual_norm AT M.trans (P.lu_substitute LU pvector M.trans))) = true := by
      rw [h1, h2]; rfl
    rw [refine_steps_eq, if_pos h0, if_pos hcond] at hlt ⊢
    have h := steps_from_stop P AT M.trans LU pvector (P.lu_substitute LU pvector M.trans)
      T.div_max_steps.toNat 0
      (residual_norm AT M.trans (P.lu_substitute LU pvector M.trans) + Scalar_T.of_int 1) hlt
    simp only [Nat.zero_add] at h
    exact h

/-- C27. Refinement never makes the quotient worse. Let `<` on the scalars be
transitive. In the division within one frame by a divisor whose factorisation
succeeds, nothing is raised and the matrix committed to the receiver is the
transpose of an iterate `j` of the refinement, `j = 0` being the unrefined LU
solution; the residual norm of that iterate is smaller than the residual norm of every
iterate before it, so it is the unrefined solution or has a smaller residual norm
than the unrefined solution. -/
theorem refinement_not_worse (P : Prims α) (T : Tune_P) (a b : matrix_multi α)
    (c : basis_table α) (hf : a.m_frame = b.m_frame)
    (hns : (P.lu_factorize b.m_matrix.trans).1 = 0)
    (htrans : ∀ x y z : α, Scalar_T.lt x y = true → Scalar_T.lt y z = true →
      Scalar_T.lt x z = true) :
    ∃ j : Nat,
      (div_assign P T a b c).raised = none
      ∧ (div_assign P T a b c).self.m_matrix
          = (refine_iterate P b.m_matrix.trans a.m_matrix.trans
              (P.lu_factorize b.m_matrix.trans).2.1 (P.lu_factorize b.m_matrix.trans).2.2
              (P.lu_substitute (P.lu_factorize b.m_matrix.trans).2.1
                (P.lu_factorize b.m_matrix.trans).2.2 a.m_matrix.trans) j).trans
      ∧ (∀ i, i < j →
          Scalar_T.lt
            (residual_norm b.m_matrix.trans a.m_matrix.trans
              (refine_iterate P b.m_matrix.trans a.m_matrix.trans
                (P.lu_factorize b.m_matrix.trans).2.1 (P.lu_factorize b.m_matrix.trans).2.2
                (P.lu_substitute (P.lu_factorize b.m_matrix.trans).2.1
                  (P.lu_factorize b.m_matrix.trans).2.2 a.m_matrix.trans) j))
            (residual_norm b.m_matrix.trans a.m_matrix.trans
              (refine_iterate P b.m_matrix.trans a.m_matrix.trans
                (P.lu_factorize b.m_matrix.trans).2.1 (P.lu_factorize b.m_matrix.trans).2.2
                (P.lu_substitute (P.lu_factorize b.m_matrix.trans).2.1
                  (P.lu_factorize b.m_matrix.trans).2.2 a.m_matrix.trans) i)) = true)
      ∧ (j = 0 ∨
          Scalar_T.lt
            (residual_norm b.m_matrix.trans a.m_matrix.trans
              (refine_iterate P b.m_matrix.trans a.m_matrix.trans
                (P.lu_factorize b.m_matrix.trans).2.1 (P.lu_factorize b.m_matrix.trans).2.2
                (P.lu_substitute (P.lu_factorize b.m_matrix.trans).2.1
                  (P.lu_factorize b.m_matrix.trans).2.2 a.m_matrix.trans) j))
            (residual_norm b.m_matrix.trans a.m_matrix.trans
              (P.lu_substitute (P.lu_factorize b.m_matrix.trans).2.1
                (P.lu_factorize b.m_matrix.trans).2.2 a.m_matrix.trans)) = true) := by
  generalize hAT : b.m_matrix.trans = AT at hns ⊢
  generalize hLU : (P.lu_factorize AT).2.1 = LU
  generalize hpv : (P.lu_factorize AT).2.2 = pv
  have hdiv := div_assign_nonsingular P T a b c hf (by rw [hAT]; exact hns)
  rw [hAT, hLU, hpv, solve_refined_iterate] at hdiv
  have hchain := refine_steps_chain P T AT a.m_matrix LU pv
  have hdown : ∀ j, j < refine_steps P T AT a.m_matrix LU pv → ∀ i, i < j →
      Scalar_T.lt
        (residual_norm AT a.m_matrix.trans
          (refine_iterate P AT a.m_matrix.trans LU pv
            (P.lu_substitute LU pv a.m_matrix.trans) j))
        (residual_norm AT a.m_matrix.trans
          (refine_iterate P AT a.m_matrix.trans LU pv
            (P.lu_substitute LU pv a.m_matrix.trans) i)) = true := by
    intro j
    induction j with
    | zero => intro _ i hi; omega
    | succ j ih =>
      intro hj i hi
      have hstep := hchain (j + 1) (by omega) hj
      unfold refine_continues at hstep
      simp only [Bool.and_eq_true, Nat.add_sub_cancel] at hstep
      by_cases hij : i = j
      · subst hij
        exact hstep.1.1
      · exact htrans _ _ _ hstep.1.1 (ih (by omega) i (by omega))
  refine ⟨refine_steps P T AT a.m_matrix LU pv - 1, ?_, ?_, ?_, ?_⟩
  · rw [hdiv]
  · rw [hdiv]
  · intro i hi
    exact hdown _ (by omega) i hi
  · by_cases h0 : refine_steps P T AT a.m_matrix LU pv - 1 = 0
    · exact Or.inl h0
    · exact Or.inr (hdown _ (by omega) 0 (by omega))

/-- C28. The correction computed in the last executed refinement step is never
committed. In the division within one frame by a divisor whose factorisation
succeeds, the matrix written back is the transpose of the iterate `n - 1`, where `n`
is the number of iterations the loop made (the iterate 0, the unrefined LU solution,
when it made none), although the loop computed the iterate `n`, whatever the residual
of that one is. So at most `div_max_steps - 1` corrections are applied, and with
`div_max_steps = 1` the result is the unrefined LU solution. -/
theorem last_correction_dropped (P : Prims α) (T : Tune_P) (a b : matrix_multi α)
    (c : basis_table α) (hf : a.m_frame = b.m_frame)
    (hns : (P.lu_factorize b.m_matrix.trans).1 = 0) :
    (div_assign P T a b c).self.m_matrix
        = (refine_iterate P b.m_matrix.trans a.m_matrix.trans
            (P.lu_factorize b.m_matrix.trans).2.1 (P.lu_factorize b.m_matrix.trans).2.2
            (P.lu_substitute (P.lu_factorize b.m_matrix.trans).2.1
              (P.lu_factorize b.m_matrix.trans).2.2 a.m_matrix.trans)
            (refine_steps P T b.m_matrix.trans a.m_matrix
              (P.lu_factorize b.m_matrix.trans).2.1 (P.lu_factorize b.m_matrix.trans).2.2
              - 1)).trans
    ∧ refine_steps P T b.m_matrix.trans a.m_matrix
          (P.lu_factorize b.m_matrix.trans).2.1 (P.lu_factorize b.m_matrix.trans).2.2 - 1
        ≤ T.div_max_steps.toNat - 1
    ∧ (T.div_max_steps = 1 →
        (div_assign P T a b c).self.m_matrix
          = (P.lu_substitute (P.lu_factorize b.m_matrix.trans).2.1
              (P.lu_factorize b.m_matrix.trans).2.2 a.m_matrix.trans).trans) := by
  have hdiv := div_assign_nonsingular P T a b c hf hns
  rw [solve_refined_iterate] at hdiv
  have hle := refine_steps_le P T b.m_matrix.trans a.m_matrix
    (P.lu_factorize b.m_matrix.trans).2.1 (P.lu_factorize b.m_matrix.trans).2.2
  refine ⟨?_, ?_, ?_⟩
  · rw [hdiv]
  · omega
  · intro h1
    rw [hdiv]
    simp only
    have hz : refine_steps P T b.m_matrix.trans a.m_matrix
        (P.lu_factorize b.m_matrix.trans).2.1 (P.lu_factorize b.m_matrix.trans).2.2 - 1
        = 0 := by
      rw [h1] at hle
      have : (1 : Int).toNat = 1 := rfl
      omega
    rw [hz]
    rfl

end refinement_claims

section refinement_witness

theorem halving_steps_one :
    refine_steps halving_prims (Tune_P.mk 8 6 1) ((unit 1 : matrix_t ℚ).trans) (unit 1)
      (halving_prims.lu_factorize (unit 1 : matrix_t ℚ).trans).2.1
      (halving_prims.lu_factorize (unit 1 : matrix_t ℚ).trans).2.2 = 1 := by
  simp [refine_steps, refine_count, halving_prims, scalar_prims, unit, matrix_t.trans,
    sparse_prod, matrix_t.minus, matrix_t.minus_assign, norm_inf, sum_upto, scalar_max,
    scalar_eq, exact_ne, exact_lt, exact_abs, exact_of_int, List.range_succ]
  norm_num

theorem halving_nonsingular :
    (halving_prims.lu_factorize (matrix_multi.mk ∅ (unit 1 : matrix_t ℚ)).m_matrix.trans).1
      = 0 := by
  simp [halving_prims, scalar_prims, unit, matrix_t.trans, exact_ne, exact_of_int]

theorem exact_lt_trans (x y z : ℚ) (h1 : Scalar_T.lt x y = true) (h2 : Scalar_T.lt y z = true) :
    Scalar_T.lt x z = true := by
  rw [exact_lt, decide_eq_true_eq] at *
  exact lt_trans h1 h2

end refinement_witness

/-- Witness of C21 with the inexact sample solver and `div_max_steps = 1`, dividing
the scalar 1 by itself: the loop body runs once, which is at most `div_max_steps`. -/
theorem bounded_refinement_witness :
    refine_steps halving_prims (Tune_P.mk 8 6 1) ((unit 1 : matrix_t ℚ).trans) (unit 1)
        (halving_prims.lu_factorize (unit 1 : matrix_t ℚ).trans).2.1
        (halving_prims.lu_factorize (unit 1 : matrix_t ℚ).trans).2.2
      ≤ (Tune_P.mk 8 6 1).div_max_steps.toNat :=
  (bounded_refinement halving_prims (Tune_P.mk 8 6 1) ((unit 1 : matrix_t ℚ).trans) (unit 1)
    (halving_prims.lu_factorize (unit 1 : matrix_t ℚ).trans).2.1
    (halving_prims.lu_factorize (unit 1 : matrix_t ℚ).trans).2.2).1

/-- Witness of C27 over the rationals with the inexact sample solver: the scalar 1 of
the empty frame divided by itself; the division raises nothing. -/
theorem refinement_not_worse_witness :
    (div_assign halving_prims sample_tune (matrix_multi.mk ∅ (unit 1)) (matrix_multi.mk ∅ (unit 1))
      basis_table.empty).raised = none := by
  obtain ⟨j, h1, _⟩ := refinement_not_worse halving_prims sample_tune
    (matrix_multi.mk ∅ (unit 1)) (matrix_multi.mk ∅ (unit 1)) basis_table.empty rfl
    halving_nonsingular exact_lt_trans
  exact h1

/-- Witness of C28 over the rationals with the inexact sample solver and
`div_max_steps = 1`, dividing the scalar 1 of the empty frame by itself: the loop
body runs once, and the matrix written back is the unrefined solution. -/
theorem last_correction_dropped_witness :
    refine_steps halving_prims (Tune_P.mk 8 6 1) ((unit 1 : matrix_t ℚ).trans) (unit 1)
        (halving_prims.lu_factorize (unit 1 : matrix_t ℚ).trans).2.1
        (halving_prims.lu_factorize (unit 1 : matrix_t ℚ).trans).2.2 = 1
    ∧ (div_assign halving_prims (Tune_P.mk 8 6 1) (matrix_multi.mk ∅ (unit 1))
        (matrix_multi.mk ∅ (unit 1)) basis_table.empty).self.m_matrix
      = (halving_prims.lu_substitute
          (halving_prims.lu_factorize (matrix_multi.mk ∅ (unit 1 : matrix_t ℚ)).m_matrix.trans).2.1
          (halving_prims.lu_factorize (matrix_multi.mk ∅ (unit 1 : matrix_t ℚ)).m_matrix.trans).2.2
          (matrix_multi.mk ∅ (unit 1 : matrix_t ℚ)).m_matrix.trans).trans :=
  ⟨halving_steps_one,
   (last_correction_dropped halving_prims (Tune_P.mk 8 6 1) (matrix_multi.mk ∅ (unit 1))
      (matrix_multi.mk ∅ (unit 1)) basis_table.empty rfl halving_nonsingular).2.2 rfl⟩


/-! ## The signature in `fast_framed_multi` -/

theorem shift_pm4_qp4_form (p q : Int) :
    ∃ k : Nat, shift_pm4_qp4 p q = (p - 4 * k, q + 4 * k)
      ∧ (p - q ≤ 4 → k = 0)
      ∧ (4 < p - q → -4 < p - q - 8 * k ∧ p - q - 8 * k ≤ 4 ∧ 0 < k) := by
  induction p, q using shift_pm4_qp4.induct with
  | case1 p q h ih =>
    obtain ⟨k, h1, h2, h3⟩ := ih
    refine ⟨k + 1, ?_, ?_, ?_⟩
    · rw [shift_pm4_qp4, if_pos h, h1]
      push_cast
      ext <;> simp only <;> ring
    · intro h4; omega
    · intro _
      by_cases h5 : p - 4 - (q + 4) ≤ 4
      · have hk := h2 h5
        subst hk
        refine ⟨?_, ?_, ?_⟩
        · push_cast; omega
        · push_cast; omega
        · omega
      · have hk := h3 (by omega)
        refine ⟨?_, ?_, ?_⟩
        · push_cast; omega
        · push_cast; omega
        · omega
  | case2 p q h =>
    refine ⟨0, ?_, ?_, ?_⟩
    · rw [shift_pm4_qp4, if_neg h]; simp
    · intro _; rfl
    · intro h4; omega

theorem shift_pp4_qm4_form (p q : Int) :
    ∃ k : Nat, shift_pp4_qm4 p q = (p + 4 * k, q - 4 * k)
      ∧ (-3 ≤ p - q → k = 0)
      ∧ (p - q < -3 → -3 ≤ p - q + 8 * k ∧ p - q + 8 * k < 5 ∧ 0 < k) := by
  induction p, q using shift_pp4_qm4.induct with
  | case1 p q h ih =>
    obtain ⟨k, h1, h2, h3⟩ := ih
    refine ⟨k + 1, ?_, ?_, ?_⟩
    · rw [shift_pp4_qm4, if_pos h, h1]
      push_cast
      ext <;> simp only <;> ring
    · intro h4; omega
    · intro _
      by_cases h5 : -3 ≤ p + 4 - (q - 4)
      · have hk := h2 h5
        subst hk
        refine ⟨?_, ?_, ?_⟩
        · push_cast; omega
        · push_cast; omega
        · omega
      · have hk := h3 (by omega)
        refine ⟨?_, ?_, ?_⟩
        · push_cast; omega
        · push_cast; omega
        · omega
  | case2 p q h =>
    refine ⟨0, ?_, ?_, ?_⟩
    · rw [shift_pp4_qm4, if_neg h]; simp
    · intro _; rfl
    · intro h4; omega

theorem shift_loops_form (p q : Int) :
    ∃ k : Int, shift_loops p q = (p - 4 * k, q + 4 * k)
      ∧ -3 ≤ p - q - 8 * k ∧ p - q - 8 * k ≤ 4
      ∧ (4 < p - q → 0 < k) ∧ (p - q < -3 → k < 0)
      ∧ (-3 ≤ p - q → p - q ≤ 4 → k = 0) := by
  unfold shift_loops
  obtain ⟨k1, h1, h2, h3⟩ := shift_pm4_qp4_form p q
  rw [h1]
  simp only
  obtain ⟨k2, g1, g2, g3⟩ := shift_pp4_qm4_form (p - 4 * k1) (q + 4 * k1)
  rw [g1]
  by_cases hbig : 4 < p - q
  · have hk1 := h3 hbig
    have hk2 := g2 (by omega)
    subst hk2
    refine ⟨k1, by simp, by omega, by omega, fun _ => by omega, fun h => by omega,
      fun _ h => by omega⟩
  · have hk1 := h2 (by omega)
    subst hk1
    by_cases hsmall : p - q < -3
    · have hk2 := g3 (by simpa using hsmall)
      refine ⟨-(k2 : Int), ?_, by simp at hk2 ⊢; omega, by simp at hk2 ⊢; omega,
        fun h => by omega, fun _ => by omega, fun h => by omega⟩
      simp only [Nat.cast_zero, mul_zero, sub_zero, add_zero]
      ext <;> simp only <;> ring
    · have hk2 := g2 (by simp; omega)
      subst hk2
      exact ⟨0, by simp, by omega, by omega, fun h => by omega, fun h => by omega,
        fun _ _ => rfl⟩

theorem centred_of_balanced (P Q : Int) (hmod : (P - Q) % 8 = 0 ∨ (P - Q) % 8 = 2) :
    (swap_qp1_pm1 (shift_loops P Q).1 (shift_loops P Q).2).1
        = (swap_qp1_pm1 (shift_loops P Q).1 (shift_loops P Q).2).2
      ∧ (swap_qp1_pm1 (shift_loops P Q).1 (shift_loops P Q).2).1
          + (swap_qp1_pm1 (shift_loops P Q).1 (shift_loops P Q).2).2 = P + Q := by
  obtain ⟨k, h1, h2, h3, _⟩ := shift_loops_form P Q
  rw [h1]
  unfold swap_qp1_pm1
  simp only
  split <;> simp only <;> omega

theorem off_centre_upstream (p0 q0 : Int) :
    ∃ a b : Int, off_centre [0, -1, 0, -1, -2, 3, 2, 1] p0 q0 = (p0 + a, q0 + b)
      ∧ 0 ≤ a ∧ 0 ≤ b
      ∧ ((p0 + a - (q0 + b)) % 8 = 0 ∨ (p0 + a - (q0 + b)) % 8 = 2)
      ∧ (p0 + q0 + a + b) / 2
          = (p0 + q0) / 2 + [0, 1, 0, 1, 1, 2, 1, 1].getD ((p0 - q0) % 8).toNat 0 := by
  have h8 : 0 ≤ (p0 - q0) % 8 := Int.emod_nonneg _ (by norm_num)
  have h8b : (p0 - q0) % 8 < 8 := Int.emod_lt_of_pos _ (by norm_num)
  obtain ⟨n, hn⟩ := Int.eq_ofNat_of_zero_le h8
  have hlt : n < 8 := by omega
  unfold off_centre pos_mod
  simp only [hn, Int.toNat_ofNat]
  interval_cases n
  · exact ⟨0, 0, by simp, by omega, by omega, by omega, by simp⟩
  · exact ⟨0, 1, by simp, by omega, by omega, by omega, by simp; omega⟩
  · exact ⟨0, 0, by simp, by omega, by omega, by omega, by simp⟩
  · exact ⟨0, 1, by simp, by omega, by omega, by omega, by simp; omega⟩
  · exact ⟨0, 2, by simp, by omega, by omega, by omega, by simp; omega⟩
  · exact ⟨3, 0, by simp, by omega, by omega, by omega, by simp; omega⟩
  · exact ⟨2, 0, by simp, by omega, by omega, by omega, by simp; omega⟩
  · exact ⟨1, 0, by simp, by omega, by omega, by omega, by simp; omega⟩

/-- C23. The level of the fast transform matches the matrix size. Let
`gen::offset_to_super` be the table {0,-1,0,-1,-2,3,2,1}. For every pair of counts
`p0, q0 >= 0` the off-centred signature `(orig_p, orig_q)` of `fast_framed_multi` has
`orig_p - orig_q` congruent to 0 or 2 modulo 8, so that the `switch` never meets the
values 3 and 4; the signature at the call of `fast` is balanced, `p = q = level`; and
`level = offset_level(p0, q0)`, so that `1 << level` is `folded_dim` of every frame
with these counts. -/
theorem fast_level_matches (offset_to_super : List Int) (p0 q0 : Int)
    (htable : offset_to_super = [0, -1, 0, -1, -2, 3, 2, 1]) (hp : 0 ≤ p0) (hq : 0 ≤ q0) :
    (pos_mod ((off_centre offset_to_super p0 q0).1 - (off_centre offset_to_super p0 q0).2) 8 = 0
      ∨ pos_mod ((off_centre offset_to_super p0 q0).1
          - (off_centre offset_to_super p0 q0).2) 8 = 2)
    ∧ pos_mod ((off_centre offset_to_super p0 q0).1
        - (off_centre offset_to_super p0 q0).2) 8 ≠ 3
    ∧ pos_mod ((off_centre offset_to_super p0 q0).1
        - (off_centre offset_to_super p0 q0).2) 8 ≠ 4
    ∧ (centred_signature offset_to_super p0 q0).1 = fast_level offset_to_super p0 q0
    ∧ (centred_signature offset_to_super p0 q0).2 = fast_level offset_to_super p0 q0
    ∧ fast_level offset_to_super p0 q0 = offset_level p0 q0
    ∧ (∀ frm : index_set, count_pos frm = p0 → count_neg frm = q0 →
        folded_dim frm = shl_int 1 (fast_level offset_to_super p0 q0)) := by
  subst htable
  obtain ⟨a, b, ho, ha, hb, hmod, hhalf⟩ := off_centre_upstream p0 q0
  obtain ⟨hbal, hsum⟩ := centred_of_balanced (p0 + a) (q0 + b) hmod
  have hlevel : fast_level [0, -1, 0, -1, -2, 3, 2, 1] p0 q0 = offset_level p0 q0 := by
    unfold fast_level centred_signature
    rw [ho]
    simp only
    rw [hsum, tdiv_two_eq _ (by omega), offset_level_formula p0 q0 hp hq, ← hhalf]
    congr 1
    ring
  have hfirst : (centred_signature [0, -1, 0, -1, -2, 3, 2, 1] p0 q0).1
      = fast_level [0, -1, 0, -1, -2, 3, 2, 1] p0 q0 := by
    unfold fast_level centred_signature
    rw [ho]
    simp only
    rw [hsum, tdiv_two_eq _ (by omega)]
    omega
  refine ⟨?_, ?_, ?_, hfirst, ?_, hlevel, ?_⟩
  · rw [ho]; exact hmod
  · rw [ho]; unfold pos_mod; simp only; omega
  · rw [ho]; unfold pos_mod; simp only; omega
  · rw [← hfirst]
    unfold centred_signature
    rw [ho]
    exact hbal.symm
  · intro frm h1 h2
    unfold folded_dim
    rw [h1, h2, hlevel]

/-- Witness of C23 at the counts (3, 0): the off-centred signature is (3, 1), with
difference 2, the signature at the call of `fast` is (2, 2), and the level is 2, which
is `offset_level(3, 0)`. -/
theorem fast_level_matches_witness :
    fast_level [0, -1, 0, -1, -2, 3, 2, 1] 3 0 = offset_level 3 0
    ∧ offset_level 3 0 = 2
    ∧ off_centre [0, -1, 0, -1, -2, 3, 2, 1] 3 0 = (3, 1) :=
  ⟨(fast_level_matches [0, -1, 0, -1, -2, 3, 2, 1] 3 0 rfl (by decide) (by decide)).2.2.2.2.2.1,
   by decide, by decide⟩

theorem centre_loop_up (centre : Int × Int → Int × Int) (orig_p orig_q : Int)
    (h : ∀ s, centre s = (s.1 + 4, s.2 - 4)) :
    ∀ (k fuel : Nat), k ≤ fuel →
      centre_loop centre orig_p fuel (orig_p - 4 * k, orig_q + 4 * k)
        = some (orig_p, orig_q) := by
  intro k
  induction k with
  | zero =>
    intro fuel _
    cases fuel <;> simp [centre_loop]
  | succ k ih =>
    intro fuel hk
    obtain ⟨f, rfl⟩ : ∃ f, fuel = f + 1 := ⟨fuel - 1, by omega⟩
    have hne : ((orig_p - 4 * ((k + 1 : Nat) : Int), orig_q + 4 * ((k + 1 : Nat) : Int)).1
        != orig_p) = true := by
      simp only [bne_iff_ne, ne_eq]
      push_cast
      omega
    rw [centre_loop, if_pos hne, h]
    have hstep : ((orig_p - 4 * ((k + 1 : Nat) : Int), orig_q + 4 * ((k + 1 : Nat) : Int)).1 + 4,
        (orig_p - 4 * ((k + 1 : Nat) : Int), orig_q + 4 * ((k + 1 : Nat) : Int)).2 - 4)
        = (orig_p - 4 * (k : Int), orig_q + 4 * (k : Int)) := by
      push_cast
      ext <;> simp only <;> ring
    rw [hstep]
    exact ih f (by omega)

theorem centre_loop_down (centre : Int × Int → Int × Int) (orig_p orig_q : Int)
    (h : ∀ s, centre s = (s.1 - 4, s.2 + 4)) :
    ∀ (k fuel : Nat), k ≤ fuel →
      centre_loop centre orig_p fuel (orig_p + 4 * k, orig_q - 4 * k)
        = some (orig_p, orig_q) := by
  intro k
  induction k with
  | zero =>
    intro fuel _
    cases fuel <;> simp [centre_loop]
  | succ k ih =>
    intro fuel hk
    obtain ⟨f, rfl⟩ : ∃ f, fuel = f + 1 := ⟨fuel - 1, by omega⟩
    have hne : ((orig_p + 4 * ((k + 1 : Nat) : Int), orig_q - 4 * ((k + 1 : Nat) : Int)).1
        != orig_p) = true := by
      simp only [bne_iff_ne, ne_eq]
      push_cast
      omega
    rw [centre_loop, if_pos hne, h]
    have hstep : ((orig_p + 4 * ((k + 1 : Nat) : Int), orig_q - 4 * ((k + 1 : Nat) : Int)).1 - 4,
        (orig_p + 4 * ((k + 1 : Nat) : Int), orig_q - 4 * ((k + 1 : Nat) : Int)).2 + 4)
        = (orig_p + 4 * (k : Int), orig_q - 4 * (k : Int)) := by
      push_cast
      ext <;> simp only <;> ring
    rw [hstep]
    exact ih f (by omega)

/-- C24. Centring undoes the shifting. For every signature `(orig_p, orig_q)` the
swap of `fast_framed_multi` is performed (the difference after the shifting loops
exceeds 1) exactly when `pos_mod(orig_p - orig_q, 8)` is 2, 3 or 4, which is the
condition under which the `switch` applies `centre_qp1_pm1`. When `centre_qp1_pm1`
takes `(p, q)` to `(q+1, p-1)`, `centre_pp4_qm4` to `(p+4, q-4)` and
`centre_pm4_qp4` to `(p-4, q+4)`, both loops `while (p != orig_p)` end, and the
function ends with `(p, q) = (orig_p, orig_q)`. -/
theorem centring_undoes_shifting
    (centre_qp1_pm1 centre_pp4_qm4 centre_pm4_qp4 : Int × Int → Int × Int)
    (orig_p orig_q : Int)
    (hswap : ∀ s, centre_qp1_pm1 s = (s.2 + 1, s.1 - 1))
    (hup : ∀ s, centre_pp4_qm4 s = (s.1 + 4, s.2 - 4))
    (hdown : ∀ s, centre_pm4_qp4 s = (s.1 - 4, s.2 + 4)) :
    ((shift_loops orig_p orig_q).1 - (shift_loops orig_p orig_q).2 > 1
      ↔ (pos_mod (orig_p - orig_q) 8 = 2 ∨ pos_mod (orig_p - orig_q) 8 = 3
          ∨ pos_mod (orig_p - orig_q) 8 = 4))
    ∧ ∃ n : Nat, ∀ fuel, n ≤ fuel →
        recentred_signature centre_qp1_pm1 centre_pp4_qm4 centre_pm4_qp4 fuel orig_p orig_q
          = some (orig_p, orig_q) := by
  obtain ⟨k, h1, h2, h3, h4, h5, h6⟩ := shift_loops_form orig_p orig_q
  have hiff : (shift_loops orig_p orig_q).1 - (shift_loops orig_p orig_q).2 > 1
      ↔ (pos_mod (orig_p - orig_q) 8 = 2 ∨ pos_mod (orig_p - orig_q) 8 = 3
          ∨ pos_mod (orig_p - orig_q) 8 = 4) := by
    rw [h1]
    unfold pos_mod
    simp only
    omega
  refine ⟨hiff, k.natAbs, ?_⟩
  intro fuel hfuel
  have hv : (if pos_mod (orig_p - orig_q) 8 = 2 ∨ pos_mod (orig_p - orig_q) 8 = 3
        ∨ pos_mod (orig_p - orig_q) 8 = 4 then
        centre_qp1_pm1 (swap_qp1_pm1 (shift_loops orig_p orig_q).1 (shift_loops orig_p orig_q).2)
      else swap_qp1_pm1 (shift_loops orig_p orig_q).1 (shift_loops orig_p orig_q).2)
      = (orig_p - 4 * k, orig_q + 4 * k) := by
    by_cases hc : pos_mod (orig_p - orig_q) 8 = 2 ∨ pos_mod (orig_p - orig_q) 8 = 3
        ∨ pos_mod (orig_p - orig_q) 8 = 4
    · rw [if_pos hc, hswap]
      have hgt := hiff.mpr hc
      unfold swap_qp1_pm1
      rw [if_pos hgt, h1]
      ext <;> simp only <;> ring
    · rw [if_neg hc]
      have hgt : ¬ ((shift_loops orig_p orig_q).1 - (shift_loops orig_p orig_q).2 > 1) :=
        fun h => hc (hiff.mp h)
      unfold swap_qp1_pm1
      rw [if_neg hgt, h1]
  unfold recentred_signature
  simp only [hv]
  by_cases hbig : orig_p - orig_q > 4
  · have hk := h4 hbig
    have hkn : k = (k.natAbs : Int) := by omega
    have hloop := centre_loop_up centre_pp4_qm4 orig_p orig_q hup k.natAbs fuel hfuel
    rw [← hkn] at hloop
    rw [if_pos hbig, hloop]
    simp only
    rw [if_neg (by omega)]
  · rw [if_neg hbig]
    simp only
    by_cases hsmall : orig_p - orig_q < -3
    · have hk := h5 hsmall
      have hloop := centre_loop_down centre_pm4_qp4 orig_p orig_q hdown k.natAbs fuel hfuel
      have e1 : orig_p + 4 * (k.natAbs : Int) = orig_p - 4 * k := by omega
      have e2 : orig_q - 4 * (k.natAbs : Int) = orig_q + 4 * k := by omega
      rw [e1, e2] at hloop
      rw [if_pos hsmall, hloop]
    · have hk := h6 (by omega) (by omega)
      subst hk
      rw [if_neg hsmall]
      simp

/-- Witness of C24 at the signature (13, 0), with the three centring actions as
assumed: the loops shift (13, 0) to (5, 8), there is no swap, and the centring loops
bring the signature back to (13, 0). -/
theorem centring_undoes_shifting_witness :
    ∃ n : Nat, ∀ fuel, n ≤ fuel →
      recentred_signature (fun s => (s.2 + 1, s.1 - 1)) (fun s => (s.1 + 4, s.2 - 4))
        (fun s => (s.1 - 4, s.2 + 4)) fuel 13 0 = some (13, 0) :=
  (centring_undoes_shifting (fun s => (s.2 + 1, s.1 - 1)) (fun s => (s.1 + 4, s.2 - 4))
    (fun s => (s.1 - 4, s.2 + 4)) 13 0 (fun _ => rfl) (fun _ => rfl) (fun _ => rfl)).2


/-! ## The recursion of `fast` -/

section fast_claims

variable {α : Type} [Add α] [Sub α] [Mul α] [Div α] [Neg α] [Scalar_T α]

theorem fast_level_zero (S : Sparse α) (fuel : Nat) (M : matrix_t α) :
    fast S fuel M 0 = some (framed_of_scalar (M.data 0 0)) := by
  cases fuel <;> simp [fast]

theorem fast_level_one (S : Sparse α) (fuel : Nat) (M : matrix_t α) :
    fast S fuel M 1 = some (fast_closed S M 1) := by
  cases fuel <;> simp [fast]

theorem fast_general_level_zero (S : Sparse α) (fuel : Nat) (M : matrix_t α) :
    fast_general S fuel M 0 = some (framed_of_scalar (M.data 0 0)) := by
  cases fuel <;> simp [fast_general]

theorem fast_combine_scalars (S : Sparse α) (level : Int) (i j k jk : α)
    (heven : ∀ s, S.even (framed_of_scalar s) = framed_of_scalar s)
    (hsub : ∀ s t, S.sub (framed_of_scalar s)
      (S.sub (framed_of_scalar t) (framed_of_scalar t)) = framed_of_scalar s)
    (hadd : ∀ s t, S.add (framed_of_scalar s)
      (S.sub (framed_of_scalar t) (framed_of_scalar t)) = framed_of_scalar s) :
    fast_combine S level (framed_of_scalar i) (framed_of_scalar j) (framed_of_scalar k)
        (framed_of_scalar jk)
      = S.add (S.add (framed_of_scalar i)
          (S.mul (fast_mn level)
            (S.add (S.mul (framed_of_scalar jk) (fast_pn level)) (framed_of_scalar j))))
          (S.mul (framed_of_scalar k) (fast_pn level)) := by
  unfold fast_combine
  simp only [heven, hsub, hadd]

theorem fast_general_level_one (S : Sparse α) (fuel : Nat) (M : matrix_t α)
    (heven : ∀ s, S.even (framed_of_scalar s) = framed_of_scalar s)
    (hsub : ∀ s t, S.sub (framed_of_scalar s)
      (S.sub (framed_of_scalar t) (framed_of_scalar t)) = framed_of_scalar s)
    (hadd : ∀ s t, S.add (framed_of_scalar s)
      (S.sub (framed_of_scalar t) (framed_of_scalar t)) = framed_of_scalar s) :
    fast_general S (fuel + 1) M 1 = some (fast_closed S M 1) := by
  have h0 : to_int (1 - 1) = 0 := by decide
  rw [fast_general]
  simp only [h0, fast_general_level_zero, one_ne_zero, if_false]
  rw [fast_combine_scalars S 1 _ _ _ _ heven hsub hadd]
  rfl

theorem fast_general_eq_fast (S : Sparse α)
    (heven : ∀ s, S.even (framed_of_scalar s) = framed_of_scalar s)
    (hsub : ∀ s t, S.sub (framed_of_scalar s)
      (S.sub (framed_of_scalar t) (framed_of_scalar t)) = framed_of_scalar s)
    (hadd : ∀ s t, S.add (framed_of_scalar s)
      (S.sub (framed_of_scalar t) (framed_of_scalar t)) = framed_of_scalar s)
    (fuel : Nat) :
    ∀ (M : matrix_t α) (level : Int), 1 ≤ level → level < 2 ^ 31 →
      fast_general S (fuel + 1) M level = fast S fuel M level := by
  induction fuel with
  | zero =>
    intro M level h1 h2
    by_cases hl : level = 1
    · subst hl
      rw [fast_general_level_one S 0 M heven hsub hadd, fast_level_one]
    · have hne0 : ¬ level = 0 := by omega
      have hne0b : ¬ to_int (level - 1) = 0 := by
        rw [to_int_of_small _ (by omega) (by omega)]; omega
      simp only [fast_general, fast, hne0, hl, hne0b, if_false]
  | succ fuel ih =>
    intro M level h1 h2
    by_cases hl : level = 1
    · subst hl
      rw [fast_general_level_one S _ M heven hsub hadd, fast_level_one]
    · have hne0 : ¬ level = 0 := by omega
      have hsmall : to_int (level - 1) = level - 1 :=
        to_int_of_small _ (by omega) (by omega)
      rw [fast_general, fast]
      simp only [hne0, hl, if_false, hsmall]
      rw [ih _ (level - 1) (by omega) (by omega), ih _ (level - 1) (by omega) (by omega),
        ih _ (level - 1) (by omega) (by omega), ih _ (level - 1) (by omega) (by omega)]

/-- C26. The closed form of level 1 of `fast` is the general recursion specialised.
Let the even part of a scalar be the scalar itself, and let subtracting from a scalar,
or adding to it, the difference of a scalar and itself (the odd part of a scalar)
leave it unchanged. Then for every matrix `M`: `fast(M, 0)` is the scalar `M(0,0)`;
the branch `level == 1` returns `I_M + mn*(JK_M*pn + J_M) + K_M*pn`; the general
branch, run at level 1 on the four results of level 0, returns the same value; and at
every level from 1 on, `fast` returns what the general recursion without the branch
`level == 1` returns with one more nested call. -/
theorem fast_closed_form (S : Sparse α)
    (heven : ∀ s, S.even (framed_of_scalar s) = framed_of_scalar s)
    (hsub : ∀ s t, S.sub (framed_of_scalar s)
      (S.sub (framed_of_scalar t) (framed_of_scalar t)) = framed_of_scalar s)
    (hadd : ∀ s t, S.add (framed_of_scalar s)
      (S.sub (framed_of_scalar t) (framed_of_scalar t)) = framed_of_scalar s)
    (M : matrix_t α) (fuel : Nat) :
    fast S fuel M 0 = some (framed_of_scalar (M.data 0 0))
    ∧ fast S fuel M 1
        = some (S.add
            (S.add (framed_of_scalar ((S.nork fast_I M true).data 0 0))
              (S.mul (fast_mn 1)
                (S.add (S.mul (framed_of_scalar ((S.nork fast_JK M true).data 0 0)) (fast_pn 1))
                  (framed_of_scalar ((S.nork fast_J M true).data 0 0)))))
            (S.mul (framed_of_scalar ((S.nork fast_K M true).data 0 0)) (fast_pn 1)))
    ∧ fast_general S (fuel + 1) M 1 = fast S fuel M 1
    ∧ (∀ I_M J_M K_M JK_M,
        fast S fuel (S.nork fast_I M true) 0 = some I_M →
        fast S fuel (S.nork fast_J M true) 0 = some J_M →
        fast S fuel (S.nork fast_K M true) 0 = some K_M →
        fast S fuel (S.nork fast_JK M true) 0 = some JK_M →
        some (fast_combine S 1 I_M J_M K_M JK_M) = fast S fuel M 1)
    ∧ (∀ level : Int, 1 ≤ level → level < 2 ^ 31 →
        fast_general S (fuel + 1) M level = fast S fuel M level) := by
  refine ⟨fast_level_zero S fuel M, fast_level_one S fuel M, ?_, ?_, ?_⟩
  · rw [fast_general_level_one S fuel M heven hsub hadd, fast_level_one]
  · intro I_M J_M K_M JK_M hI hJ hK hJK
    rw [fast_level_zero] at hI hJ hK hJK
    simp only [Option.some.injEq] at hI hJ hK hJK
    rw [← hI, ← hJ, ← hK, ← hJK, fast_combine_scalars S 1 _ _ _ _ heven hsub hadd,
      fast_level_one]
    rfl
  · intro level h1 h2
    exact fast_general_eq_fast S heven hsub hadd fuel M level h1 h2

end fast_claims

/-- Witness of C26 over the rationals with the sample operations that keep the scalar
part: at level 1 the general recursion and `fast` agree on the 2 by 2 matrix with the
rows (1, 2) and (3, 4). -/
theorem fast_closed_form_witness :
    fast_general scalar_sparse (0 + 1) (two_by_two 1 2 3 4) 1
      = fast scalar_sparse 0 (two_by_two 1 2 3 4) 1 :=
  (fast_closed_form scalar_sparse (fun _ => rfl)
    (by intro s t; simp [scalar_sparse, framed_of_scalar, head_coordinate])
    (by intro s t; simp [scalar_sparse, framed_of_scalar, head_coordinate])
    (two_by_two 1 2 3 4) 0).2.2.1


section fast_termination

variable {α : Type} [Add α] [Sub α] [Mul α] [Div α] [Neg α] [Scalar_T α]

theorem fast_returns (S : Sparse α) (fuel : Nat) :
    ∀ (M : matrix_t α) (n : Nat), n < 2 ^ 31 → n ≤ fuel + 1 →
      ∃ v, fast S fuel M (n : Int) = some v := by
  induction fuel with
  | zero =>
    intro M n _ hn
    by_cases h0 : n = 0
    · subst h0; exact ⟨_, fast_level_zero S 0 M⟩
    · have h1 : n = 1 := by omega
      subst h1; exact ⟨_, fast_level_one S 0 M⟩
  | succ fuel ih =>
    intro M n hlt hn
    by_cases h0 : n = 0
    · subst h0; exact ⟨_, fast_level_zero S _ M⟩
    · by_cases h1 : n = 1
      · subst h1; exact ⟨_, fast_level_one S _ M⟩
      · have hsmall : to_int ((n : Int) - 1) = ((n - 1 : Nat) : Int) := by
          rw [to_int_of_small _ (by omega) (by omega)]; omega
        have hne0 : ¬ (n : Int) = 0 := by omega
        have hne1 : ¬ (n : Int) = 1 := by omega
        obtain ⟨vI, hI⟩ := ih (S.nork fast_I M true) (n - 1) (by omega) (by omega)
        obtain ⟨vJ, hJ⟩ := ih (S.nork fast_J M true) (n - 1) (by omega) (by omega)
        obtain ⟨vK, hK⟩ := ih (S.nork fast_K M true) (n - 1) (by omega) (by omega)
        obtain ⟨vJK, hJK⟩ := ih (S.nork fast_JK M true) (n - 1) (by omega) (by omega)
        refine ⟨fast_combine S n vI vJ vK vJK, ?_⟩
        rw [fast]
        simp only [hne0, hne1, if_false, hsmall, hI, hJ, hK, hJK]

theorem fast_leaves_count (fuel : Nat) :
    ∀ (n : Nat), n < 2 ^ 31 → n ≤ fuel + 1 →
      fast_leaves fuel ((n + 1 : Nat) : Int) = some (4 ^ n) ∨ fuel + 1 < n + 1 := by
  induction fuel with
  | zero =>
    intro n _ hn
    by_cases h0 : n = 0
    · subst h0; left; simp [fast_leaves]
    · right; omega
  | succ fuel ih =>
    intro n hlt hn
    by_cases h0 : n = 0
    · subst h0; left; simp [fast_leaves]
    · by_cases hbig : n = fuel + 2
      · right; omega
      · left
        obtain ⟨m, rfl⟩ : ∃ m, n = m + 1 := ⟨n - 1, by omega⟩
        have hsmall : to_int (((m + 1 + 1 : Nat) : Int) - 1) = ((m + 1 : Nat) : Int) := by
          rw [to_int_of_small _ (by omega) (by omega)]; omega
        have hne0 : ¬ ((m + 1 + 1 : Nat) : Int) = 0 := by omega
        have hne1 : ¬ ((m + 1 + 1 : Nat) : Int) = 1 := by omega
        rcases ih m (by omega) (by omega) with h | h
        · rw [fast_leaves]
          simp only [hne0, hne1, if_false, hsmall, h, Option.some.injEq]
          rw [pow_succ]
          omega
        · omega

theorem fast_isSome_leaves (S : Sparse α) (fuel : Nat) :
    ∀ (M : matrix_t α) (level : Int),
      (fast S fuel M level).isSome = (fast_leaves fuel level).isSome := by
  induction fuel with
  | zero =>
    intro M level
    simp only [fast, fast_leaves]
    split
    · rfl
    · split <;> rfl
  | succ fuel ih =>
    intro M level
    rw [fast, fast_leaves]
    split
    · rfl
    · split
      · rfl
      · have hI := ih (S.nork fast_I M true) (to_int (level - 1))
        have hJ := ih (S.nork fast_J M true) (to_int (level - 1))
        have hK := ih (S.nork fast_K M true) (to_int (level - 1))
        have hJK := ih (S.nork fast_JK M true) (to_int (level - 1))
        cases hl : fast_leaves fuel (to_int (level - 1)) with
        | none =>
          rw [hl] at hI
          cases hfI : fast S fuel (S.nork fast_I M true) (to_int (level - 1)) with
          | none => simp
          | some v => rw [hfI] at hI; simp at hI
        | some n =>
          rw [hl] at hI hJ hK hJK
          cases hfI : fast S fuel (S.nork fast_I M true) (to_int (level - 1)) with
          | none => rw [hfI] at hI; simp at hI
          | some vI =>
            cases hfJ : fast S fuel (S.nork fast_J M true) (to_int (level - 1)) with
            | none => rw [hfJ] at hJ; simp at hJ
            | some vJ =>
              cases hfK : fast S fuel (S.nork fast_K M true) (to_int (level - 1)) with
              | none => rw [hfK] at hK; simp at hK
              | some vK =>
                cases hfJK : fast S fuel (S.nork fast_JK M true) (to_int (level - 1)) with
                | none => rw [hfJK] at hJK; simp at hJK
                | some vJK => simp

theorem fast_negative (S : Sparse α) (fuel : Nat) :
    ∀ (M : matrix_t α) (level : Int), level < 0 → (fuel : Int) ≤ level + 2 ^ 31 →
      fast S fuel M level = none := by
  induction fuel with
  | zero =>
    intro M level h _
    have hne0 : ¬ level = 0 := by omega
    have hne1 : ¬ level = 1 := by omega
    simp only [fast, hne0, hne1, if_false]
  | succ fuel ih =>
    intro M level h hf
    have hne0 : ¬ level = 0 := by omega
    have hne1 : ¬ level = 1 := by omega
    have hsmall : to_int (level - 1) = level - 1 := by
      unfold to_int int_bits
      push_cast at hf
      omega
    rw [fast]
    simp only [hne0, hne1, if_false, hsmall]
    rw [ih _ (level - 1) (by omega) (by push_cast at hf; omega)]

theorem fast_level_nonneg (offset_to_super : List Int) (p0 q0 : Int) (hp : 0 ≤ p0)
    (hq : 0 ≤ q0) : 0 ≤ fast_level offset_to_super p0 q0 := by
  have h1 : 0 ≤ (off_centre offset_to_super p0 q0).1 := by
    unfold off_centre
    simp only
    have := le_max_right (offset_to_super.getD (pos_mod (p0 - q0) 8).toNat 0) 0
    omega
  have h2 : 0 ≤ (off_centre offset_to_super p0 q0).2 := by
    unfold off_centre
    simp only
    have := min_le_right (offset_to_super.getD (pos_mod (p0 - q0) 8).toNat 0) 0
    omega
  unfold fast_level centred_signature
  generalize (off_centre offset_to_super p0 q0).1 = P at h1 ⊢
  generalize (off_centre offset_to_super p0 q0).2 = Q at h2 ⊢
  obtain ⟨k, hk, _⟩ := shift_loops_form P Q
  rw [hk]
  have hsum : (swap_qp1_pm1 (P - 4 * k, Q + 4 * k).1 (P - 4 * k, Q + 4 * k).2).1
      + (swap_qp1_pm1 (P - 4 * k, Q + 4 * k).1 (P - 4 * k, Q + 4 * k).2).2 = P + Q := by
    unfold swap_qp1_pm1
    split <;> simp only <;> omega
  rw [hsum, tdiv_two_eq _ (by omega)]
  omega

/-- C29. `fast` terminates for every level from 0 on. For every matrix `M` and every
level `0 <= level < 2^31`, a depth of `level - 1` nested calls suffices for
`fast(M, level)` to return: each recursive call is at `level - 1`, and the levels 1
and 0 return at once. A call at a level `>= 1` makes `4^(level-1)` evaluations of the
closed form of level 1, a call at level 0 none; the count follows the recursion of
`fast` (the one returns exactly when the other does). The level that
`fast_framed_multi` computes is never negative, whatever the table
`offset_to_super` holds. From a negative level the recursion does not return before
`level + 2^31` nested calls, the depth at which `level - 1` leaves the range of
`int`. -/
theorem fast_terminates (S : Sparse α) (M : matrix_t α) :
    (∀ (level : Int) (fuel : Nat), 0 ≤ level → level < 2 ^ 31 → level.toNat ≤ fuel + 1 →
        ∃ v, fast S fuel M level = some v)
    ∧ (∀ (level : Int) (fuel : Nat), 1 ≤ level → level < 2 ^ 31 → level.toNat ≤ fuel + 1 →
        fast_leaves fuel level = some (4 ^ (level.toNat - 1)))
    ∧ (∀ fuel : Nat, fast_leaves fuel 0 = some 0)
    ∧ (∀ (level : Int) (fuel : Nat),
        (fast S fuel M level).isSome = (fast_leaves fuel level).isSome)
    ∧ (∀ (offset_to_super : List Int) (p0 q0 : Int), 0 ≤ p0 → 0 ≤ q0 →
        0 ≤ fast_level offset_to_super p0 q0)
    ∧ (∀ (level : Int) (fuel : Nat), level < 0 → (fuel : Int) ≤ level + 2 ^ 31 →
        fast S fuel M level = none) := by
  refine ⟨?_, ?_, ?_, ?_, ?_, ?_⟩
  · intro level fuel h0 h1 hf
    obtain ⟨n, rfl⟩ := Int.eq_ofNat_of_zero_le h0
    exact fast_returns S fuel M n (by exact_mod_cast h1) (by simpa using hf)
  · intro level fuel h0 h1 hf
    obtain ⟨n, rfl⟩ := Int.eq_ofNat_of_zero_le (by omega : 0 ≤ level)
    obtain ⟨m, rfl⟩ : ∃ m, n = m + 1 := ⟨n - 1, by omega⟩
    have hlt : m + 1 < 2 ^ 31 := by exact_mod_cast h1
    simp only [Int.toNat_ofNat] at hf ⊢
    rcases fast_leaves_count fuel m (by omega) (by omega) with h | h
    · rw [h]; simp
    · omega
  · intro fuel
    cases fuel <;> simp [fast_leaves]
  · intro level fuel
    exact fast_isSome_leaves S fuel M level
  · intro ots p0 q0 hp hq
    exact fast_level_nonneg ots p0 q0 hp hq
  · intro level fuel h hf
    exact fast_negative S fuel M level h hf

end fast_termination

/-- Witness of C29 over the rationals with the sample operations: at level 3 two
nested calls suffice, and the call makes 16 evaluations of the closed form. -/
theorem fast_terminates_witness :
    (∃ v, fast scalar_sparse 2 (two_by_two 1 2 3 4) 3 = some v)
    ∧ fast_leaves 2 3 = some (4 ^ ((3 : Int).toNat - 1)) :=
  ⟨(fast_terminates scalar_sparse (two_by_two 1 2 3 4)).1 3 2 (by decide) (by decide)
      (by decide),
   (fast_terminates scalar_sparse (two_by_two 1 2 3 4)).2.1 3 2 (by decide) (by decide)
      (by decide)⟩

end glucat
